import Mathlib

/-!
# mailterm: the message decoding and rendering pipeline

A shallow embedding of the decoding helpers of `api/gmail.go` and `api/imap.go`
(`decodeBody`, `formatText`, `formatHeaders`, `handleMultipart`, `parseMessage`, ...)
together with the parts of the Go libraries they call
(`encoding/base64`, `mime/quotedprintable`, `strings`, `mime`, `mime/multipart`, the
`goquery` steps on the node tree of `html.Parse`), and of the handler of `ui/ui.go` that
shows the rendered message.

Go `string`s and `[]byte`s are byte sequences and are modelled as `List UInt8`.
Go's `(value, error)` results are modelled with `Except`.
-/

namespace Mailterm

/-- A Go `string` or `[]byte`. -/
abbrev Bytes := List UInt8

/-- The bytes of an ASCII string literal of the source. -/
def lit (s : String) : Bytes := s.data.map (fun c => UInt8.ofNat c.toNat)

/-- The errors that the decoding path can return, by kind. -/
inductive Error where
  /-- `base64.CorruptInputError`. -/
  | base64Corrupt
  /-- `quotedprintable`: invalid hex byte, or `io.ErrUnexpectedEOF` after an `=`. -/
  | qpInvalidHex
  /-- `quotedprintable: invalid unescaped byte`. -/
  | qpInvalidByte
  /-- `quotedprintable: invalid bytes after =`. -/
  | qpInvalidSoftBreak
  /-- `bufio.ErrBufferFull`. -/
  | bufferFull
  /-- `mime: no media type` and the other errors of `mime.ParseMediaType`. -/
  | mediaType
  /-- `multipart: boundary is empty`. -/
  | emptyBoundary
  /-- Any other error reported by a library call, with its message. -/
  | other (msg : String)
  deriving DecidableEq, Repr

instance instDecidableEqExcept {ε α : Type} [DecidableEq ε] [DecidableEq α] :
    DecidableEq (Except ε α)
  | .ok a, .ok b => if h : a = b then isTrue (by rw [h]) else isFalse (by simpa using h)
  | .error a, .error b => if h : a = b then isTrue (by rw [h]) else isFalse (by simpa using h)
  | .ok _, .error _ => isFalse (by simp)
  | .error _, .ok _ => isFalse (by simp)

/-! ## `strings` -/

/-- Go `strings.HasPrefix`. -/
def HasPrefix (s pre : Bytes) : Bool := pre.isPrefixOf s

/-- Go `strings.Join`. -/
def Join (elems : List Bytes) (sep : Bytes) : Bytes := sep.intercalate elems

/-- Go `strings.Split(s, "\n")`: split at every newline byte. -/
def SplitLines (s : Bytes) : List Bytes := List.splitOn 10 s

/-- The ASCII white space of `strings.TrimSpace`: tab, LF, VT, FF, CR, space. -/
def asciiSpace (b : UInt8) : Bool := b = 9 || b = 10 || b = 11 || b = 12 || b = 13 || b = 32

/-- The two-byte UTF-8 encodings of white space: U+0085 and U+00A0. -/
def space2 (a b : UInt8) : Bool := a = 0xC2 && (b = 0x85 || b = 0xA0)

/-- The three-byte UTF-8 encodings of white space: U+1680, U+2000..U+200A, U+2028, U+2029,
U+202F, U+205F and U+3000. -/
def space3 (a b c : UInt8) : Bool :=
  (a = 0xE1 && b = 0x9A && c = 0x80) ||
  (a = 0xE2 && b = 0x80 && ((0x80 ≤ c && c ≤ 0x8A) || c = 0xA8 || c = 0xA9 || c = 0xAF)) ||
  (a = 0xE2 && b = 0x81 && c = 0x9F) ||
  (a = 0xE3 && b = 0x80 && c = 0x80)

/-- Drop the leading white space runes of a string: the ASCII white space and the encodings
that `s2` and `s3` recognise in the order in which the bytes come. -/
def trimRunes (s2 : UInt8 → UInt8 → Bool) (s3 : UInt8 → UInt8 → UInt8 → Bool) : Bytes → Bytes
  | a :: b :: c :: rest =>
    if asciiSpace a then trimRunes s2 s3 (b :: c :: rest)
    else if s2 a b then trimRunes s2 s3 (c :: rest)
    else if s3 a b c then trimRunes s2 s3 rest
    else a :: b :: c :: rest
  | [a, b] =>
    if asciiSpace a then trimRunes s2 s3 [b]
    else if s2 a b then []
    else [a, b]
  | [a] => if asciiSpace a then [] else [a]
  | [] => []

/-- Go `strings.TrimLeftFunc(s, unicode.IsSpace)`. -/
def TrimLeftSpace (s : Bytes) : Bytes := trimRunes space2 space3 s

/-- Go `strings.TrimRightFunc(s, unicode.IsSpace)`: the trailing white space runes are the
leading ones of the reversed string, with their bytes in reverse order. -/
def TrimRightSpace (s : Bytes) : Bytes :=
  (trimRunes (fun a b => space2 b a) (fun a b c => space3 c b a) s.reverse).reverse

/-- Go `strings.TrimSpace`. -/
def TrimSpace (s : Bytes) : Bytes := TrimRightSpace (TrimLeftSpace s)

/-- The newline byte, the class of the patterns `\n{3,}` and `\n{2,}`. -/
def isNewline (b : UInt8) : Bool := b = 10

/-- The class `[ \t]`. -/
def isBlank (b : UInt8) : Bool := b = 32 || b = 9

/-- Go `strings.Trim(s, "\n")`: `trimLeftByte(trimRightByte(s, c), c)`. -/
def TrimNewlines (s : Bytes) : Bytes := (s.rdropWhile isNewline).dropWhile isNewline

/-- Lower-casing of one ASCII byte. -/
def lowerASCII (b : UInt8) : UInt8 := if 65 ≤ b ∧ b ≤ 90 then b + 32 else b

/-- Go `regexp.ReplaceAllString` for a pattern that matches the maximal runs of at least `k`
bytes of the class `p` (`k ≥ 1`): at the start of a run the replacement is written when the run
is long enough and the run itself otherwise; the rest of the run is skipped. -/
def replaceRunsFrom (p : UInt8 → Bool) (k : Nat) (repl : Bytes) : Bytes → Bool → Bytes
  | [], _ => []
  | b :: bs, inRun =>
    if p b then
      if inRun then replaceRunsFrom p k repl bs true
      else
        (if k ≤ (b :: bs.takeWhile p).length then repl else b :: bs.takeWhile p)
          ++ replaceRunsFrom p k repl bs true
    else b :: replaceRunsFrom p k repl bs false

/-- `ReplaceAllString` for the run patterns of the source. -/
def replaceRuns (p : UInt8 → Bool) (k : Nat) (repl : Bytes) (s : Bytes) : Bytes :=
  replaceRunsFrom p k repl s false

/-! ## `encoding/base64` -/

/-- The alphabet of `base64.StdEncoding`. -/
def encodeStd : Bytes :=
  lit "ABCDEFGHIJKLMNOPQRSTUVWXYZabcdefghijklmnopqrstuvwxyz0123456789+/"

/-- The table `enc.encode` of Go: the character of a 6-bit value. -/
def encodeChar (v : Nat) : UInt8 := encodeStd.getD v 0

/-- The table `enc.decodeMap` of Go: the 6-bit value of a character of the alphabet. -/
def decodeMap (c : UInt8) : Option Nat :=
  if c ∈ encodeStd then some (encodeStd.indexOf c) else none

/-- Go `base64.StdEncoding.EncodeToString`: three bytes become four characters, the last
block is padded with `=`. -/
def stdBase64Encode : Bytes → Bytes
  | a :: b :: c :: rest =>
    let val := a.toNat * 65536 + b.toNat * 256 + c.toNat
    encodeChar (val / 262144 % 64) :: encodeChar (val / 4096 % 64) ::
      encodeChar (val / 64 % 64) :: encodeChar (val % 64) :: stdBase64Encode rest
  | [a, b] =>
    let val := a.toNat * 65536 + b.toNat * 256
    [encodeChar (val / 262144 % 64), encodeChar (val / 4096 % 64), encodeChar (val / 64 % 64), 61]
  | [a] =>
    let val := a.toNat * 65536
    [encodeChar (val / 262144 % 64), encodeChar (val / 4096 % 64), 61, 61]
  | [] => []

/-- The end of `decodeQuantum`: the first `dlen - 1` bytes of the 24-bit value assembled from
the 6-bit values read (missing ones count as zero). -/
def assemble (dbuf : List Nat) : Bytes :=
  let val := dbuf.getD 0 0 * 262144 + dbuf.getD 1 0 * 4096 + dbuf.getD 2 0 * 64 + dbuf.getD 3 0
  ([UInt8.ofNat (val / 65536 % 256), UInt8.ofNat (val / 256 % 256), UInt8.ofNat (val % 256)]).take
    (dbuf.length - 1)

/-- Skip over newlines, as `decodeQuantum` does around the padding. -/
def skipNewlines (s : Bytes) : Bytes := s.dropWhile (fun c => c = 10 || c = 13)

/-- Go `base64.StdEncoding.DecodeString`, as the loop over `decodeQuantum`: `dbuf` holds the
6-bit values of the quantum read so far. CR and LF are skipped, the padding must be complete
and nothing but newlines may follow it. -/
def decodeQuanta : Bytes → List Nat → Except Error Bytes
  | [], dbuf => if dbuf = [] then .ok [] else .error .base64Corrupt
  | c :: src, dbuf =>
    match decodeMap c with
    | some v =>
      if dbuf.length = 3 then
        match decodeQuanta src [] with
        | .ok out => .ok (assemble (dbuf ++ [v]) ++ out)
        | .error e => .error e
      else decodeQuanta src (dbuf ++ [v])
    | none =>
      if c = 10 || c = 13 then decodeQuanta src dbuf
      else if c ≠ 61 then .error .base64Corrupt
      else if dbuf.length < 2 then .error .base64Corrupt
      else if dbuf.length = 2 then
        match skipNewlines src with
        | [] => .error .base64Corrupt
        | d :: src2 =>
          if d ≠ 61 then .error .base64Corrupt
          else if skipNewlines src2 = [] then .ok (assemble dbuf) else .error .base64Corrupt
      else if skipNewlines src = [] then .ok (assemble dbuf) else .error .base64Corrupt

/-- Go `base64.StdEncoding.DecodeString`. -/
def stdBase64Decode (s : Bytes) : Except Error Bytes := decodeQuanta s []

/-- The alphabet of `base64.URLEncoding`. -/
def encodeURL : Bytes :=
  lit "ABCDEFGHIJKLMNOPQRSTUVWXYZabcdefghijklmnopqrstuvwxyz0123456789-_"

/-- The table `enc.encode` of `base64.URLEncoding`. -/
def urlEncodeChar (v : Nat) : UInt8 := encodeURL.getD v 0

/-- The table `enc.decodeMap` of `base64.URLEncoding`. -/
def urlDecodeMap (c : UInt8) : Option Nat :=
  if c ∈ encodeURL then some (encodeURL.indexOf c) else none

/-- Go `base64.URLEncoding.EncodeToString`: the encoder of `StdEncoding` with the URL
alphabet, padded with `=`. -/
def urlBase64Encode : Bytes → Bytes
  | a :: b :: c :: rest =>
    let val := a.toNat * 65536 + b.toNat * 256 + c.toNat
    urlEncodeChar (val / 262144 % 64) :: urlEncodeChar (val / 4096 % 64) ::
      urlEncodeChar (val / 64 % 64) :: urlEncodeChar (val % 64) :: urlBase64Encode rest
  | [a, b] =>
    let val := a.toNat * 65536 + b.toNat * 256
    [urlEncodeChar (val / 262144 % 64), urlEncodeChar (val / 4096 % 64),
      urlEncodeChar (val / 64 % 64), 61]
  | [a] =>
    let val := a.toNat * 65536
    [urlEncodeChar (val / 262144 % 64), urlEncodeChar (val / 4096 % 64), 61, 61]
  | [] => []

/-- The loop over `decodeQuantum` of `base64.URLEncoding.DecodeString`: the loop of
`decodeQuanta` with the URL alphabet. -/
def urlDecodeQuanta : Bytes → List Nat → Except Error Bytes
  | [], dbuf => if dbuf = [] then .ok [] else .error .base64Corrupt
  | c :: src, dbuf =>
    match urlDecodeMap c with
    | some v =>
      if dbuf.length = 3 then
        match urlDecodeQuanta src [] with
        | .ok out => .ok (assemble (dbuf ++ [v]) ++ out)
        | .error e => .error e
      else urlDecodeQuanta src (dbuf ++ [v])
    | none =>
      if c = 10 || c = 13 then urlDecodeQuanta src dbuf
      else if c ≠ 61 then .error .base64Corrupt
      else if dbuf.length < 2 then .error .base64Corrupt
      else if dbuf.length = 2 then
        match skipNewlines src with
        | [] => .error .base64Corrupt
        | d :: src2 =>
          if d ≠ 61 then .error .base64Corrupt
          else if skipNewlines src2 = [] then .ok (assemble dbuf) else .error .base64Corrupt
      else if skipNewlines src = [] then .ok (assemble dbuf) else .error .base64Corrupt

/-- Go `base64.URLEncoding.DecodeString`, the decoder of `GmailClient.GetMessageBody`. -/
def urlBase64Decode (s : Bytes) : Except Error Bytes := urlDecodeQuanta s []

/-! ## `mime/quotedprintable` -/

/-- Go `fromHex`: the value of a hexadecimal digit, lower case accepted. -/
def fromHex (b : UInt8) : Option Nat :=
  if 48 ≤ b ∧ b ≤ 57 then some (b.toNat - 48)
  else if 65 ≤ b ∧ b ≤ 70 then some (b.toNat - 65 + 10)
  else if 97 ≤ b ∧ b ≤ 102 then some (b.toNat - 97 + 10)
  else none

/-- Put a decoded byte in front of the rest of the output, unless the rest failed. -/
def emit (b : UInt8) (more : Except Error Bytes) : Except Error Bytes :=
  match more with
  | .ok out => .ok (b :: out)
  | .error e => .error e

/-- The cases of `Reader.Read` for a byte other than `=`: tab, CR, LF, bytes from 0x80 and
printable ASCII pass, other bytes are errors. -/
def qpPlain (b : UInt8) (more : Except Error Bytes) : Except Error Bytes :=
  if b = 9 ∨ b = 13 ∨ b = 10 ∨ 128 ≤ b ∨ (32 ≤ b ∧ b ≤ 126) then emit b more
  else .error .qpInvalidByte

/-- The byte loop of `Reader.Read` over the content of one line: `=XX` is a byte; an `=` that
is not followed by two hex digits is taken literally unless it ends the line or a CR or LF
follows it. -/
def qpDecodeLine : Bytes → Except Error Bytes
  | b :: h :: l :: rest =>
    if b = 61 then
      match fromHex h, fromHex l with
      | some hv, some lv => emit (UInt8.ofNat (hv * 16 + lv)) (qpDecodeLine rest)
      | _, _ =>
        if h ≠ 13 ∧ h ≠ 10 then emit 61 (qpDecodeLine (h :: l :: rest))
        else .error .qpInvalidHex
    else qpPlain b (qpDecodeLine (h :: l :: rest))
  | [b, h] =>
    if b = 61 then
      if h ≠ 13 ∧ h ≠ 10 then emit 61 (qpDecodeLine [h]) else .error .qpInvalidHex
    else qpPlain b (qpDecodeLine [h])
  | [b] => if b = 61 then .error .qpInvalidHex else qpPlain b (.ok [])
  | [] => .ok []

/-- Go `isQPDiscardWhitespace`. -/
def isQPDiscardWhitespace (b : UInt8) : Bool := b = 10 || b = 13 || b = 32 || b = 9

/-- What `Reader.Read` makes of one line `wholeLine` returned by `ReadSlice` with the error
`rerr` (`none` for `nil`): the content to decode and the pending error. Trailing white space
is dropped; a line ending in `=` is a soft line break, valid when a line end follows the `=`
or the input ends there; otherwise the line end is kept as CRLF or LF.

The test of the soft line break is the one of the Go source, on `rightStripped`, the bytes of
`wholeLine` after the `=`, which `TrimRightFunc` dropped: the error
`quotedprintable: invalid bytes after =` is set unless `bytes.HasPrefix(rightStripped, lf)` or
`bytes.HasPrefix(rightStripped, crlf)` or
`len(rightStripped) == 0 && len(r.line) > 0 && r.rerr == io.EOF`. So white space between the
`=` and the line end, as in `foo=\r\r\r \nbar` of the test table of the reader, is an
error. -/
def qpLine (wholeLine : Bytes) (rerr : Option Error) (atEOF : Bool) : Bytes × Option Error :=
  let hasLF := (lit "\n").isSuffixOf wholeLine
  let hasCR := (lit "\r\n").isSuffixOf wholeLine
  let line := wholeLine.rdropWhile isQPDiscardWhitespace
  if (lit "=").isSuffixOf line then
    let rightStripped := wholeLine.drop line.length
    let line2 := line.dropLast
    if !HasPrefix rightStripped (lit "\n") && !HasPrefix rightStripped (lit "\r\n") &&
        !(rightStripped.length = 0 && line2.length > 0 && atEOF) then
      (line2, some .qpInvalidSoftBreak)
    else (line2, rerr)
  else if hasLF then
    if hasCR then (line ++ lit "\r\n", rerr) else (line ++ lit "\n", rerr)
  else (line, rerr)

/-- Decode one line and go on with `next` unless an error is pending after it. -/
def qpStep (wholeLine : Bytes) (rerr : Option Error) (atEOF : Bool)
    (next : Unit → Except Error Bytes) : Except Error Bytes :=
  match qpDecodeLine (qpLine wholeLine rerr atEOF).1 with
  | .error e => .error e
  | .ok out =>
    match (qpLine wholeLine rerr atEOF).2 with
    | some e => .error e
    | none =>
      match next () with
      | .ok more => .ok (out ++ more)
      | .error e => .error e

/-- Go `io.ReadAll(quotedprintable.NewReader(strings.NewReader(body)))`: the input is read in
lines with `bufio.Reader.ReadSlice` (`cur` holds the bytes of the current line read so far).
A line ends at LF; 4096 bytes without LF fill the buffer and end the reading with
`bufio.ErrBufferFull`; the end of the input ends it with `io.EOF`, which is success. -/
def qpReadAll : Bytes → Bytes → Except Error Bytes
  | [], cur =>
    match qpDecodeLine (qpLine cur none true).1 with
    | .error e => .error e
    | .ok out =>
      match (qpLine cur none true).2 with
      | some e => .error e
      | none => .ok out
  | b :: rest, cur =>
    if b = 10 then qpStep (cur ++ [b]) none false (fun _ => qpReadAll rest [])
    else if 4096 ≤ cur.length + 1 then
      qpStep (cur ++ [b]) (some .bufferFull) false (fun _ => .error .bufferFull)
    else qpReadAll rest (cur ++ [b])

/-- The state of a `quotedprintable.Writer`: the `Binary` option, the bytes written to the
underlying writer, the line buffer `line[:i]` and the flag `cr`. -/
structure Writer where
  Binary : Bool
  out : Bytes
  line : Bytes
  cr : Bool
  deriving DecidableEq, Repr

/-- The `lineMaxLen` of Go. -/
def lineMaxLen : Nat := 76

/-- The table `upperhex` of Go. -/
def upperhex (v : Nat) : UInt8 := (lit "0123456789ABCDEF").getD v 0

/-- Go `(*Writer).flush`. -/
def Writer.flush (w : Writer) : Writer := { w with out := w.out ++ w.line, line := [] }

/-- Go `(*Writer).insertCRLF`. -/
def Writer.insertCRLF (w : Writer) : Writer := Writer.flush { w with line := w.line ++ lit "\r\n" }

/-- Go `(*Writer).insertSoftLineBreak`. -/
def Writer.insertSoftLineBreak (w : Writer) : Writer :=
  Writer.insertCRLF { w with line := w.line ++ lit "=" }

/-- Go `(*Writer).encode`: write `=XX`, after a soft line break when fewer than three places
are left on the line. -/
def Writer.encode (w : Writer) (b : UInt8) : Writer :=
  let w1 := if lineMaxLen - 1 - w.line.length < 3 then w.insertSoftLineBreak else w
  { w1 with line := w1.line ++ [61, upperhex (b.toNat / 16), upperhex (b.toNat % 16)] }

/-- Go `isWhitespace`. -/
def isWhitespace (b : UInt8) : Bool := b = 32 || b = 9

/-- Go `(*Writer).checkLastByte`: a space or tab that ends the line is encoded. -/
def Writer.checkLastByte (w : Writer) : Writer :=
  match w.line.getLast? with
  | none => w
  | some b => if isWhitespace b then Writer.encode { w with line := w.line.dropLast } b else w

/-- One turn of the loop of Go `(*Writer).write`. -/
def Writer.write1 (w : Writer) (b : UInt8) : Writer :=
  if b = 10 ∨ b = 13 then
    if w.cr ∧ b = 10 then { w with cr := false }
    else
      let w1 := if b = 13 then { w with cr := true } else w
      w1.checkLastByte.insertCRLF
  else
    let w1 := if w.line.length = lineMaxLen - 1 then w.insertSoftLineBreak else w
    { w1 with line := w1.line ++ [b], cr := false }

/-- One byte of Go `(*Writer).Write`: printable bytes other than `=`, white space and, when not
`Binary`, CR and LF are written as they are, all others are encoded. -/
def Writer.Write1 (w : Writer) (b : UInt8) : Writer :=
  if (33 ≤ b ∧ b ≤ 126 ∧ b ≠ 61) ∨ isWhitespace b ∨ (!w.Binary ∧ (b = 10 ∨ b = 13)) then w.write1 b
  else w.encode b

/-- Go `(*Writer).Write`. -/
def Writer.Write (w : Writer) (p : Bytes) : Writer := p.foldl Writer.Write1 w

/-- Go `(*Writer).Close`. -/
def Writer.Close (w : Writer) : Writer := w.checkLastByte.flush

/-- The quoted-printable encoding of a payload by a `quotedprintable.Writer`: `NewWriter`,
the option `Binary`, `Write`, `Close`. -/
def quotedPrintableEncode (binary : Bool) (p : Bytes) : Bytes :=
  (Writer.Close (Writer.Write { Binary := binary, out := [], line := [], cr := false } p)).out

/-! ## `golang.org/x/net/html` and `goquery` -/

/-- An `html.Node` with its attributes (key and value) and its children. -/
inductive Node where
  | text (data : Bytes)
  | element (name : Bytes) (attr : List (Bytes × Bytes)) (children : List Node)
  | comment (data : Bytes)
  | doctype (name : Bytes)
  | document (children : List Node)

mutual
/-- The function `f` of goquery `Selection.Text`: the data of the text nodes of a tree, in
document order. -/
def Node.Text : Node → Bytes
  | .text data => data
  | .element _ _ children => textOfNodes children
  | .document children => textOfNodes children
  | .comment _ => []
  | .doctype _ => []
/-- The text of a list of sibling nodes. -/
def textOfNodes : List Node → Bytes
  | [] => []
  | n :: ns => n.Text ++ textOfNodes ns
end

/-- The selector of an element name: whether the node is an element of this name. -/
def isElement (tag : Bytes) : Node → Bool
  | .element name _ _ => name = tag
  | _ => false

mutual
/-- Go `doc.Find(tag).Each` with `s.Remove()`: every descendant element of the name is taken
out of the tree. -/
def Node.removeElements (tag : Bytes) : Node → Node
  | .element name attr children => .element name attr (removeElementsOfNodes tag children)
  | .document children => .document (removeElementsOfNodes tag children)
  | .text data => .text data
  | .comment data => .comment data
  | .doctype name => .doctype name
/-- The removal of the elements of a name from a list of sibling nodes. -/
def removeElementsOfNodes (tag : Bytes) : List Node → List Node
  | [] => []
  | n :: ns =>
    if isElement tag n then removeElementsOfNodes tag ns
    else n.removeElements tag :: removeElementsOfNodes tag ns
end

/-- The `removeAttr` of goquery: the first attribute of the key is overwritten by the last
attribute and the list is cut by one. -/
def removeAttr (key : Bytes) (attr : List (Bytes × Bytes)) : List (Bytes × Bytes) :=
  if attr.any (fun a => a.1 = key) then
    (attr.set (attr.findIdx (fun a => a.1 = key)) (attr.getLastD ([], []))).dropLast
  else attr

mutual
/-- Go `s.RemoveAttr(key)` on a node that the selector `[key]` may match, and on its
descendants. -/
def Node.removeAttrBelow (key : Bytes) : Node → Node
  | .element name attr children =>
    .element name (removeAttr key attr) (removeAttrOfNodes key children)
  | .document children => .document (removeAttrOfNodes key children)
  | .text data => .text data
  | .comment data => .comment data
  | .doctype name => .doctype name
/-- The removal of an attribute from a list of sibling nodes and their descendants. -/
def removeAttrOfNodes (key : Bytes) : List Node → List Node
  | [] => []
  | n :: ns => n.removeAttrBelow key :: removeAttrOfNodes key ns
end

/-- Go `doc.Find("[key]").Each` with `s.RemoveAttr(key)`: the attribute is removed from every
descendant of the root. -/
def Node.removeAttrs (key : Bytes) : Node → Node
  | .element name attr children => .element name attr (removeAttrOfNodes key children)
  | .document children => .document (removeAttrOfNodes key children)
  | .text data => .text data
  | .comment data => .comment data
  | .doctype name => .doctype name

/-! ## The parts of the libraries that are taken as parameters -/

/-- A `textproto.MIMEHeader` (`mail.Header`): canonical header names with their values. -/
abbrev Header := List (Bytes × List Bytes)

/-- Go `Header.Get` for a key in canonical form, as all keys of the source are: the first value
of the header, `""` when there is none. -/
def Header.Get (h : Header) (key : Bytes) : Bytes :=
  match h.lookup key with
  | some (v :: _) => v
  | _ => []

/-- A `multipart.Part` as `NextPart` returns it: its header and the result of `io.ReadAll`
on it. -/
structure Part where
  Header : Header
  Body : Except Error Bytes
  deriving DecidableEq, Repr

/-- The results of the successive calls of `NextPart` on a `multipart.Reader`: parts, until
`io.EOF` or another error. -/
inductive Parts where
  | eof
  | fail (e : Error)
  | part (p : Part) (rest : Parts)
  deriving DecidableEq, Repr

/-- The sequence of `NextPart` results of a body that holds the given parts and ends
properly. -/
def Parts.ofList : List Part → Parts
  | [] => .eof
  | p :: ps => .part p (Parts.ofList ps)

/-- The library code that is not modelled in detail. -/
structure GoLib where
  /-- Go `strings.Map(unicode.ToLower, s)`, used by `strings.ToLower` on a string with a
  byte from 0x80. -/
  unicodeToLower : Bytes → Bytes
  /-- The parameter loop of `mime.ParseMediaType`, on the non-empty rest of the header value
  from its first `;`. -/
  parseMediaParams : Bytes → Except Error (List (Bytes × Bytes))
  /-- The parts that a `multipart.Reader` with a non-empty boundary finds in a body. -/
  multipartParts : Bytes → Bytes → Parts
  /-- Go `goquery.NewDocumentFromReader`, that is `html.Parse`: the document node of the
  parsed HTML. -/
  parseHTML : Bytes → Except Error Node

/-- Go `strings.ToLower`: ASCII strings are lower-cased byte by byte. -/
def ToLower (L : GoLib) (s : Bytes) : Bytes :=
  if s.all (fun c => c < 128) then s.map lowerASCII else L.unicodeToLower s

/-! ## `mime` and `mime/multipart` -/

/-- Go `isTSpecial`. -/
def isTSpecial (b : UInt8) : Bool := b ∈ lit "()<>@,;:\\\"/[]?="

/-- Go `isTokenChar`. -/
def isTokenChar (b : UInt8) : Bool := 0x20 < b && b < 0x7f && !isTSpecial b

/-- Go `consumeToken`: the longest prefix of token characters, and the rest. -/
def consumeToken (v : Bytes) : Bytes × Bytes := (v.takeWhile isTokenChar, v.dropWhile isTokenChar)

/-- Go `checkMediaTypeDisposition`: `true` when the string is `token` or `token/token`. -/
def checkMediaTypeDisposition (s : Bytes) : Bool :=
  let (typ, rest) := consumeToken s
  if typ = [] then false
  else if rest = [] then true
  else if !HasPrefix rest (lit "/") then false
  else
    let (subtype, rest2) := consumeToken (rest.drop 1)
    if subtype = [] then false else rest2 = []

/-- Go `mime.ParseMediaType`: the media type is the lower-cased, trimmed text before the
first `;`; without a `;` there are no parameters. -/
def ParseMediaType (L : GoLib) (v : Bytes) : Except Error (Bytes × List (Bytes × Bytes)) :=
  let base := v.takeWhile (· ≠ 59)
  let mediatype := TrimSpace (ToLower L base)
  if !checkMediaTypeDisposition mediatype then .error .mediaType
  else if v.drop base.length = [] then .ok (mediatype, [])
  else
    match L.parseMediaParams (v.drop base.length) with
    | .ok params => .ok (mediatype, params)
    | .error e => .error e

/-- Go `params["boundary"]`: the value of the key, `""` when it is absent. -/
def paramGet (params : List (Bytes × Bytes)) (key : Bytes) : Bytes := (params.lookup key).getD []

/-- Go `multipart.NewReader(r, boundary)` with its successive `NextPart` results: `NextPart`
refuses an empty boundary. -/
def NextParts (L : GoLib) (body boundary : Bytes) : Parts :=
  if boundary = [] then .fail .emptyBoundary else L.multipartParts body boundary

/-! ## `regexp`: the other patterns of the source -/

/-- The class `\s` of Go regular expressions: tab, LF, FF, CR, space. -/
def reSpace (b : UInt8) : Bool := b = 9 || b = 10 || b = 12 || b = 13 || b = 32

/-- Go `regexp.MustCompile("\n\s*\n").ReplaceAllString(s, "\n\n")`: a match starts at a
newline and ends at the last newline of the run of `\s` that follows it; `skip` counts the
bytes of the current match that are still to be passed over. -/
def replaceBlankFrom : Bytes → Nat → Bytes
  | [], _ => []
  | _ :: bs, skip + 1 => replaceBlankFrom bs skip
  | b :: bs, 0 =>
    if b = 10 ∧ ((bs.takeWhile reSpace).rdropWhile (· ≠ 10)).length ≠ 0 then
      lit "\n\n" ++ replaceBlankFrom bs ((bs.takeWhile reSpace).rdropWhile (· ≠ 10)).length
    else b :: replaceBlankFrom bs 0

/-! ## `api/imap.go` -/

/-- `decodeBody` of `api/imap.go`. -/
def decodeBody (L : GoLib) (body encoding : Bytes) : Except Error Bytes :=
  if ToLower L encoding = lit "base64" then
    match stdBase64Decode body with
    | .error err => .error err
    | .ok decoded => .ok decoded
  else if ToLower L encoding = lit "quoted-printable" then
    match qpReadAll body [] with
    | .error err => .error err
    | .ok decoded => .ok decoded
  else .ok body

/-- `renderImapMessage` of `api/imap.go`. -/
def renderImapMessage (L : GoLib) (body contentType : Bytes) : Except Error Bytes :=
  if HasPrefix contentType (lit "text/html") then
    match L.parseHTML body with
    | .error err => .error err
    | .ok doc =>
      let doc := doc.removeElements (lit "style")
      let doc := doc.removeAttrs (lit "style")
      let renderedHTML := doc.Text
      let renderedHTML := replaceRuns reSpace 1 (lit " ") renderedHTML
      let renderedHTML := replaceBlankFrom renderedHTML 0
      .ok (TrimSpace renderedHTML)
  else .ok body

/-- `handleSinglePart` of `api/imap.go`; `r` is the result of `io.ReadAll` on the reader. -/
def handleSinglePart (L : GoLib) (r : Except Error Bytes) (contentType encoding : Bytes) :
    Except Error Bytes :=
  match r with
  | .error err => .error err
  | .ok body =>
    match decodeBody L body encoding with
    | .error err => .error err
    | .ok decodedBody =>
      match renderImapMessage L decodedBody contentType with
      | .error err => .error err
      | .ok renderedBody => .ok renderedBody

/-- The loop of `handleMultipart` of `api/imap.go` over the results of `NextPart`; the value
is what the loop adds to `result` from here on. -/
def handleParts (L : GoLib) : Parts → Except Error Bytes
  | .eof => .ok []
  | .fail err => .error err
  | .part p rest =>
    let contentType := p.Header.Get (lit "Content-Type")
    if HasPrefix contentType (lit "text/plain") || HasPrefix contentType (lit "text/html") then
      match handleSinglePart L p.Body contentType (p.Header.Get (lit "Content-Transfer-Encoding")) with
      | .error err => .error err
      | .ok partContent =>
        match handleParts L rest with
        | .error err => .error err
        | .ok more => .ok (partContent ++ lit "\n\n" ++ more)
    else handleParts L rest

/-- `handleMultipart` of `api/imap.go`. -/
def handleMultipart (L : GoLib) (r boundary : Bytes) : Except Error Bytes :=
  handleParts L (NextParts L r boundary)

/-- `formatHeaders` of `api/imap.go`. -/
def formatHeaders (header : Header) : Bytes :=
  lit "From: " ++ header.Get (lit "From") ++ lit "\nTo: " ++ header.Get (lit "To") ++
    lit "\nCc: " ++ header.Get (lit "Cc") ++ lit "\nDate: " ++ header.Get (lit "Date") ++
    lit "\nSubject: " ++ header.Get (lit "Subject")

/-- A `mail.Message` as `mail.ReadMessage` returns it: the header and the bytes of the
body. -/
structure MailMessage where
  Header : Header
  Body : Bytes
  deriving DecidableEq, Repr

/-- `IMAP.GetMessageBody` of `api/imap.go` from the call of `mail.ReadMessage` on; `read` is
the result of that call on the fetched body section. -/
def IMAP.GetMessageBody (L : GoLib) (read : Except Error MailMessage) : Except Error Bytes :=
  match read with
  | .error err => .error err
  | .ok m =>
    let headers := formatHeaders m.Header
    let (contentType, params) :=
      match ParseMediaType L (m.Header.Get (lit "Content-Type")) with
      | .ok (contentType, params) => (contentType, params)
      | .error _ => (lit "text/plain", [])
    let body :=
      if HasPrefix contentType (lit "multipart/") then
        handleMultipart L m.Body (paramGet params (lit "boundary"))
      else handleSinglePart L (.ok m.Body) contentType (m.Header.Get (lit "Content-Transfer-Encoding"))
    match body with
    | .error err => .error err
    | .ok body => .ok (headers ++ lit "\n\n" ++ body)

/-! ## `api/gmail.go` -/

/-- `decodeBodyGmail` of `api/gmail.go`. -/
def decodeBodyGmail (L : GoLib) (body encoding : Bytes) : Except Error Bytes :=
  if ToLower L encoding = lit "base64" then
    match stdBase64Decode body with
    | .error err => .error err
    | .ok decoded => .ok decoded
  else if ToLower L encoding = lit "quoted-printable" then
    match qpReadAll body [] with
    | .error err => .error err
    | .ok decoded => .ok decoded
  else .ok body

/-- `formatText` of `api/gmail.go`. -/
def formatText (text : Bytes) : Bytes :=
  let text := replaceRuns isNewline 3 (lit "\n\n") text
  let text := replaceRuns isBlank 1 (lit " ") text
  let lines := (SplitLines text).map TrimSpace
  let text := Join lines (lit "\n")
  let text := TrimNewlines text
  replaceRuns isNewline 2 (lit "\n\n") text

/-- `renderMessageBodyGmail` of `api/gmail.go`. -/
def renderMessageBodyGmail (L : GoLib) (body contentType : Bytes) : Except Error Bytes :=
  if HasPrefix contentType (lit "text/html") then
    match L.parseHTML body with
    | .error err => .error err
    | .ok doc =>
      let doc := doc.removeElements (lit "style")
      let doc := doc.removeAttrs (lit "style")
      let renderedHTML := doc.Text
      .ok (formatText renderedHTML)
  else .ok (formatText body)

/-- `handleSinglePartGmail` of `api/gmail.go`. -/
def handleSinglePartGmail (L : GoLib) (r : Except Error Bytes) (contentType encoding : Bytes) :
    Except Error Bytes :=
  match r with
  | .error err => .error err
  | .ok body =>
    match decodeBodyGmail L body encoding with
    | .error err => .error err
    | .ok decodedBody =>
      match renderMessageBodyGmail L decodedBody contentType with
      | .error err => .error err
      | .ok renderedBody => .ok renderedBody

/-- The loop of `handleMultipartGmail` of `api/gmail.go` over the results of `NextPart`; the
parts are rendered with `handleSinglePart`, as in the source. -/
def handlePartsGmail (L : GoLib) : Parts → Except Error Bytes
  | .eof => .ok []
  | .fail err => .error err
  | .part p rest =>
    let contentType := p.Header.Get (lit "Content-Type")
    if HasPrefix contentType (lit "text/plain") || HasPrefix contentType (lit "text/html") then
      match handleSinglePart L p.Body contentType (p.Header.Get (lit "Content-Transfer-Encoding")) with
      | .error err => .error err
      | .ok partContent =>
        match handlePartsGmail L rest with
        | .error err => .error err
        | .ok more => .ok (partContent ++ lit "\n\n" ++ more)
    else handlePartsGmail L rest

/-- `handleMultipartGmail` of `api/gmail.go`. -/
def handleMultipartGmail (L : GoLib) (r boundary : Bytes) : Except Error Bytes :=
  handlePartsGmail L (NextParts L r boundary)

/-- The `headerOrder` of `formatHeadersGmail`. -/
def headerOrder : List Bytes := [lit "From", lit "To", lit "Cc", lit "Date", lit "Subject"]

/-- `formatHeadersGmail` of `api/gmail.go`; the map is given as the list of its entries. -/
def formatHeadersGmail (headers : List (Bytes × Bytes)) : Bytes :=
  TrimSpace (headerOrder.foldl (fun formattedHeaders header =>
    match headers.lookup header with
    | some value =>
      if value ≠ [] then formattedHeaders ++ (header ++ lit ": " ++ value ++ lit "\n")
      else formattedHeaders
    | none => formattedHeaders) [])

/-- `parseMessage` of `api/gmail.go` from the call of `mail.ReadMessage` on; `read` is the
result of that call on the raw data. -/
def parseMessage (L : GoLib) (read : Except Error MailMessage) :
    Except Error (List (Bytes × Bytes) × Bytes) :=
  match read with
  | .error err => .error err
  | .ok msg =>
    let headers := msg.Header.map (fun kv => (kv.1, Join kv.2 (lit ", ")))
    let (contentType, params) :=
      match ParseMediaType L (msg.Header.Get (lit "Content-Type")) with
      | .ok (contentType, params) => (contentType, params)
      | .error _ => (lit "text/plain", [])
    let body :=
      if HasPrefix contentType (lit "multipart/") then
        handleMultipartGmail L msg.Body (paramGet params (lit "boundary"))
      else
        handleSinglePartGmail L (.ok msg.Body) contentType
          (msg.Header.Get (lit "Content-Transfer-Encoding"))
    match body with
    | .error err => .error err
    | .ok body => .ok (headers, body)

/-- `GmailClient.GetMessageBody` of `api/gmail.go` from the call of `parseMessage` on; `read`
is the result of `mail.ReadMessage` on the raw data. -/
def GmailClient.GetMessageBody (L : GoLib) (read : Except Error MailMessage) : Except Error Bytes :=
  match parseMessage L read with
  | .error err => .error err
  | .ok (headers, body) => .ok (formatHeadersGmail headers ++ lit "\n\n" ++ body)

/-- The `Message` of `api/email.go`. -/
structure Message where
  Subject : Bytes
  Body : Bytes
  From : Bytes
  ThreadId : Bytes
  To : Bytes
  deriving DecidableEq, Repr

/-- The fields of a `gmail.Message` that `PrepareMessageForSending` sets. -/
structure GmailMessage where
  Raw : Bytes
  ThreadId : Bytes
  deriving DecidableEq, Repr

/-- `GmailClient.PrepareMessageForSending` of `api/gmail.go`; `message` is the buffer that
the calls of `fmt.Fprintf` and `WriteString` write to. -/
def PrepareMessageForSending (email : Message) : GmailMessage :=
  let message : Bytes := []
  let message := message ++ (lit "From: " ++ email.From ++ lit "\r\n")
  let message := message ++ (lit "To: " ++ email.To ++ lit "\r\n")
  let message := message ++ (lit "Subject: " ++ email.Subject ++ lit "\r\n")
  let message := message ++ lit "MIME-Version: 1.0\r\n"
  let message := message ++ lit "Content-Type: text/plain; charset=\"utf-8\"\r\n"
  let message := message ++ lit "\r\n"
  let message := message ++ email.Body
  let rawMessage := urlBase64Encode message
  { Raw := rawMessage, ThreadId := email.ThreadId }

/-! ## `strconv` and `ui/ui.go` -/

/-- Go `strconv.Atoi` with 64-bit `int`: an optional sign and at least one decimal digit,
within the range of `int`. -/
def Atoi (s : Bytes) : Except Error Int :=
  let neg := s.head? = some 45
  let digits := if s.head? = some 45 ∨ s.head? = some 43 then s.drop 1 else s
  if digits = [] ∨ ¬ digits.all (fun ch => 48 ≤ ch ∧ ch ≤ 57) then
    .error (.other "strconv.Atoi: invalid syntax")
  else
    let n : Nat := digits.foldl (fun (n : Nat) ch => n * 10 + (ch.toNat - 48)) 0
    if neg then
      if n ≤ 2 ^ 63 then .ok (-(n : Int)) else .error (.other "strconv.Atoi: value out of range")
    else
      if n < 2 ^ 63 then .ok (n : Int) else .error (.other "strconv.Atoi: value out of range")

/-- The Go conversion `uint32(uid)` of an `int`. -/
def uint32 (uid : Int) : Nat := (uid % 2 ^ 32).toNat

/-- What the handler of `setupEvents` reaches outside of the decoding code: the active
service, for each backend the result of the fetch and of `mail.ReadMessage` for a message, and
the text of an error value (`%v`). -/
structure UI where
  ActiveService : Bytes
  gmailMessage : Bytes → Except Error MailMessage
  imapMessage : Nat → Except Error MailMessage
  errorString : Error → Bytes

/-- The message pane (`messageBody`) as the handler changes it: its text, the line it is
scrolled to and whether it has the focus. -/
structure MessagePane where
  text : Bytes
  lineOffset : Nat
  focused : Bool
  deriving DecidableEq, Repr

/-- `renderGmailMessage` of `ui/ui.go`. -/
def renderGmailMessage (L : GoLib) (ui : UI) (messageId : Bytes) : Except Error Bytes :=
  match GmailClient.GetMessageBody L (ui.gmailMessage messageId) with
  | .error err => .error err
  | .ok renderedMessage => .ok renderedMessage

/-- `renderGraphMessage` of `ui/ui.go`. -/
def renderGraphMessage (_messageId : Bytes) : Except Error Bytes := .ok []

/-- The end of the handler, after the `switch`: the text of the pane is replaced, by the
error text when `err` is not nil, the pane is scrolled to the beginning and takes the focus. -/
def showContent (ui : UI) (result : Except Error Bytes) : MessagePane :=
  let newContent :=
    match result with
    | .error err => lit "Error displaying message: " ++ ui.errorString err
    | .ok newContent => newContent
  { text := newContent, lineOffset := 0, focused := true }

/-- The function that `setupEvents` of `ui/ui.go` gives to `SetSelectedFunc`: the message
pane after the selection of the list item with the secondary text `secondaryText`. -/
def messageSelected (L : GoLib) (ui : UI) (secondaryText : Bytes) (pane : MessagePane) :
    MessagePane :=
  if ui.ActiveService = lit "gmail" then
    showContent ui (renderGmailMessage L ui secondaryText)
  else if ui.ActiveService = lit "graph" then
    showContent ui (renderGraphMessage secondaryText)
  else if ui.ActiveService = lit "imap" then
    match Atoi secondaryText with
    | .error _ => pane
    | .ok uid =>
      match IMAP.GetMessageBody L (ui.imapMessage (uint32 uid)) with
      | .error _ => pane
      | .ok newContent => showContent ui (.ok newContent)
  else showContent ui (.ok [])

/-! ## Definitions used to state the properties -/

/-- The header key `Content-Type`. -/
def contentTypeKey : Bytes := lit "Content-Type"

/-- The header key `Content-Transfer-Encoding`. -/
def transferEncodingKey : Bytes := lit "Content-Transfer-Encoding"

/-- The test of the multipart loop: the Content-Type of the part begins with `text/plain` or
with `text/html`. -/
def isTextPart (p : Part) : Bool :=
  HasPrefix (p.Header.Get contentTypeKey) (lit "text/plain") ||
    HasPrefix (p.Header.Get contentTypeKey) (lit "text/html")

/-- The rendered text of a sub-part: `handleSinglePart` on its content, with its Content-Type
and Content-Transfer-Encoding. -/
def renderPart (L : GoLib) (p : Part) : Except Error Bytes :=
  handleSinglePart L p.Body (p.Header.Get contentTypeKey) (p.Header.Get transferEncodingKey)

/-- Every text followed by a blank line, one after the other. -/
def concatParts (texts : List Bytes) : Bytes := (texts.map (· ++ lit "\n\n")).flatten

/-- The body of a `multipart/alternative` entity with the boundary `in` and one `text/plain`
part. -/
def innerBody : Bytes := lit "--in\r\nContent-Type: text/plain\r\n\r\nhello\r\n--in--\r\n"

/-- The `text/plain` part of `innerBody`. -/
def innerLeaf : Part := { Header := [(contentTypeKey, [lit "text/plain"])], Body := .ok (lit "hello") }

/-- The body of a `multipart/mixed` message with the boundary `out` whose one part is the
`multipart/alternative` entity `innerBody`. -/
def outerBody : Bytes :=
  lit "--out\r\nContent-Type: multipart/alternative; boundary=in\r\n\r\n" ++ innerBody ++
    lit "\r\n--out--\r\n"

/-- The part of `outerBody`. -/
def nestedPart : Part :=
  { Header := [(contentTypeKey, [lit "multipart/alternative; boundary=in"])], Body := .ok innerBody }

/-- The body of a multipart message with the boundary `out` and no part. -/
def emptyOuterBody : Bytes := lit "--out--\r\n"

mutual
/-- The visible text of a node: the data of its text nodes, in document order, without those
that are the node or lie inside an element of the name `tag`. -/
def Node.visibleText (tag : Bytes) : Node → Bytes
  | .text data => data
  | .element name _ children => if name = tag then [] else visibleTextOfNodes tag children
  | .document children => visibleTextOfNodes tag children
  | .comment _ => []
  | .doctype _ => []
/-- The visible text of a list of sibling nodes. -/
def visibleTextOfNodes (tag : Bytes) : List Node → Bytes
  | [] => []
  | n :: ns => n.visibleText tag ++ visibleTextOfNodes tag ns
end

/-- The HTML text with a `style` element and a paragraph with a `style` attribute. -/
def styledHTML : Bytes := lit "<style>.x\x7bcolor:red\x7d</style><p style=\"color:red\">Hello</p>"

/-- The document that `html.Parse` builds from `styledHTML`: the `style` element goes into the
head and the paragraph into the body. -/
def styledDocument : Node :=
  .document [.element (lit "html") [] [
    .element (lit "head") [] [.element (lit "style") [] [.text (lit ".x\x7bcolor:red\x7d")]],
    .element (lit "body") [] [.element (lit "p") [(lit "style", lit "color:red")] [.text (lit "Hello")]]]]

/-- A library for running the code on the example messages of this file: of the parts taken
as parameters it holds what Go returns on these messages; the examples reach nothing else of
it. -/
def exampleLib : GoLib where
  unicodeToLower := fun s => s
  parseMediaParams := fun rest =>
    if rest = lit "; boundary=in" then .ok [(lit "boundary", lit "in")]
    else if rest = lit "; boundary=out" then .ok [(lit "boundary", lit "out")]
    else .error .mediaType
  multipartParts := fun body boundary =>
    if body = innerBody ∧ boundary = lit "in" then Parts.ofList [innerLeaf]
    else if body = outerBody ∧ boundary = lit "out" then Parts.ofList [nestedPart]
    else if body = emptyOuterBody ∧ boundary = lit "out" then Parts.ofList []
    else .fail (.other "multipart: NextPart: EOF")
  parseHTML := fun body =>
    if body = styledHTML then .ok styledDocument
    else .error (.other "not an example message")

/-- Whether a string begins with a white space rune, as `trimRunes` tests it. -/
def startsSpace (s2 : UInt8 → UInt8 → Bool) (s3 : UInt8 → UInt8 → UInt8 → Bool) : Bytes → Bool
  | a :: b :: c :: _ => asciiSpace a || s2 a b || s3 a b c
  | [a, b] => asciiSpace a || s2 a b
  | [a] => asciiSpace a
  | [] => false

/-- What a `quotedprintable.Writer` with the option `Binary` puts into its line for one byte:
the byte itself when it is printable and not `=` or is white space, `=XX` otherwise. -/
def qpToken (b : UInt8) : Bytes :=
  if (33 ≤ b ∧ b ≤ 126 ∧ b ≠ 61) ∨ isWhitespace b = true then [b]
  else [61, upperhex (b.toNat / 16), upperhex (b.toNat % 16)]

/-- A line that ends neither in white space, CR or LF nor in `=`. -/
def GoodEnd (l : Bytes) : Prop :=
  l = [] ∨ ∃ s c, l = s ++ [c] ∧ isQPDiscardWhitespace c = false ∧ c ≠ 61

/-- A text without a tab and without two spaces in a row. -/
def SingleSpaced (t : Bytes) : Prop :=
  (9 : UInt8) ∉ t ∧ List.Chain' (fun a b => ¬(a = 32 ∧ b = 32)) t

/-- A text that neither begins nor ends with a byte of the class `p`. -/
def Trimmed (p : UInt8 → Bool) (t : Bytes) : Prop :=
  (t = [] ∨ ∃ c s, t = c :: s ∧ p c = false) ∧ (t = [] ∨ ∃ s c, t = s ++ [c] ∧ p c = false)

/-- The lines that the loop of `formatHeadersGmail` writes, without their final newline: one
for every name of `headerOrder` that the map holds with a non-empty value. -/
def writtenLines (headers : List (Bytes × Bytes)) : List Bytes :=
  headerOrder.filterMap (fun name =>
    match headers.lookup name with
    | some value => if value ≠ [] then some (name ++ lit ": " ++ value) else none
    | none => none)

/-- The line `Name: value` of a header that the map holds with a non-empty value; no line for
a header that is absent or empty. -/
def headerLine (headers : List (Bytes × Bytes)) (name : Bytes) : List Bytes :=
  match headers.lookup name with
  | some value => if value ≠ [] then [name ++ lit ": " ++ value] else []
  | none => []

/-- The header block of the specification: the lines of From, To, Cc, Date and Subject, in
this order. -/
def headerLines (headers : List (Bytes × Bytes)) : List Bytes :=
  headerLine headers (lit "From") ++ headerLine headers (lit "To") ++
    headerLine headers (lit "Cc") ++ headerLine headers (lit "Date") ++
    headerLine headers (lit "Subject")

/-- A header map with the headers in another order than the display order, an empty Cc, no To
and a header that is not displayed. -/
def mixedHeaders : List (Bytes × Bytes) :=
  [(lit "Subject", lit "Hi"), (lit "Date", lit "Mon"), (lit "Cc", lit ""),
    (lit "X-Mailer", lit "m"), (lit "From", lit "a@x.org")]

/-- The condition under which a line stays as it is when it is written at the start and at
the end of a text that is trimmed: neither the line followed by more text begins with white
space nor does the reversed line followed by more text. -/
def KeptLine (l : Bytes) : Prop :=
  (∀ t, startsSpace space2 space3 (l ++ t) = false) ∧
  (∀ t, startsSpace (fun a b => space2 b a) (fun a b c => space3 c b a) (l.reverse ++ t) = false)

/-- The message `Subject: Hi`, an empty line, `body`, as `mail.ReadMessage` returns it. -/
def subjectOnly : MailMessage := { Header := [(lit "Subject", [lit "Hi"])], Body := lit "body" }

/-- A message with the five displayed headers and the body `a  b`, with two spaces. -/
def twoSpaces : MailMessage :=
  { Header := [(lit "From", [lit "a@example.org"]), (lit "To", [lit "b@example.org"]),
      (lit "Cc", [lit "c@example.org"]), (lit "Date", [lit "Mon, 2 Jan 2006 15:04:05 -0700"]),
      (lit "Subject", [lit "Hi"])],
    Body := lit "a  b" }

/-- The header map that `parseMessage` builds: every header with its values joined by
`", "`. -/
def joinedHeaders (h : Header) : List (Bytes × Bytes) := h.map (fun kv => (kv.1, Join kv.2 (lit ", ")))

/-- The content type and the parameters that both paths go on with: those that
`mime.ParseMediaType` returns, `text/plain` without parameters when it fails. -/
def mediaTypeOrDefault (L : GoLib) (v : Bytes) : Bytes × List (Bytes × Bytes) :=
  match ParseMediaType L v with
  | .ok (contentType, params) => (contentType, params)
  | .error _ => (lit "text/plain", [])

/-- The resolved body text of the Gmail path: the value of `body` in `parseMessage`. -/
def gmailResolvedBody (L : GoLib) (m : MailMessage) : Except Error Bytes :=
  if HasPrefix (mediaTypeOrDefault L (m.Header.Get contentTypeKey)).1 (lit "multipart/") then
    handleMultipartGmail L m.Body
      (paramGet (mediaTypeOrDefault L (m.Header.Get contentTypeKey)).2 (lit "boundary"))
  else
    handleSinglePartGmail L (.ok m.Body) (mediaTypeOrDefault L (m.Header.Get contentTypeKey)).1
      (m.Header.Get transferEncodingKey)

/-- The resolved body text of the IMAP path: the value of `body` in `IMAP.GetMessageBody`. -/
def imapResolvedBody (L : GoLib) (m : MailMessage) : Except Error Bytes :=
  if HasPrefix (mediaTypeOrDefault L (m.Header.Get contentTypeKey)).1 (lit "multipart/") then
    handleMultipart L m.Body
      (paramGet (mediaTypeOrDefault L (m.Header.Get contentTypeKey)).2 (lit "boundary"))
  else
    handleSinglePart L (.ok m.Body) (mediaTypeOrDefault L (m.Header.Get contentTypeKey)).1
      (m.Header.Get transferEncodingKey)

/-- A message with the unparseable Content-Type `text plain` whose body `aGVsbG8=` is declared
as base64; it is the base64 encoding of `hello`. -/
def badTypeBase64 : MailMessage :=
  { Header := [(contentTypeKey, [lit "text plain"]), (transferEncodingKey, [lit "base64"])],
    Body := lit "aGVsbG8=" }

/-- A `text/plain` sub-part with the content `a  b`, with two spaces. -/
def twoSpacesPart : Part :=
  { Header := [(contentTypeKey, [lit "text/plain"])], Body := .ok (lit "a  b") }

/-- A message whose body `!` is declared as base64 and is no base64 text. -/
def corruptBase64 : MailMessage :=
  { Header := [(contentTypeKey, [lit "text/plain"]), (transferEncodingKey, [lit "base64"])],
    Body := lit "!" }

/-- A user interface whose backends all hold the message `corruptBase64` under every id. -/
def corruptUI (service : Bytes) : UI :=
  { ActiveService := service
    gmailMessage := fun _ => .ok corruptBase64
    imapMessage := fun _ => .ok corruptBase64
    errorString := fun _ => lit "illegal base64 data at input byte 0" }

/-- The end of a run of the specification's normalizer: a run of at least `k` bytes is
written as the replacement, a shorter one as it is. -/
def flushRun (k : Nat) (repl run : Bytes) : Bytes :=
  if run ≠ [] ∧ k ≤ run.length then repl else run

/-- The collapse of the runs of a class in the words of the specification: the bytes of the
class are collected into the current run, and a byte outside the class ends the run. -/
def collapseFrom (p : UInt8 → Bool) (k : Nat) (repl : Bytes) : Bytes → Bytes → Bytes
  | run, [] => flushRun k repl run
  | run, b :: bs =>
    if p b then collapseFrom p k repl (run ++ [b]) bs
    else flushRun k repl run ++ b :: collapseFrom p k repl [] bs

/-- Every run of at least `k` bytes of the class `p` collapsed to `repl`. -/
def collapseRuns (p : UInt8 → Bool) (k : Nat) (repl s : Bytes) : Bytes :=
  collapseFrom p k repl [] s

/-- A line without its leading and trailing spaces and tabs. -/
def trimBlanks (l : Bytes) : Bytes := (l.dropWhile isBlank).rdropWhile isBlank

/-- A blank line: nothing but spaces and tabs. -/
def blankLine (l : Bytes) : Bool := l.all isBlank

/-- The lines without the leading and the trailing blank lines. -/
def trimBlankLines (ls : List Bytes) : List Bytes :=
  (ls.rdropWhile blankLine).dropWhile blankLine

/-- The four steps of the specification's text normalizer, with the trimming of a line as a
parameter: runs of three or more newlines collapsed to two, runs of spaces and tabs collapsed
to one space, every line trimmed, leading and trailing blank lines removed. -/
def normalizeWith (trim : Bytes → Bytes) (text : Bytes) : Bytes :=
  let text := collapseRuns isNewline 3 (lit "\n\n") text
  let text := collapseRuns isBlank 1 (lit " ") text
  let lines := (SplitLines text).map trim
  Join (trimBlankLines lines) (lit "\n")

/-- `Normalize` of the specification: the four steps with spaces and tabs trimmed from every
line. -/
def Normalize (text : Bytes) : Bytes := normalizeWith trimBlanks text

/-- An HTML text of two paragraphs with an empty line between them and three spaces in the
second. -/
def spacedHTML : Bytes := lit "<p>Hello</p>\n\n<p>big   world</p>"

/-- The document that `html.Parse` builds from `spacedHTML`: the two paragraphs and the text
node between them go into the body. -/
def spacedDocument : Node :=
  .document [.element (lit "html") [] [
    .element (lit "head") [] [],
    .element (lit "body") [] [.element (lit "p") [] [.text (lit "Hello")], .text (lit "\n\n"),
      .element (lit "p") [] [.text (lit "big   world")]]]]

/-- The library of the examples with the parser result for `spacedHTML`. -/
def spacedLib : GoLib :=
  { exampleLib with
    parseHTML := fun body =>
      if body = spacedHTML then .ok spacedDocument else exampleLib.parseHTML body }

/-- A `text/plain` sub-part whose content `first` is encoded in base64. -/
def plainPart : Part :=
  { Header := [(contentTypeKey, [lit "text/plain"]), (transferEncodingKey, [lit "base64"])],
    Body := .ok (lit "Zmlyc3Q=") }

/-- An `application/octet-stream` sub-part that is declared as base64 and whose content is no
base64 text. -/
def binaryPart : Part :=
  { Header := [(contentTypeKey, [lit "application/octet-stream"]),
      (transferEncodingKey, [lit "base64"])],
    Body := .ok (lit "!!!!") }

/-- A `text/html` sub-part with the content `styledHTML`. -/
def htmlPart : Part :=
  { Header := [(contentTypeKey, [lit "text/html; charset=utf-8"])], Body := .ok styledHTML }

/-- The body of a `multipart/mixed` message with the boundary `mix` and three parts:
`plainPart`, `binaryPart`, `htmlPart`. -/
def mixedBody : Bytes :=
  lit "--mix\r\nContent-Type: text/plain\r\nContent-Transfer-Encoding: base64\r\n\r\nZmlyc3Q=\r\n" ++
    lit "--mix\r\nContent-Type: application/octet-stream\r\n" ++
    lit "Content-Transfer-Encoding: base64\r\n\r\n!!!!\r\n" ++
    lit "--mix\r\nContent-Type: text/html; charset=utf-8\r\n\r\n" ++ styledHTML ++
    lit "\r\n--mix--\r\n"

/-- The library of the examples with the parts of `mixedBody`. -/
def mixedLib : GoLib :=
  { exampleLib with
    multipartParts := fun body boundary =>
      if body = mixedBody ∧ boundary = lit "mix" then
        Parts.ofList [plainPart, binaryPart, htmlPart]
      else exampleLib.multipartParts body boundary }

/-- A message whose Content-Type `multipart/mixed; charset` names a multipart type, has no
boundary and is refused by `mime.ParseMediaType` (`mime: invalid media parameter`). -/
def unparsedMultipart : MailMessage :=
  { Header := [(contentTypeKey, [lit "multipart/mixed; charset"])],
    Body := lit "--x\r\n\r\nhello\r\n--x--\r\n" }

/-- A message to send. -/
def helloMessage : Message :=
  { Subject := lit "Hi", Body := lit "hello?", From := lit "a@x.org", ThreadId := lit "t1",
    To := lit "b@y.org" }

/-- Whether some `=` of the string is followed by two hexadecimal digits. -/
def hasEscape : Bytes → Bool
  | b :: h :: l :: rest =>
    (b = 61 && (fromHex h).isSome && (fromHex l).isSome) || hasEscape (h :: l :: rest)
  | _ => false

/-- A message with `Content-Type: multipart/mixed` and no boundary parameter. -/
def noBoundary : MailMessage :=
  { Header := [(contentTypeKey, [lit "multipart/mixed"])], Body := lit "--x\r\n\r\nhello\r\n--x--\r\n" }

/-! # Theorems -/

/-! ## Trimming -/

theorem trimRunes_suffix (s2 : UInt8 → UInt8 → Bool) (s3 : UInt8 → UInt8 → UInt8 → Bool)
    (s : Bytes) : trimRunes s2 s3 s <:+ s := by
  induction s using trimRunes.induct s2 s3 with
  | case1 a b c rest h ih =>
    rw [trimRunes, if_pos h]; exact ih.trans (List.suffix_cons _ _)
  | case2 a b c rest h h2 ih =>
    rw [trimRunes, if_neg h, if_pos h2]
    exact ih.trans ((List.suffix_cons _ _).trans (List.suffix_cons _ _))
  | case3 a b c rest h h2 h3 ih =>
    rw [trimRunes, if_neg h, if_neg h2, if_pos h3]
    exact ih.trans ((List.suffix_cons _ _).trans ((List.suffix_cons _ _).trans (List.suffix_cons _ _)))
  | case4 a b c rest h h2 h3 => rw [trimRunes, if_neg h, if_neg h2, if_neg h3]
  | case5 a b h ih => rw [trimRunes, if_pos h]; exact ih.trans (List.suffix_cons _ _)
  | case6 a b h h2 => rw [trimRunes, if_neg h, if_pos h2]; exact List.nil_suffix
  | case7 a b h h2 => rw [trimRunes, if_neg h, if_neg h2]
  | case8 a h => rw [trimRunes, if_pos h]; exact List.nil_suffix
  | case9 a h => rw [trimRunes, if_neg h]
  | case10 => rw [trimRunes]

theorem trimRunes_of_not_startsSpace (s2 : UInt8 → UInt8 → Bool) (s3 : UInt8 → UInt8 → UInt8 → Bool)
    (s : Bytes) (h : startsSpace s2 s3 s = false) : trimRunes s2 s3 s = s := by
  match s, h with
  | a :: b :: c :: rest, h =>
    simp only [startsSpace, Bool.or_eq_false_iff] at h
    simp [trimRunes, h.1.1, h.1.2, h.2]
  | [a, b], h =>
    simp only [startsSpace, Bool.or_eq_false_iff] at h
    simp [trimRunes, h.1, h.2]
  | [a], h =>
    simp only [startsSpace] at h
    simp [trimRunes, h]
  | [], _ => rfl

theorem trimRunes_not_startsSpace (s2 : UInt8 → UInt8 → Bool) (s3 : UInt8 → UInt8 → UInt8 → Bool)
    (s : Bytes) : startsSpace s2 s3 (trimRunes s2 s3 s) = false := by
  induction s using trimRunes.induct s2 s3 with
  | case1 a b c rest h ih => rw [trimRunes, if_pos h]; exact ih
  | case2 a b c rest h h2 ih => rw [trimRunes, if_neg h, if_pos h2]; exact ih
  | case3 a b c rest h h2 h3 ih => rw [trimRunes, if_neg h, if_neg h2, if_pos h3]; exact ih
  | case4 a b c rest h h2 h3 =>
    rw [trimRunes, if_neg h, if_neg h2, if_neg h3]; simp [startsSpace, h, h2, h3]
  | case5 a b h ih => rw [trimRunes, if_pos h]; exact ih
  | case6 a b h h2 => rw [trimRunes, if_neg h, if_pos h2]; rfl
  | case7 a b h h2 => rw [trimRunes, if_neg h, if_neg h2]; simp [startsSpace, h, h2]
  | case8 a h => rw [trimRunes, if_pos h]; rfl
  | case9 a h => rw [trimRunes, if_neg h]; simp [startsSpace, h]
  | case10 => rfl

theorem trimRunes_eq_self_iff (s2 : UInt8 → UInt8 → Bool) (s3 : UInt8 → UInt8 → UInt8 → Bool)
    (s : Bytes) : trimRunes s2 s3 s = s ↔ startsSpace s2 s3 s = false :=
  ⟨fun h => by rw [← h]; exact trimRunes_not_startsSpace s2 s3 s,
   trimRunes_of_not_startsSpace s2 s3 s⟩

theorem trimRunes_idem (s2 : UInt8 → UInt8 → Bool) (s3 : UInt8 → UInt8 → UInt8 → Bool)
    (s : Bytes) : trimRunes s2 s3 (trimRunes s2 s3 s) = trimRunes s2 s3 s :=
  trimRunes_of_not_startsSpace s2 s3 _ (trimRunes_not_startsSpace s2 s3 s)

theorem trimRunes_cons_space (s2 : UInt8 → UInt8 → Bool) (s3 : UInt8 → UInt8 → UInt8 → Bool)
    (a : UInt8) (s : Bytes) (h : asciiSpace a = true) :
    trimRunes s2 s3 (a :: s) = trimRunes s2 s3 s := by
  match s with
  | b :: c :: rest => rw [trimRunes, if_pos h]
  | [b] => rw [trimRunes, if_pos h]
  | [] => rw [trimRunes, if_pos h]; rfl

/-- A prefix of a string that does not begin with white space does not begin with white
space. -/
theorem startsSpace_initial (s2 : UInt8 → UInt8 → Bool) (s3 : UInt8 → UInt8 → UInt8 → Bool)
    (p w : Bytes) (hp : p <+: w) (h : startsSpace s2 s3 w = false) : startsSpace s2 s3 p = false := by
  obtain ⟨t, rfl⟩ := hp
  match p, t, h with
  | [], _, _ => rfl
  | [a], [], h => exact h
  | [a], [b], h =>
    simp only [List.cons_append, List.nil_append, startsSpace, Bool.or_eq_false_iff] at h
    simp [startsSpace, h.1]
  | [a], b :: c :: t, h =>
    simp only [List.cons_append, List.nil_append, startsSpace, Bool.or_eq_false_iff] at h
    simp [startsSpace, h.1.1]
  | [a, b], [], h => exact h
  | [a, b], c :: t, h =>
    simp only [List.cons_append, List.nil_append, startsSpace, Bool.or_eq_false_iff] at h
    simp [startsSpace, h.1.1, h.1.2]
  | a :: b :: c :: p, t, h => exact h

/-- A string that does not begin with white space and is followed by an ASCII byte does not
begin with white space: no encoding of a white space rune holds an ASCII byte after its
first byte. -/
theorem startsSpace_append_ascii (s2 : UInt8 → UInt8 → Bool) (s3 : UInt8 → UInt8 → UInt8 → Bool)
    (x : UInt8) (h2 : ∀ a, s2 a x = false) (h3 : ∀ a b, s3 a b x = false)
    (h3m : ∀ a c, s3 a x c = false)
    (s t : Bytes) (hs : s ≠ []) (h : startsSpace s2 s3 s = false) :
    startsSpace s2 s3 (s ++ x :: t) = false := by
  match s, t, hs, h with
  | [a], [], _, h =>
    simp only [startsSpace] at h
    simp [startsSpace, h, h2]
  | [a], c :: t, _, h =>
    simp only [startsSpace] at h
    simp [startsSpace, h, h2, h3m]
  | [a, b], t, _, h =>
    simp only [startsSpace, Bool.or_eq_false_iff] at h
    simp [startsSpace, h.1, h.2, h3]
  | a :: b :: c :: s, t, _, h => exact h

theorem TrimLeftSpace_suffix (s : Bytes) : TrimLeftSpace s <:+ s := trimRunes_suffix _ _ s

theorem TrimRightSpace_initial (s : Bytes) : TrimRightSpace s <+: s := by
  have h := trimRunes_suffix (fun a b => space2 b a) (fun a b c => space3 c b a) s.reverse
  rw [← List.reverse_prefix] at h
  simpa [TrimRightSpace] using h

theorem TrimSpace_inside (s : Bytes) : TrimSpace s <:+: s :=
  (TrimRightSpace_initial _).isInfix.trans (TrimLeftSpace_suffix s).isInfix

theorem TrimRightSpace_idem (s : Bytes) : TrimRightSpace (TrimRightSpace s) = TrimRightSpace s := by
  simp [TrimRightSpace, trimRunes_idem]

theorem TrimSpace_idem (s : Bytes) : TrimSpace (TrimSpace s) = TrimSpace s := by
  have h1 : TrimLeftSpace (TrimRightSpace (TrimLeftSpace s)) = TrimRightSpace (TrimLeftSpace s) :=
    trimRunes_of_not_startsSpace _ _ _ (startsSpace_initial _ _ _ _ (TrimRightSpace_initial _)
      (trimRunes_not_startsSpace _ _ s))
  simp only [TrimSpace, h1, TrimRightSpace_idem]

theorem TrimSpace_eq_self (s : Bytes) (h : TrimSpace s = s) :
    TrimLeftSpace s = s ∧ TrimRightSpace s = s := by
  have hl : TrimLeftSpace s = s := by
    apply (TrimLeftSpace_suffix s).eq_of_length_le
    have := (TrimRightSpace_initial (TrimLeftSpace s)).length_le
    rw [show TrimRightSpace (TrimLeftSpace s) = s from h] at this
    exact this
  refine ⟨hl, ?_⟩
  rw [TrimSpace, hl] at h
  exact h

/-! ## The header formatter of `api/gmail.go` -/

theorem foldl_headerLines (headers : List (Bytes × Bytes)) (names : List Bytes) (acc : Bytes) :
    names.foldl (fun formattedHeaders header =>
      match headers.lookup header with
      | some value =>
        if value ≠ [] then formattedHeaders ++ (header ++ lit ": " ++ value ++ lit "\n")
        else formattedHeaders
      | none => formattedHeaders) acc =
    acc ++ ((names.filterMap (fun name =>
      match headers.lookup name with
      | some value => if value ≠ [] then some (name ++ lit ": " ++ value) else none
      | none => none)).map (· ++ lit "\n")).flatten := by
  induction names generalizing acc with
  | nil => simp
  | cons n names ih =>
    rw [List.foldl_cons, ih]
    cases hl : headers.lookup n with
    | none => simp [List.filterMap_cons, hl]
    | some v =>
      by_cases hv : v = []
      · simp [List.filterMap_cons, hl, hv]
      · simp [List.filterMap_cons, hl, hv, List.append_assoc]

theorem intercalate_cons_cons (sep a b : Bytes) (l : List Bytes) :
    sep.intercalate (a :: b :: l) = a ++ sep ++ sep.intercalate (b :: l) := by
  simp [List.intercalate, List.intersperse]

theorem intercalate_concat (sep : Bytes) (init : List Bytes) (last : Bytes) :
    sep.intercalate (init ++ [last]) = (init.map (· ++ sep)).flatten ++ last := by
  induction init with
  | nil => simp [List.intercalate]
  | cons l init ih =>
    cases init with
    | nil => simp [List.intercalate]
    | cons l2 init =>
      rw [List.cons_append, List.cons_append, intercalate_cons_cons, ← List.cons_append, ih]
      simp

theorem trimSpace_lines (ls : List Bytes) (h : ∀ l ∈ ls, KeptLine l) :
    TrimSpace ((ls.map (· ++ lit "\n")).flatten) = Join ls (lit "\n") := by
  rcases List.eq_nil_or_concat ls with rfl | ⟨init, last, rfl⟩
  · rfl
  · simp only [List.concat_eq_append] at h ⊢
    have hY : Join (init ++ [last]) (lit "\n") = (init.map (· ++ lit "\n")).flatten ++ last :=
      intercalate_concat _ _ _
    have hX : ((init ++ [last]).map (· ++ lit "\n")).flatten =
        Join (init ++ [last]) (lit "\n") ++ [10] := by
      rw [hY]; simp [lit]
    rw [hX]
    have hleft : TrimLeftSpace (Join (init ++ [last]) (lit "\n") ++ [10]) =
        Join (init ++ [last]) (lit "\n") ++ [10] := by
      apply trimRunes_of_not_startsSpace
      rw [hY]
      cases init with
      | nil =>
        have := (h last (by simp)).1 [10]
        simpa using this
      | cons l init =>
        have := (h l (by simp)).1
          (lit "\n" ++ ((init.map (· ++ lit "\n")).flatten ++ last) ++ [10])
        simpa [List.append_assoc] using this
    have hright : TrimRightSpace (Join (init ++ [last]) (lit "\n") ++ [10]) =
        Join (init ++ [last]) (lit "\n") := by
      have h1 := (h last (by simp)).2 ((init.map (· ++ lit "\n")).flatten).reverse
      rw [TrimRightSpace, List.reverse_append, List.reverse_singleton, List.singleton_append,
        trimRunes_cons_space _ _ _ _ (by decide), hY, List.reverse_append,
        trimRunes_of_not_startsSpace _ _ _ h1]
      simp
    rw [TrimSpace, hleft, hright]

theorem startsSpace_cons_plain (a : UInt8) (t : Bytes) (ha : asciiSpace a = false)
    (h2 : ∀ b, space2 a b = false) (h3 : ∀ b c, space3 a b c = false) :
    startsSpace space2 space3 (a :: t) = false := by
  match t with
  | [] => simp [startsSpace, ha]
  | [b] => simp [startsSpace, ha, h2]
  | b :: c :: t => simp [startsSpace, ha, h2, h3]

theorem keptLine_header (name value : Bytes) (hname : name ∈ headerOrder) (hv : value ≠ [])
    (htrim : TrimSpace value = value) : KeptLine (name ++ lit ": " ++ value) := by
  constructor
  · intro t
    simp only [headerOrder, List.mem_cons, List.mem_singleton, List.not_mem_nil, or_false] at hname
    rcases hname with rfl | rfl | rfl | rfl | rfl <;>
      exact startsSpace_cons_plain _ _ (by decide) (by intro b; simp [space2])
        (by intro b c; simp [space3])
  · intro t
    have hr : TrimRightSpace value = value := (TrimSpace_eq_self value htrim).2
    have hs : startsSpace (fun a b => space2 b a) (fun a b c => space3 c b a) value.reverse
        = false := by
      rw [← trimRunes_eq_self_iff]
      rw [TrimRightSpace] at hr
      have := congrArg List.reverse hr
      simpa using this
    have := startsSpace_append_ascii (fun a b => space2 b a) (fun a b c => space3 c b a) 32
      (by intro a; simp [space2]) (by intro a b; simp [space3]) (by intro a c; simp [space3])
      value.reverse ([58] ++ name.reverse ++ t) (by simpa using hv) hs
    simpa [lit, List.append_assoc] using this

/-! ## Replacement of runs -/

theorem replaceRunsFrom_true (p : UInt8 → Bool) (k : Nat) (repl s : Bytes) :
    replaceRunsFrom p k repl s true = replaceRunsFrom p k repl (s.dropWhile p) false := by
  induction s with
  | nil => rfl
  | cons b s ih =>
    by_cases hb : p b = true
    · rw [replaceRunsFrom, if_pos hb, if_pos rfl, ih, List.dropWhile_cons_of_pos hb]
    · rw [replaceRunsFrom, if_neg hb, List.dropWhile_cons_of_neg hb, replaceRunsFrom, if_neg hb]

theorem replaceRuns_nil (p : UInt8 → Bool) (k : Nat) (repl : Bytes) :
    replaceRuns p k repl [] = [] := rfl

theorem replaceRuns_cons_neg (p : UInt8 → Bool) (k : Nat) (repl : Bytes) (b : UInt8) (s : Bytes)
    (hb : p b = false) : replaceRuns p k repl (b :: s) = b :: replaceRuns p k repl s := by
  simp [replaceRuns, replaceRunsFrom, hb]

theorem replaceRuns_cons_pos (p : UInt8 → Bool) (k : Nat) (repl : Bytes) (b : UInt8) (s : Bytes)
    (hb : p b = true) :
    replaceRuns p k repl (b :: s) =
      (if k ≤ (b :: s.takeWhile p).length then repl else b :: s.takeWhile p) ++
        replaceRuns p k repl (s.dropWhile p) := by
  simp only [replaceRuns, replaceRunsFrom, hb, if_true, replaceRunsFrom_true]
  simp

/-- What follows a run does not begin with a byte of the class. -/
theorem head_dropWhile_not (p : UInt8 → Bool) (s : Bytes) :
    s.dropWhile p = [] ∨ ∃ c t, s.dropWhile p = c :: t ∧ p c = false := by
  cases h : s.dropWhile p with
  | nil => exact Or.inl rfl
  | cons c t =>
    refine Or.inr ⟨c, t, rfl, ?_⟩
    have := List.head_dropWhile_not p s (by simp [h])
    simpa [h] using this

/-- The output of a replacement begins with a byte of the class only if the input does. -/
theorem replaceRuns_head_not (p : UInt8 → Bool) (k : Nat) (repl s : Bytes)
    (hs : s = [] ∨ ∃ c t, s = c :: t ∧ p c = false) :
    replaceRuns p k repl s = [] ∨ ∃ c t, replaceRuns p k repl s = c :: t ∧ p c = false := by
  rcases hs with rfl | ⟨c, t, rfl, hc⟩
  · exact Or.inl rfl
  · exact Or.inr ⟨c, _, replaceRuns_cons_neg p k repl c t hc, hc⟩

theorem takeWhile_append_of_head_not (p : UInt8 → Bool) (run s : Bytes) (hrun : ∀ x ∈ run, p x = true)
    (hs : s = [] ∨ ∃ c t, s = c :: t ∧ p c = false) :
    (run ++ s).takeWhile p = run ∧ (run ++ s).dropWhile p = s := by
  induction run with
  | nil =>
    rcases hs with rfl | ⟨c, t, rfl, hc⟩
    · simp
    · simp [List.takeWhile_cons, List.dropWhile_cons, hc]
  | cons x run ih =>
    have hx := hrun x (by simp)
    have := ih (fun y hy => hrun y (by simp [hy]))
    simp [List.takeWhile_cons, List.dropWhile_cons, hx, this]


theorem length_dropWhile_le (p : UInt8 → Bool) (s : Bytes) : (s.dropWhile p).length ≤ s.length :=
  (List.dropWhile_suffix p).length_le

theorem run_eq_newlines (run : Bytes) (h : ∀ x ∈ run, isNewline x = true) :
    run = List.replicate run.length 10 := by
  induction run with
  | nil => rfl
  | cons x run ih =>
    have hx : x = 10 := by simpa [isNewline] using h x (by simp)
    rw [List.length_cons, List.replicate_succ, ← ih (fun y hy => h y (by simp [hy])), hx]

theorem run_cons_takeWhile (p : UInt8 → Bool) (b : UInt8) (s : Bytes) (hb : p b = true) :
    ∀ x ∈ b :: s.takeWhile p, p x = true := by
  intro x hx
  rcases List.mem_cons.1 hx with rfl | hx
  · exact hb
  · exact (List.mem_takeWhile_imp hx)

/-- The patterns `\n{3,}` and `\n{2,}` have the same replacement by two newlines. -/
theorem replaceRuns_newline_three (s : Bytes) :
    replaceRuns isNewline 3 (lit "\n\n") s = replaceRuns isNewline 2 (lit "\n\n") s := by
  generalize hn : s.length = n
  induction n using Nat.strong_induction_on generalizing s with
  | _ n ih =>
    cases s with
    | nil => rfl
    | cons b s =>
      by_cases hb : isNewline b = true
      · rw [replaceRuns_cons_pos _ _ _ _ _ hb, replaceRuns_cons_pos _ _ _ _ _ hb,
          ih _ (by rw [← hn]; exact Nat.lt_succ_of_le (length_dropWhile_le _ _)) _ rfl]
        congr 1
        have hrun := run_eq_newlines _ (run_cons_takeWhile isNewline b s hb)
        by_cases h3 : 3 ≤ (b :: s.takeWhile isNewline).length
        · rw [if_pos h3, if_pos (by omega)]
        · by_cases h2 : 2 ≤ (b :: s.takeWhile isNewline).length
          · rw [if_neg h3, if_pos h2, hrun]
            have : (b :: s.takeWhile isNewline).length = 2 := by omega
            rw [this]; rfl
          · rw [if_neg h3, if_neg h2]
      · have hb2 : isNewline b = false := by simpa using hb
        rw [replaceRuns_cons_neg _ _ _ _ _ hb2, replaceRuns_cons_neg _ _ _ _ _ hb2,
          ih _ (by rw [← hn]; simp) _ rfl]

/-- What `\n{2,}` puts for a run of newlines is a run of one or two newlines. -/
theorem emit_newlines (run : Bytes) (hne : run ≠ []) (h : ∀ x ∈ run, isNewline x = true) :
    (if 2 ≤ run.length then lit "\n\n" else run) = [10] ∨
    (if 2 ≤ run.length then lit "\n\n" else run) = [10, 10] := by
  by_cases h2 : 2 ≤ run.length
  · right; rw [if_pos h2]; rfl
  · left
    rw [if_neg h2, run_eq_newlines run h]
    have : run.length = 1 := by
      have := List.length_pos.2 hne
      omega
    rw [this]; rfl

theorem replaceRuns_newline_idem (s : Bytes) :
    replaceRuns isNewline 2 (lit "\n\n") (replaceRuns isNewline 2 (lit "\n\n") s) =
      replaceRuns isNewline 2 (lit "\n\n") s := by
  generalize hn : s.length = n
  induction n using Nat.strong_induction_on generalizing s with
  | _ n ih =>
    cases s with
    | nil => rfl
    | cons b s =>
      by_cases hb : isNewline b = true
      · have hrest := ih _ (by rw [← hn]; exact Nat.lt_succ_of_le (length_dropWhile_le _ _))
          (s.dropWhile isNewline) rfl
        have hhead := replaceRuns_head_not isNewline 2 (lit "\n\n") _ (head_dropWhile_not isNewline s)
        rw [replaceRuns_cons_pos _ _ _ _ _ hb]
        rcases emit_newlines (b :: s.takeWhile isNewline) (by simp)
          (run_cons_takeWhile isNewline b s hb) with he | he
        · rw [he]
          have htd := takeWhile_append_of_head_not isNewline [] _ (by simp) hhead
          rw [List.singleton_append, replaceRuns_cons_pos _ _ _ _ _ (by decide)]
          simp only [List.nil_append] at htd
          rw [htd.1, htd.2, hrest]
          rfl
        · rw [he]
          have htd := takeWhile_append_of_head_not isNewline [10] _ (by simp [isNewline]) hhead
          rw [show ([10, 10] : Bytes) ++ replaceRuns isNewline 2 (lit "\n\n") (s.dropWhile isNewline)
              = 10 :: ([10] ++ replaceRuns isNewline 2 (lit "\n\n") (s.dropWhile isNewline)) from rfl,
            replaceRuns_cons_pos _ _ _ _ _ (by decide), htd.1, htd.2, hrest]
          rfl
      · have hb2 : isNewline b = false := by simpa using hb
        rw [replaceRuns_cons_neg _ _ _ _ _ hb2, replaceRuns_cons_neg _ _ _ _ _ hb2,
          ih _ (by rw [← hn]; simp) _ rfl]


theorem takeWhile_append_stop (p : UInt8 → Bool) (s t : Bytes) (x : UInt8) (hx : p x = false) :
    (s ++ x :: t).takeWhile p = s.takeWhile p ∧
    (s ++ x :: t).dropWhile p = s.dropWhile p ++ x :: t := by
  induction s with
  | nil => simp [List.takeWhile_cons, List.dropWhile_cons, hx]
  | cons b s ih =>
    by_cases hb : p b = true
    · simp [List.takeWhile_cons, List.dropWhile_cons, hb, ih]
    · simp [List.takeWhile_cons, List.dropWhile_cons, hb]

/-- A byte outside the class separates the replacements before and after it. -/
theorem replaceRuns_append_stop (p : UInt8 → Bool) (k : Nat) (repl s t : Bytes) (x : UInt8)
    (hx : p x = false) :
    replaceRuns p k repl (s ++ x :: t) = replaceRuns p k repl s ++ x :: replaceRuns p k repl t := by
  generalize hn : s.length = n
  induction n using Nat.strong_induction_on generalizing s with
  | _ n ih =>
    cases s with
    | nil => exact replaceRuns_cons_neg p k repl x t hx
    | cons b s =>
      by_cases hb : p b = true
      · have h := takeWhile_append_stop p s t x hx
        rw [List.cons_append, replaceRuns_cons_pos _ _ _ _ _ hb, replaceRuns_cons_pos _ _ _ _ _ hb,
          h.1, h.2, ih _ (by rw [← hn]; exact Nat.lt_succ_of_le (length_dropWhile_le _ _)) _ rfl,
          List.append_assoc]
      · have hb2 : p b = false := by simpa using hb
        rw [List.cons_append, replaceRuns_cons_neg _ _ _ _ _ hb2, replaceRuns_cons_neg _ _ _ _ _ hb2,
          ih _ (by rw [← hn]; simp) _ rfl, List.cons_append]

/-! ## Single spacing -/

theorem singleSpaced_inside (l t : Bytes) (h : SingleSpaced t) (hl : l <:+: t) : SingleSpaced l :=
  ⟨fun h9 => h.1 (hl.subset h9), by
    obtain ⟨a, b, hab⟩ := hl
    have h2 := h.2
    rw [← hab] at h2
    exact h2.left_of_append.right_of_append⟩

theorem singleSpaced_tail (b : UInt8) (t : Bytes) (h : SingleSpaced (b :: t)) : SingleSpaced t :=
  singleSpaced_inside t _ h (List.suffix_cons b t).isInfix

theorem singleSpaced_replaceRuns (s : Bytes) : SingleSpaced (replaceRuns isBlank 1 (lit " ") s) := by
  generalize hn : s.length = n
  induction n using Nat.strong_induction_on generalizing s with
  | _ n ih =>
    cases s with
    | nil => exact ⟨by simp [replaceRuns_nil], by simp [replaceRuns_nil]⟩
    | cons b s =>
      by_cases hb : isBlank b = true
      · have hrest := ih _ (by rw [← hn]; exact Nat.lt_succ_of_le (length_dropWhile_le _ _))
          (s.dropWhile isBlank) rfl
        have hhead := replaceRuns_head_not isBlank 1 (lit " ") _ (head_dropWhile_not isBlank s)
        rw [replaceRuns_cons_pos _ _ _ _ _ hb, if_pos (by simp)]
        refine ⟨?_, ?_⟩
        · intro h9
          simp only [lit, List.map, List.cons_append, List.nil_append, List.mem_cons] at h9
          rcases h9 with h9 | h9
          · exact absurd h9 (by decide)
          · exact hrest.1 h9
        · show List.Chain' _ (32 :: replaceRuns isBlank 1 (lit " ") (s.dropWhile isBlank))
          apply List.Chain'.cons' hrest.2
          intro y hy
          rcases hhead with h0 | ⟨c, t, hc, hcb⟩
          · simp [h0] at hy
          · rw [hc] at hy
            simp only [List.head?_cons, Option.mem_def, Option.some.injEq] at hy
            subst hy
            intro h32
            rw [h32.2] at hcb
            exact absurd hcb (by decide)
      · have hb2 : isBlank b = false := by simpa using hb
        have hrest := ih _ (by rw [← hn]; simp) s rfl
        rw [replaceRuns_cons_neg _ _ _ _ _ hb2]
        refine ⟨?_, ?_⟩
        · intro h9
          rcases List.mem_cons.1 h9 with h9 | h9
          · rw [← h9] at hb2; exact absurd hb2 (by decide)
          · exact hrest.1 h9
        · apply List.Chain'.cons' hrest.2
          intro y _ h32
          rw [h32.1] at hb2
          exact absurd hb2 (by decide)

theorem replaceRuns_of_singleSpaced (t : Bytes) (h : SingleSpaced t) :
    replaceRuns isBlank 1 (lit " ") t = t := by
  induction t with
  | nil => rfl
  | cons b t ih =>
    have iht := ih (singleSpaced_tail b t h)
    by_cases hb : isBlank b = true
    · have hb32 : b = 32 := by
        have h9 : b ≠ 9 := fun h9 => h.1 (by simp [h9])
        simpa [isBlank, h9] using hb
      subst hb32
      have hhead : t = [] ∨ ∃ c s, t = c :: s ∧ isBlank c = false := by
        cases t with
        | nil => exact Or.inl rfl
        | cons c s =>
          refine Or.inr ⟨c, s, rfl, ?_⟩
          have h9 : c ≠ 9 := fun h9 => h.1 (by simp [h9])
          have h32 : c ≠ 32 := fun h32 => (List.chain'_cons.1 h.2).1 ⟨rfl, h32⟩
          simp [isBlank, h9, h32]
      have htd := takeWhile_append_of_head_not isBlank [] t (by simp) hhead
      simp only [List.nil_append] at htd
      rw [replaceRuns_cons_pos _ _ _ _ _ hb, if_pos (by simp), htd.2, iht]
      rfl
    · have hb2 : isBlank b = false := by simpa using hb
      rw [replaceRuns_cons_neg _ _ _ _ _ hb2, iht]

theorem singleSpaced_append_newline (a r : Bytes) (ha : SingleSpaced a) (hr : SingleSpaced r) :
    SingleSpaced (a ++ 10 :: r) := by
  refine ⟨?_, ?_⟩
  · intro h9
    rcases List.mem_append.1 h9 with h9 | h9
    · exact ha.1 h9
    · rcases List.mem_cons.1 h9 with h9 | h9
      · exact absurd h9 (by decide)
      · exact hr.1 h9
  · rw [List.chain'_append]
    refine ⟨ha.2, ?_, ?_⟩
    · apply List.Chain'.cons' hr.2
      intro y _ h32
      exact absurd h32.1 (by decide)
    · intro x _ y hy h32
      simp only [List.head?_cons, Option.mem_def, Option.some.injEq] at hy
      rw [← hy] at h32
      exact absurd h32.2 (by decide)

theorem singleSpaced_join (ls : List Bytes) (h : ∀ l ∈ ls, SingleSpaced l) :
    SingleSpaced (Join ls (lit "\n")) := by
  induction ls with
  | nil => exact ⟨by simp [Join, List.intercalate], by simp [Join, List.intercalate]⟩
  | cons a ls ih =>
    cases ls with
    | nil => simpa [Join, List.intercalate] using h a (by simp)
    | cons b ls =>
      have := singleSpaced_append_newline a _ (h a (by simp)) (ih (fun l hl => h l (by simp [hl])))
      simpa [Join, intercalate_cons_cons, lit] using this

/-! ## Lines -/

theorem splitLines_cons_newline (s : Bytes) : SplitLines (10 :: s) = [] :: SplitLines s := by
  simp [SplitLines, List.splitOn, List.splitOnP_cons]

theorem splitLines_first (pre t : Bytes) (h : (10 : UInt8) ∉ pre) :
    SplitLines (pre ++ 10 :: t) = pre :: SplitLines t := by
  simp only [SplitLines, List.splitOn]
  exact List.splitOnP_first (· == 10) pre (fun x hx => by
    intro h10
    have : x = 10 := by simpa using h10
    exact h (this ▸ hx)) 10 (by simp) t

theorem splitLines_single (pre : Bytes) (h : (10 : UInt8) ∉ pre) : SplitLines pre = [pre] := by
  simp only [SplitLines, List.splitOn]
  exact List.splitOnP_eq_single (· == 10) pre (fun x hx => by
    intro h10
    have : x = 10 := by simpa using h10
    exact h (this ▸ hx))

theorem splitLines_ne_nil (s : Bytes) : SplitLines s ≠ [] := List.splitOnP_ne_nil _ _

theorem join_splitLines (s : Bytes) : Join (SplitLines s) (lit "\n") = s :=
  List.intercalate_splitOn s 10

theorem splitLines_append (a t : Bytes) :
    SplitLines (a ++ 10 :: t) = SplitLines a ++ SplitLines t := by
  induction a with
  | nil => simp [splitLines_cons_newline, splitLines_single]
  | cons b a ih =>
    by_cases hb : b = 10
    · subst hb
      rw [List.cons_append, splitLines_cons_newline, splitLines_cons_newline, ih, List.cons_append]
    · have hb2 : (b == 10) = false := by simpa using hb
      simp only [SplitLines, List.splitOn] at ih ⊢
      rw [List.cons_append, List.splitOnP_cons, List.splitOnP_cons, ih]
      simp only [hb2, Bool.false_eq_true, if_false]
      cases h : List.splitOnP (· == 10) a with
      | nil => exact absurd h (List.splitOnP_ne_nil _ _)
      | cons hd tl => simp

theorem splitLines_no_newline (s : Bytes) : ∀ l ∈ SplitLines s, (10 : UInt8) ∉ l := by
  induction s with
  | nil => simp [SplitLines]
  | cons b s ih =>
    by_cases hb : b = 10
    · subst hb
      rw [splitLines_cons_newline]
      intro l hl
      rcases List.mem_cons.1 hl with rfl | hl
      · simp
      · exact ih l hl
    · have hb2 : (b == 10) = false := by simpa using hb
      simp only [SplitLines, List.splitOn] at ih ⊢
      rw [List.splitOnP_cons]
      simp only [hb2, Bool.false_eq_true, if_false]
      cases h : List.splitOnP (· == 10) s with
      | nil => exact absurd h (List.splitOnP_ne_nil _ _)
      | cons hd tl =>
        rw [h] at ih
        intro l hl
        simp only [List.modifyHead_cons, List.mem_cons] at hl
        rcases hl with rfl | hl
        · intro h10
          rcases List.mem_cons.1 h10 with h10 | h10
          · exact hb h10.symm
          · exact ih hd (by simp) h10
        · exact ih l (by simp [hl])

theorem mem_inside_join (ls : List Bytes) (l : Bytes) (hl : l ∈ ls) : l <:+: Join ls (lit "\n") := by
  induction ls with
  | nil => simp at hl
  | cons a ls ih =>
    cases ls with
    | nil =>
      have : l = a := by simpa using hl
      subst this
      simp [Join, List.intercalate]
    | cons b ls =>
      simp only [Join, intercalate_cons_cons]
      rcases List.mem_cons.1 hl with rfl | hl
      · exact (List.prefix_append _ _).isInfix.trans (List.prefix_append _ _).isInfix
      · exact (ih hl).trans (List.suffix_append _ _).isInfix

theorem line_inside (s l : Bytes) (hl : l ∈ SplitLines s) : l <:+: s := by
  have := mem_inside_join _ l hl
  rwa [join_splitLines] at this

theorem lines_dropWhile (s : Bytes) :
    ∀ l ∈ SplitLines (s.dropWhile isNewline), l ∈ SplitLines s := by
  induction s with
  | nil => simp
  | cons b s ih =>
    by_cases hb : isNewline b = true
    · have hb10 : b = 10 := by simpa [isNewline] using hb
      subst hb10
      rw [List.dropWhile_cons_of_pos hb, splitLines_cons_newline]
      intro l hl
      exact List.mem_cons_of_mem _ (ih l hl)
    · rw [List.dropWhile_cons_of_neg hb]
      exact fun l hl => hl

theorem lines_rdropWhile (s : Bytes) :
    ∀ l ∈ SplitLines (s.rdropWhile isNewline), l ∈ SplitLines s := by
  induction s using List.reverseRecOn with
  | nil => simp
  | append_singleton s b ih =>
    by_cases hb : isNewline b = true
    · have hb10 : b = 10 := by simpa [isNewline] using hb
      subst hb10
      rw [List.rdropWhile_concat_pos _ _ _ hb, splitLines_append]
      intro l hl
      exact List.mem_append_left _ (ih l hl)
    · rw [List.rdropWhile_concat_neg _ _ _ hb]
      exact fun l hl => hl

theorem lines_trimNewlines (s : Bytes) : ∀ l ∈ SplitLines (TrimNewlines s), l ∈ SplitLines s :=
  fun l hl => lines_rdropWhile s l (lines_dropWhile _ l hl)

/-- Every line of the text after the replacement of the newline runs is empty or a line of the
text before it. -/
theorem lines_replaceRuns (w : Bytes) : ∀ pre : Bytes, (10 : UInt8) ∉ pre →
    ∀ l ∈ SplitLines (pre ++ replaceRuns isNewline 2 (lit "\n\n") w),
      l = [] ∨ l ∈ SplitLines (pre ++ w) := by
  generalize hn : w.length = n
  induction n using Nat.strong_induction_on generalizing w with
  | _ n ih =>
    intro pre hpre
    cases w with
    | nil => exact fun l hl => Or.inr hl
    | cons b s =>
      by_cases hb : isNewline b = true
      · have hb10 : b = 10 := by simpa [isNewline] using hb
        subst hb10
        have hrest := ih _ (by rw [← hn]; exact Nat.lt_succ_of_le (length_dropWhile_le _ _))
          (s.dropWhile isNewline) rfl [] (by simp)
        simp only [List.nil_append] at hrest
        have hsub : ∀ l ∈ SplitLines (replaceRuns isNewline 2 (lit "\n\n") (s.dropWhile isNewline)),
            l = [] ∨ l ∈ SplitLines (pre ++ 10 :: s) := by
          intro l hl
          rcases hrest l hl with h | h
          · exact Or.inl h
          · right
            rw [splitLines_first pre s hpre]
            exact List.mem_cons_of_mem _ (lines_dropWhile s l h)
        have hpre_mem : pre ∈ SplitLines (pre ++ 10 :: s) := by
          rw [splitLines_first pre s hpre]; simp
        rw [replaceRuns_cons_pos _ _ _ _ _ hb]
        rcases emit_newlines (10 :: s.takeWhile isNewline) (by simp)
          (run_cons_takeWhile isNewline 10 s hb) with he | he
        · rw [he, List.singleton_append, splitLines_first pre _ hpre]
          intro l hl
          rcases List.mem_cons.1 hl with rfl | hl
          · exact Or.inr hpre_mem
          · exact hsub l hl
        · rw [he, show ([10, 10] : Bytes) ++ replaceRuns isNewline 2 (lit "\n\n")
              (s.dropWhile isNewline) = 10 :: 10 :: replaceRuns isNewline 2 (lit "\n\n")
              (s.dropWhile isNewline) from rfl, splitLines_first pre _ hpre,
            splitLines_cons_newline]
          intro l hl
          rcases List.mem_cons.1 hl with rfl | hl
          · exact Or.inr hpre_mem
          · rcases List.mem_cons.1 hl with rfl | hl
            · exact Or.inl rfl
            · exact hsub l hl
      · have hb2 : isNewline b = false := by simpa using hb
        have hb10 : b ≠ 10 := by simpa [isNewline] using hb
        have := ih _ (by rw [← hn]; simp) s rfl (pre ++ [b]) (by
          intro h10
          rcases List.mem_append.1 h10 with h | h
          · exact hpre h
          · have hb : 10 = b := by simpa using h
            exact hb10 hb.symm)
        rw [replaceRuns_cons_neg _ _ _ _ _ hb2]
        simpa [List.append_assoc] using this

/-! ## `formatText` -/

theorem rdropWhile_last (p : UInt8 → Bool) (z : Bytes) :
    z.rdropWhile p = [] ∨ ∃ s c, z.rdropWhile p = s ++ [c] ∧ p c = false := by
  induction z using List.reverseRecOn with
  | nil => exact Or.inl (by simp)
  | append_singleton s b ih =>
    by_cases hb : p b = true
    · rw [List.rdropWhile_concat_pos _ _ _ hb]; exact ih
    · rw [List.rdropWhile_concat_neg _ _ _ hb]
      exact Or.inr ⟨s, b, rfl, by simpa using hb⟩

theorem trimmed_trimNewlines (z : Bytes) : Trimmed isNewline (TrimNewlines z) := by
  refine ⟨head_dropWhile_not isNewline _, ?_⟩
  rcases rdropWhile_last isNewline z with h | ⟨s, c, h, hc⟩
  · left; simp [TrimNewlines, h]
  · right
    refine ⟨s.dropWhile isNewline, c, ?_, hc⟩
    rw [TrimNewlines, h, (takeWhile_append_stop isNewline s [] c hc).2]

theorem trimNewlines_of_trimmed (y : Bytes) (h : Trimmed isNewline y) : TrimNewlines y = y := by
  have h1 : y.rdropWhile isNewline = y := by
    rcases h.2 with rfl | ⟨s, c, rfl, hc⟩
    · simp
    · exact List.rdropWhile_concat_neg _ _ _ (by simp [hc])
  rw [TrimNewlines, h1]
  rcases h.1 with rfl | ⟨c, s, rfl, hc⟩
  · simp
  · exact List.dropWhile_cons_of_neg (by simp [hc])

theorem trimmed_replaceRuns (p : UInt8 → Bool) (k : Nat) (repl w : Bytes) (h : Trimmed p w) :
    Trimmed p (replaceRuns p k repl w) := by
  refine ⟨replaceRuns_head_not p k repl w h.1, ?_⟩
  rcases h.2 with rfl | ⟨s, c, rfl, hc⟩
  · exact Or.inl rfl
  · exact Or.inr ⟨replaceRuns p k repl s, c, by
      rw [replaceRuns_append_stop p k repl s [] c hc, replaceRuns_nil], hc⟩

theorem normal_of_singleSpaced (u : Bytes) (hu : SingleSpaced u) :
    (∀ l ∈ SplitLines (replaceRuns isNewline 2 (lit "\n\n")
        (TrimNewlines (Join ((SplitLines u).map TrimSpace) (lit "\n")))),
      TrimSpace l = l ∧ SingleSpaced l) ∧
    Trimmed isNewline (replaceRuns isNewline 2 (lit "\n\n")
      (TrimNewlines (Join ((SplitLines u).map TrimSpace) (lit "\n")))) := by
  have hnil : TrimSpace [] = [] ∧ SingleSpaced [] := ⟨rfl, by simp, by simp⟩
  have hz : SplitLines (Join ((SplitLines u).map TrimSpace) (lit "\n")) =
      (SplitLines u).map TrimSpace := by
    apply List.splitOn_intercalate
    · intro l hl h10
      obtain ⟨l0, hl0, rfl⟩ := List.mem_map.1 hl
      exact splitLines_no_newline u l0 hl0 ((TrimSpace_inside l0).subset h10)
    · simpa using splitLines_ne_nil u
  refine ⟨?_, trimmed_replaceRuns _ _ _ _ (trimmed_trimNewlines _)⟩
  intro l hl
  rcases lines_replaceRuns _ [] (by simp) l hl with rfl | hl
  · exact hnil
  · have hl2 := lines_trimNewlines _ l hl
    rw [hz] at hl2
    obtain ⟨l0, hl0, rfl⟩ := List.mem_map.1 hl2
    exact ⟨TrimSpace_idem l0,
      singleSpaced_inside _ _ hu ((TrimSpace_inside l0).trans (line_inside u l0 hl0))⟩

/-- The normal form of `formatText`: every line is trimmed and single-spaced, the text neither
begins nor ends with a newline, and it has no run of newlines to replace. -/
theorem formatText_normal (x : Bytes) :
    (∀ l ∈ SplitLines (formatText x), TrimSpace l = l ∧ SingleSpaced l) ∧
    Trimmed isNewline (formatText x) ∧
    replaceRuns isNewline 2 (lit "\n\n") (formatText x) = formatText x :=
  ⟨(normal_of_singleSpaced _ (singleSpaced_replaceRuns _)).1,
   (normal_of_singleSpaced _ (singleSpaced_replaceRuns _)).2,
   replaceRuns_newline_idem _⟩

/-- A text in the normal form is left as it is by `formatText`. -/
theorem formatText_of_normal (y : Bytes)
    (hlines : ∀ l ∈ SplitLines y, TrimSpace l = l ∧ SingleSpaced l)
    (htrim : Trimmed isNewline y)
    (hruns : replaceRuns isNewline 2 (lit "\n\n") y = y) : formatText y = y := by
  have h1 : replaceRuns isNewline 3 (lit "\n\n") y = y := by
    rw [replaceRuns_newline_three, hruns]
  have hss : SingleSpaced y := by
    have := singleSpaced_join (SplitLines y) (fun l hl => (hlines l hl).2)
    rwa [join_splitLines] at this
  have h2 : replaceRuns isBlank 1 (lit " ") y = y := replaceRuns_of_singleSpaced y hss
  have h3 : Join ((SplitLines y).map TrimSpace) (lit "\n") = y := by
    rw [List.map_congr_left (fun l hl => (hlines l hl).1), List.map_id', join_splitLines]
  have h4 : TrimNewlines y = y := trimNewlines_of_trimmed y htrim
  simp only [formatText, h1, h2, h3, h4, hruns]

/-! ## Base64 -/

theorem decodeMap_encodeChar_fin : ∀ i : Fin 64, decodeMap (encodeChar i.val) = some i.val := by
  decide

theorem decodeMap_encodeChar (v : Nat) (h : v < 64) : decodeMap (encodeChar v) = some v :=
  decodeMap_encodeChar_fin ⟨v, h⟩

theorem decodeMap_pad : decodeMap 61 = none := by decide

theorem ofNat_toNat (a : UInt8) : UInt8.ofNat a.toNat = a := by
  cases a with
  | mk v =>
    apply UInt8.ext
    simp [UInt8.ofNat, UInt8.toNat, Fin.ofNat]

theorem assemble_four (a b c : UInt8) :
    assemble [(a.toNat * 65536 + b.toNat * 256 + c.toNat) / 262144 % 64,
      (a.toNat * 65536 + b.toNat * 256 + c.toNat) / 4096 % 64,
      (a.toNat * 65536 + b.toNat * 256 + c.toNat) / 64 % 64,
      (a.toNat * 65536 + b.toNat * 256 + c.toNat) % 64] = [a, b, c] := by
  have ha := a.toNat_lt
  have hb := b.toNat_lt
  have hc := c.toNat_lt
  simp only [assemble, List.getD_cons_zero, List.getD_cons_succ, List.length_cons, List.length_nil]
  have h1 : ((a.toNat * 65536 + b.toNat * 256 + c.toNat) / 262144 % 64 * 262144 +
      (a.toNat * 65536 + b.toNat * 256 + c.toNat) / 4096 % 64 * 4096 +
      (a.toNat * 65536 + b.toNat * 256 + c.toNat) / 64 % 64 * 64 +
      (a.toNat * 65536 + b.toNat * 256 + c.toNat) % 64) =
      a.toNat * 65536 + b.toNat * 256 + c.toNat := by omega
  rw [h1]
  have e1 : (a.toNat * 65536 + b.toNat * 256 + c.toNat) / 65536 % 256 = a.toNat := by omega
  have e2 : (a.toNat * 65536 + b.toNat * 256 + c.toNat) / 256 % 256 = b.toNat := by omega
  have e3 : (a.toNat * 65536 + b.toNat * 256 + c.toNat) % 256 = c.toNat := by omega
  rw [e1, e2, e3, ofNat_toNat, ofNat_toNat, ofNat_toNat]
  rfl

theorem assemble_three (a b : UInt8) :
    assemble [(a.toNat * 65536 + b.toNat * 256) / 262144 % 64,
      (a.toNat * 65536 + b.toNat * 256) / 4096 % 64,
      (a.toNat * 65536 + b.toNat * 256) / 64 % 64] = [a, b] := by
  have ha := a.toNat_lt
  have hb := b.toNat_lt
  simp only [assemble, List.getD_cons_zero, List.getD_cons_succ, List.length_cons, List.length_nil,
    List.getD_nil]
  have h1 : ((a.toNat * 65536 + b.toNat * 256) / 262144 % 64 * 262144 +
      (a.toNat * 65536 + b.toNat * 256) / 4096 % 64 * 4096 +
      (a.toNat * 65536 + b.toNat * 256) / 64 % 64 * 64 + 0) =
      a.toNat * 65536 + b.toNat * 256 := by omega
  rw [h1]
  have e1 : (a.toNat * 65536 + b.toNat * 256) / 65536 % 256 = a.toNat := by omega
  have e2 : (a.toNat * 65536 + b.toNat * 256) / 256 % 256 = b.toNat := by omega
  rw [e1, e2, ofNat_toNat, ofNat_toNat]
  rfl

theorem assemble_two (a : UInt8) :
    assemble [(a.toNat * 65536) / 262144 % 64, (a.toNat * 65536) / 4096 % 64] = [a] := by
  have ha := a.toNat_lt
  simp only [assemble, List.getD_cons_zero, List.getD_cons_succ, List.length_cons, List.length_nil,
    List.getD_nil]
  have h1 : ((a.toNat * 65536) / 262144 % 64 * 262144 +
      (a.toNat * 65536) / 4096 % 64 * 4096 + 0 * 64 + 0) = a.toNat * 65536 := by omega
  rw [h1]
  have e1 : (a.toNat * 65536) / 65536 % 256 = a.toNat := by omega
  rw [e1, ofNat_toNat]
  rfl

/-- One more character of the alphabet read into a quantum that is not yet full. -/
theorem decodeQuanta_char (v : Nat) (hv : v < 64) (src : Bytes) (dbuf : List Nat)
    (h : dbuf.length ≠ 3) :
    decodeQuanta (encodeChar v :: src) dbuf = decodeQuanta src (dbuf ++ [v]) := by
  rw [decodeQuanta, decodeMap_encodeChar v hv]
  simp only [h, if_false]

/-- The fourth character of a quantum. -/
theorem decodeQuanta_fourth (v : Nat) (hv : v < 64) (src : Bytes) (dbuf : List Nat)
    (h : dbuf.length = 3) :
    decodeQuanta (encodeChar v :: src) dbuf =
      match decodeQuanta src [] with
      | .ok out => .ok (assemble (dbuf ++ [v]) ++ out)
      | .error e => .error e := by
  rw [decodeQuanta, decodeMap_encodeChar v hv]
  simp only [h, if_true]

theorem stdBase64_roundtrip (p : Bytes) : stdBase64Decode (stdBase64Encode p) = .ok p := by
  unfold stdBase64Decode
  induction p using stdBase64Encode.induct with
  | case1 a b c rest ih =>
    have ha := a.toNat_lt
    have hb := b.toNat_lt
    have hc := c.toNat_lt
    rw [stdBase64Encode]
    rw [decodeQuanta_char _ (Nat.mod_lt _ (by norm_num)) _ _ (by simp),
      decodeQuanta_char _ (Nat.mod_lt _ (by norm_num)) _ _ (by simp),
      decodeQuanta_char _ (Nat.mod_lt _ (by norm_num)) _ _ (by simp),
      decodeQuanta_fourth _ (Nat.mod_lt _ (by norm_num)) _ _ (by simp), ih]
    simp only [List.nil_append, List.cons_append, assemble_four]
  | case2 a b =>
    rw [stdBase64Encode]
    rw [decodeQuanta_char _ (Nat.mod_lt _ (by norm_num)) _ _ (by simp),
      decodeQuanta_char _ (Nat.mod_lt _ (by norm_num)) _ _ (by simp),
      decodeQuanta_char _ (Nat.mod_lt _ (by norm_num)) _ _ (by simp)]
    rw [decodeQuanta, decodeMap_pad]
    simp [skipNewlines, assemble_three]
  | case3 a =>
    rw [stdBase64Encode]
    rw [decodeQuanta_char _ (Nat.mod_lt _ (by norm_num)) _ _ (by simp),
      decodeQuanta_char _ (Nat.mod_lt _ (by norm_num)) _ _ (by simp)]
    rw [decodeQuanta, decodeMap_pad]
    simp [skipNewlines, assemble_two]
  | case4 => rfl

/-! ## Quoted-printable: the reader -/

theorem fromHex_upperhex_fin : ∀ v : Fin 16, fromHex (upperhex v.val) = some v.val := by decide

theorem fromHex_upperhex (v : Nat) (h : v < 16) : fromHex (upperhex v) = some v :=
  fromHex_upperhex_fin ⟨v, h⟩

theorem upperhex_end_fin : ∀ v : Fin 16,
    isQPDiscardWhitespace (upperhex v.val) = false ∧ upperhex v.val ≠ 61 ∧ upperhex v.val ≠ 10 := by
  decide

theorem qpDecodeLine_plain (b : UInt8) (rest : Bytes) (hb : b ≠ 61) :
    qpDecodeLine (b :: rest) = qpPlain b (qpDecodeLine rest) := by
  match rest with
  | [] => rw [qpDecodeLine, if_neg hb]; rfl
  | [h] => rw [qpDecodeLine, if_neg hb]
  | h :: l :: rest => rw [qpDecodeLine, if_neg hb]

theorem qpDecodeLine_hex (b : UInt8) (rest : Bytes) :
    qpDecodeLine (61 :: upperhex (b.toNat / 16) :: upperhex (b.toNat % 16) :: rest) =
      emit b (qpDecodeLine rest) := by
  have hb := b.toNat_lt
  rw [qpDecodeLine, if_pos rfl, fromHex_upperhex _ (by omega), fromHex_upperhex _ (by omega)]
  simp only []
  have : b.toNat / 16 * 16 + b.toNat % 16 = b.toNat := by omega
  rw [this, ofNat_toNat]

theorem qpDecodeLine_token (b : UInt8) (rest : Bytes) :
    qpDecodeLine (qpToken b ++ rest) = emit b (qpDecodeLine rest) := by
  unfold qpToken
  split
  · rename_i h
    have h61 : b ≠ 61 := by
      rcases h with h | h
      · exact h.2.2
      · intro h61; rw [h61] at h; exact absurd h (by decide)
    rw [List.singleton_append, qpDecodeLine_plain b rest h61, qpPlain, if_pos]
    rcases h with h | h
    · right; right; right; right
      have h33 : (33 : UInt8).toNat ≤ b.toNat := h.1
      have h32 : (32 : UInt8).toNat ≤ b.toNat := le_trans (by decide) h33
      exact ⟨h32, h.2.1⟩
    · have : b = 32 ∨ b = 9 := by simpa [isWhitespace] using h
      rcases this with rfl | rfl
      · right; right; right; right; decide
      · left; rfl
  · exact qpDecodeLine_hex b rest

theorem qpDecodeLine_tokens (q : Bytes) (rest : Bytes) :
    qpDecodeLine (q.flatMap qpToken ++ rest) =
      match qpDecodeLine rest with
      | .ok out => .ok (q ++ out)
      | .error e => .error e := by
  induction q with
  | nil =>
    simp only [List.flatMap_nil, List.nil_append]
    cases qpDecodeLine rest <;> rfl
  | cons b q ih =>
    rw [List.flatMap_cons, List.append_assoc, qpDecodeLine_token, ih]
    cases qpDecodeLine rest <;> rfl

theorem qpToken_no_newline (b : UInt8) : (10 : UInt8) ∉ qpToken b := by
  have hb := b.toNat_lt
  unfold qpToken
  split
  · rename_i h
    intro h10
    have : b = 10 := (List.mem_singleton.1 h10).symm
    subst this
    revert h; decide
  · intro h10
    simp only [List.mem_cons, List.mem_singleton, List.not_mem_nil, or_false] at h10
    rcases h10 with h | h | h
    · exact absurd h (by decide)
    · exact (upperhex_end_fin ⟨b.toNat / 16, by omega⟩).2.2 h.symm
    · exact (upperhex_end_fin ⟨b.toNat % 16, by omega⟩).2.2 h.symm

theorem tokens_no_newline (q : Bytes) : (10 : UInt8) ∉ q.flatMap qpToken := by
  intro h
  obtain ⟨b, _, hb⟩ := List.mem_flatMap.1 h
  exact qpToken_no_newline b hb

/-- `ReadSlice` up to the next LF. -/
theorem qpReadAll_line (l : Bytes) : ∀ (cur X : Bytes), (10 : UInt8) ∉ l →
    cur.length + l.length < 4096 →
    qpReadAll (l ++ 10 :: X) cur = qpStep (cur ++ l ++ [10]) none false (fun _ => qpReadAll X []) := by
  induction l with
  | nil =>
    intro cur X _ _
    rw [List.nil_append, qpReadAll, if_pos rfl, List.append_nil]
  | cons b l ih =>
    intro cur X h10 hlen
    have hb : b ≠ 10 := fun h => h10 (by simp [h])
    simp only [List.length_cons] at hlen
    rw [List.cons_append, qpReadAll, if_neg hb, if_neg (by omega),
      ih (cur ++ [b]) X (fun h => h10 (by simp [h])) (by simp; omega)]
    simp

/-- `ReadSlice` at the end of the input. -/
theorem qpReadAll_end (l : Bytes) : ∀ (cur : Bytes), (10 : UInt8) ∉ l →
    cur.length + l.length < 4096 →
    qpReadAll l cur =
      match qpDecodeLine (qpLine (cur ++ l) none true).1 with
      | .error e => .error e
      | .ok out =>
        match (qpLine (cur ++ l) none true).2 with
        | some e => .error e
        | none => .ok out := by
  induction l with
  | nil =>
    intro cur _ _
    rw [qpReadAll, List.append_nil]
  | cons b l ih =>
    intro cur h10 hlen
    have hb : b ≠ 10 := fun h => h10 (by simp [h])
    simp only [List.length_cons] at hlen
    rw [qpReadAll, if_neg hb, if_neg (by omega),
      ih (cur ++ [b]) (fun h => h10 (by simp [h])) (by simp; omega)]
    simp

theorem qpLine_soft (l : Bytes) : qpLine (l ++ [61, 13, 10]) none false = (l, none) := by
  have h1 : (l ++ [61, 13, 10]).rdropWhile isQPDiscardWhitespace = l ++ [61] := by
    have e : l ++ [61, 13, 10] = ((l ++ [61]) ++ [13]) ++ [10] := by simp
    rw [e, List.rdropWhile_concat_pos _ _ _ (by decide), List.rdropWhile_concat_pos _ _ _ (by decide),
      List.rdropWhile_concat_neg _ _ _ (by decide)]
  have h2 : (lit "=").isSuffixOf (l ++ [61]) = true := by
    rw [List.isSuffixOf_iff_suffix]; exact List.suffix_append _ _
  have h3 : (l ++ [61, 13, 10]).drop (l ++ [61]).length = [13, 10] := by
    have e : l ++ [61, 13, 10] = (l ++ [61]) ++ [13, 10] := by simp
    rw [e, List.drop_left]
  simp only [qpLine, h1, h2, h3, if_true, List.dropLast_concat]
  rfl

theorem singleton_suffix_concat (x c : UInt8) (s : Bytes) (h : [x] <:+ s ++ [c]) : x = c := by
  have := h.getLast (by simp)
  simpa using this

theorem qpLine_end (l : Bytes) (h : GoodEnd l) : qpLine l none true = (l, none) := by
  rcases h with rfl | ⟨s, c, rfl, hc, h61⟩
  · rfl
  · have h1 : (s ++ [c]).rdropWhile isQPDiscardWhitespace = s ++ [c] :=
      List.rdropWhile_concat_neg _ _ _ (by simp [hc])
    have h2 : (lit "=").isSuffixOf (s ++ [c]) = false := by
      rw [Bool.eq_false_iff]
      intro h
      rw [List.isSuffixOf_iff_suffix] at h
      exact h61 (singleton_suffix_concat 61 c s h).symm
    have h3 : (lit "\n").isSuffixOf (s ++ [c]) = false := by
      rw [Bool.eq_false_iff]
      intro h
      rw [List.isSuffixOf_iff_suffix] at h
      rw [← singleton_suffix_concat 10 c s h] at hc
      exact absurd hc (by decide)
    simp only [qpLine, h1, h2, h3, Bool.false_eq_true, if_false]

/-- A line that ends in a soft line break is decoded and the reading goes on after it. -/
theorem qpReadAll_soft (l X : Bytes) (h10 : (10 : UInt8) ∉ l) (hlen : l.length ≤ 75) :
    qpReadAll (l ++ [61, 13, 10] ++ X) [] =
      match qpDecodeLine l with
      | .error e => .error e
      | .ok out =>
        match qpReadAll X [] with
        | .ok more => .ok (out ++ more)
        | .error e => .error e := by
  have e : l ++ [61, 13, 10] ++ X = (l ++ [61, 13]) ++ 10 :: X := by simp
  rw [e, qpReadAll_line (l ++ [61, 13]) [] X (by
    intro h
    rcases List.mem_append.1 h with h | h
    · exact h10 h
    · revert h; decide) (by simp; omega)]
  have e2 : [] ++ (l ++ [61, 13]) ++ [10] = l ++ [61, 13, 10] := by simp
  rw [e2, qpStep, qpLine_soft]

/-- The last line of the input, when it does not end in white space or `=`. -/
theorem qpReadAll_last (l : Bytes) (h10 : (10 : UInt8) ∉ l) (hlen : l.length ≤ 80)
    (hend : GoodEnd l) : qpReadAll l [] = qpDecodeLine l := by
  rw [qpReadAll_end l [] h10 (by simp; omega), List.nil_append, qpLine_end l hend]
  cases qpDecodeLine l <;> rfl

/-- The model on the inputs of the table of `TestReader` in
`mime/quotedprintable/reader_test.go` that end without an error or with an error of the
reader, with the results of the table: lax hexadecimal digits, a literal `=`, trailing white
space, bare CR and LF, the soft line breaks, and the errors `invalid unescaped byte`,
`invalid hex byte` and `invalid bytes after =`. -/
theorem qpReadAll_reader_table :
    qpReadAll (lit "foo bar=3D") [] = .ok (lit "foo bar=") ∧
    qpReadAll (lit "foo bar=3d") [] = .ok (lit "foo bar=") ∧
    qpReadAll (lit "foo bar=\n") [] = .ok (lit "foo bar") ∧
    qpReadAll (lit "foo bar\n") [] = .ok (lit "foo bar\n") ∧
    qpReadAll (lit "foo bar=0") [] = .ok (lit "foo bar=0") ∧
    qpReadAll (lit "foo bar=0D=0A") [] = .ok (lit "foo bar\r\n") ∧
    qpReadAll (lit " A B        \r\n C ") [] = .ok (lit " A B\r\n C") ∧
    qpReadAll (lit " A B =\r\n C ") [] = .ok (lit " A B  C") ∧
    qpReadAll (lit " A B =\n C ") [] = .ok (lit " A B  C") ∧
    qpReadAll (lit "foo=\nbar") [] = .ok (lit "foobar") ∧
    qpReadAll (lit "foo\x00bar") [] = .error .qpInvalidByte ∧
    qpReadAll (lit "=3D30\n") [] = .ok (lit "=30\n") ∧
    qpReadAll (lit "=00=FF0=\n") [] = .ok [0, 255, 48] ∧
    qpReadAll (lit "foo  \n") [] = .ok (lit "foo\n") ∧
    qpReadAll (lit "foo  \n\nfoo =\n\nfoo=20\n\n") [] = .ok (lit "foo\n\nfoo \nfoo \n\n") ∧
    qpReadAll (lit "foo\nbar") [] = .ok (lit "foo\nbar") ∧
    qpReadAll (lit "foo\rbar") [] = .ok (lit "foo\rbar") ∧
    qpReadAll (lit "foo\r\nbar") [] = .ok (lit "foo\r\nbar") ∧
    qpReadAll (lit "foo=\r\nbar") [] = .ok (lit "foobar") ∧
    qpReadAll (lit "foo=\rbar") [] = .error .qpInvalidHex ∧
    qpReadAll (lit "foo=\r\r\r \nbar") [] = .error .qpInvalidSoftBreak ∧
    qpReadAll (lit "foo=") [] = .ok (lit "foo") ∧
    qpReadAll (lit "=") [] = .error .qpInvalidSoftBreak := by
  repeat' constructor

/-! ## Quoted-printable: the writer -/

theorem lit_not_newline (b : UInt8) (h : (33 ≤ b ∧ b ≤ 126 ∧ b ≠ 61) ∨ isWhitespace b = true) :
    b ≠ 10 ∧ b ≠ 13 := by
  constructor <;> (intro hb; subst hb; revert h; decide)

theorem softBreak_out (w : Writer) :
    w.insertSoftLineBreak.out = w.out ++ (w.line ++ [61, 13, 10]) ∧
    w.insertSoftLineBreak.line = [] ∧ w.insertSoftLineBreak.Binary = w.Binary := by
  simp [Writer.insertSoftLineBreak, Writer.insertCRLF, Writer.flush, lit]

/-- One byte written in `Binary` mode: its token is put at the end of the line, or a soft line
break is written first and the token begins the next line. -/
theorem Write1_binary (w : Writer) (b : UInt8) (hbin : w.Binary = true)
    (hlen : w.line.length ≤ 75) :
    (w.Write1 b).Binary = true ∧ (w.Write1 b).line.length ≤ 75 ∧
    (((w.Write1 b).out = w.out ∧ (w.Write1 b).line = w.line ++ qpToken b) ∨
     ((w.Write1 b).out = w.out ++ (w.line ++ [61, 13, 10]) ∧ (w.Write1 b).line = qpToken b)) := by
  by_cases hlit : (33 ≤ b ∧ b ≤ 126 ∧ b ≠ 61) ∨ isWhitespace b = true
  · have hnl := lit_not_newline b hlit
    have hcond : (33 ≤ b ∧ b ≤ 126 ∧ b ≠ 61) ∨ isWhitespace b = true ∨
        ((!w.Binary) = true ∧ (b = 10 ∨ b = 13)) := by
      rcases hlit with h | h
      · exact Or.inl h
      · exact Or.inr (Or.inl h)
    have htok : qpToken b = [b] := by rw [qpToken, if_pos hlit]
    rw [Writer.Write1, if_pos hcond, Writer.write1, if_neg (by simp [hnl.1, hnl.2]), htok]
    by_cases hfull : w.line.length = lineMaxLen - 1
    · simp only [hfull, if_true]
      have hs := softBreak_out w
      refine ⟨by rw [hs.2.2, hbin], by simp [hs.2.1], Or.inr ⟨hs.1, by simp [hs.2.1]⟩⟩
    · simp only [hfull, if_false]
      have : w.line.length ≠ 75 := hfull
      exact ⟨hbin, by simp; omega, by simp⟩
  · have hcond : ¬((33 ≤ b ∧ b ≤ 126 ∧ b ≠ 61) ∨ isWhitespace b = true ∨
        ((!w.Binary) = true ∧ (b = 10 ∨ b = 13))) := by
      intro h
      rcases h with h | h | h
      · exact hlit (Or.inl h)
      · exact hlit (Or.inr h)
      · simp [hbin] at h
    have htok : qpToken b = [61, upperhex (b.toNat / 16), upperhex (b.toNat % 16)] := by
      rw [qpToken, if_neg hlit]
    rw [Writer.Write1, if_neg hcond, Writer.encode, htok]
    by_cases hfull : lineMaxLen - 1 - w.line.length < 3
    · simp only [hfull, if_true]
      have hs := softBreak_out w
      refine ⟨by rw [hs.2.2, hbin], by simp [hs.2.1], Or.inr ⟨hs.1, by simp [hs.2.1]⟩⟩
    · simp only [hfull, if_false]
      have : ¬ (75 - w.line.length < 3) := hfull
      exact ⟨hbin, by simp; omega, by simp⟩

theorem qpDecodeLine_all_tokens (q : Bytes) : qpDecodeLine (q.flatMap qpToken) = .ok q := by
  have h := qpDecodeLine_tokens q []
  rw [List.append_nil] at h
  rw [h]
  show Except.ok (q ++ []) = Except.ok q
  rw [List.append_nil]

theorem upperhex_goodEnd (s : Bytes) (v : Nat) (hv : v < 16) : GoodEnd (s ++ [upperhex v]) :=
  Or.inr ⟨s, upperhex v, rfl, (upperhex_end_fin ⟨v, hv⟩).1, (upperhex_end_fin ⟨v, hv⟩).2.1⟩

theorem upperhex_not_whitespace (v : Nat) (hv : v < 16) : isWhitespace (upperhex v) = false := by
  have := (upperhex_end_fin ⟨v, hv⟩).1
  simp only [isQPDiscardWhitespace, Bool.or_eq_false_iff] at this
  simp [isWhitespace, this.1.2, this.2]

/-- The escaped form of a byte at the end of the input, after the tokens of `q`. -/
theorem qpReadAll_tokens_hex (q : Bytes) (b : UInt8) (hlen : (q.flatMap qpToken).length ≤ 75) :
    qpReadAll (q.flatMap qpToken ++ [61, upperhex (b.toNat / 16), upperhex (b.toNat % 16)]) [] =
      .ok (q ++ [b]) := by
  have hb := b.toNat_lt
  have hend : GoodEnd (q.flatMap qpToken ++ [61, upperhex (b.toNat / 16), upperhex (b.toNat % 16)]) := by
    have := upperhex_goodEnd (q.flatMap qpToken ++ [61, upperhex (b.toNat / 16)]) (b.toNat % 16)
      (by omega)
    simpa using this
  rw [qpReadAll_last _ (by
      intro h
      rcases List.mem_append.1 h with h | h
      · exact tokens_no_newline q h
      · simp only [List.mem_cons, List.mem_singleton, List.not_mem_nil, or_false] at h
        rcases h with h | h | h
        · exact absurd h (by decide)
        · exact (upperhex_end_fin ⟨b.toNat / 16, by omega⟩).2.2 h.symm
        · exact (upperhex_end_fin ⟨b.toNat % 16, by omega⟩).2.2 h.symm)
    (by simp [-List.length_flatMap]; omega) hend, qpDecodeLine_tokens, qpDecodeLine_hex]
  rfl

/-- `Close` writes what is left in the line, and it decodes to the payload of the line. -/
theorem Close_decodes (w : Writer) (q : Bytes) (hline : w.line = q.flatMap qpToken)
    (hlen : w.line.length ≤ 75) :
    ∃ T, w.Close.out = w.out ++ T ∧ qpReadAll T [] = .ok q := by
  rcases List.eq_nil_or_concat q with rfl | ⟨q, b, rfl⟩
  · refine ⟨[], ?_, rfl⟩
    have : w.line = [] := by simpa using hline
    simp [-List.length_flatMap, Writer.Close, Writer.checkLastByte, Writer.flush, this]
  · simp only [List.concat_eq_append, List.flatMap_append, List.flatMap_cons, List.flatMap_nil,
      List.append_nil] at hline ⊢
    have hb := b.toNat_lt
    have hq : (q.flatMap qpToken).length ≤ 75 := by
      rw [hline] at hlen
      simp only [List.length_append] at hlen
      omega
    by_cases hlit : (33 ≤ b ∧ b ≤ 126 ∧ b ≠ 61) ∨ isWhitespace b = true
    · have htok : qpToken b = [b] := by rw [qpToken, if_pos hlit]
      rw [htok] at hline
      by_cases hws : isWhitespace b = true
      · by_cases hfull : lineMaxLen - 1 - (q.flatMap qpToken).length < 3
        · refine ⟨q.flatMap qpToken ++ [61, 13, 10] ++
            [61, upperhex (b.toNat / 16), upperhex (b.toNat % 16)], ?_, ?_⟩
          · simp [-List.length_flatMap, Writer.Close, Writer.checkLastByte, Writer.flush, Writer.encode, hline, hws,
              hfull, Writer.insertSoftLineBreak, Writer.insertCRLF, lit]
          · rw [qpReadAll_soft _ _ (tokens_no_newline q) hq, qpDecodeLine_all_tokens]
            have := qpReadAll_tokens_hex [] b (by simp)
            simp only [List.flatMap_nil, List.nil_append] at this
            rw [this]
        · refine ⟨q.flatMap qpToken ++ [61, upperhex (b.toNat / 16), upperhex (b.toNat % 16)],
            ?_, qpReadAll_tokens_hex q b hq⟩
          simp [-List.length_flatMap, Writer.Close, Writer.checkLastByte, Writer.flush, Writer.encode, hline, hws, hfull]
      · refine ⟨q.flatMap qpToken ++ [b], ?_, ?_⟩
        · simp [-List.length_flatMap, Writer.Close, Writer.checkLastByte, Writer.flush, hline, hws]
        · have hnl := lit_not_newline b hlit
          have h61 : b ≠ 61 := by
            rcases hlit with h | h
            · exact h.2.2
            · exact absurd h hws
          have hend : GoodEnd (q.flatMap qpToken ++ [b]) := by
            refine Or.inr ⟨_, b, rfl, ?_, h61⟩
            simp only [isWhitespace, Bool.or_eq_true, decide_eq_true_eq, not_or] at hws
            simp [isQPDiscardWhitespace, hnl.1, hnl.2, hws.1, hws.2]
          rw [qpReadAll_last _ (by
              have := tokens_no_newline (q ++ [b])
              simpa [htok] using this) (by simp [-List.length_flatMap]; omega) hend]
          have := qpDecodeLine_all_tokens (q ++ [b])
          simpa [htok] using this
    · have htok : qpToken b = [61, upperhex (b.toNat / 16), upperhex (b.toNat % 16)] := by
        rw [qpToken, if_neg hlit]
      rw [htok] at hline
      refine ⟨q.flatMap qpToken ++ [61, upperhex (b.toNat / 16), upperhex (b.toNat % 16)],
        ?_, qpReadAll_tokens_hex q b hq⟩
      have hws := upperhex_not_whitespace (b.toNat % 16) (by omega)
      have hlast : (q.flatMap qpToken ++ [61, upperhex (b.toNat / 16),
          upperhex (b.toNat % 16)]).getLast? = some (upperhex (b.toNat % 16)) := by simp
      simp [-List.length_flatMap, Writer.Close, Writer.checkLastByte, Writer.flush, hline, hws, hlast]

/-- What is written from a state of the writer on decodes to the payload of its line followed
by the bytes written. -/
theorem Write_decodes (p : Bytes) : ∀ (w : Writer) (q : Bytes), w.Binary = true →
    w.line = q.flatMap qpToken → w.line.length ≤ 75 →
    ∃ T, (w.Write p).Close.out = w.out ++ T ∧ qpReadAll T [] = .ok (q ++ p) := by
  induction p with
  | nil =>
    intro w q _ hline hlen
    simpa [Writer.Write] using Close_decodes w q hline hlen
  | cons b p ih =>
    intro w q hbin hline hlen
    have hW : w.Write (b :: p) = (w.Write1 b).Write p := by simp [Writer.Write]
    rw [hW]
    rcases Write1_binary w b hbin hlen with ⟨hbin2, hlen2, ⟨hout, hl⟩ | ⟨hout, hl⟩⟩
    · obtain ⟨T, hT, hdec⟩ := ih (w.Write1 b) (q ++ [b]) hbin2 (by rw [hl, hline]; simp) hlen2
      exact ⟨T, by rw [hT, hout], by simpa using hdec⟩
    · obtain ⟨T, hT, hdec⟩ := ih (w.Write1 b) [b] hbin2 (by rw [hl]; simp) hlen2
      refine ⟨w.line ++ [61, 13, 10] ++ T, by rw [hT, hout]; simp, ?_⟩
      rw [hline, qpReadAll_soft _ _ (tokens_no_newline q) (hline ▸ hlen), qpDecodeLine_all_tokens,
        hdec]
      rfl

theorem quotedPrintable_roundtrip (p : Bytes) :
    qpReadAll (quotedPrintableEncode true p) [] = .ok p := by
  obtain ⟨T, hT, hdec⟩ := Write_decodes p { Binary := true, out := [], line := [], cr := false } []
    rfl rfl (by simp)
  rw [quotedPrintableEncode, hT]
  simpa using hdec

/-- In text mode the writer turns a lone LF into CRLF, which the reader keeps: the text mode
is not an encoding of byte payloads. -/
theorem quotedPrintable_text_mode_newline :
    quotedPrintableEncode false (lit "a\nb") = lit "a\r\nb" ∧
    qpReadAll (quotedPrintableEncode false (lit "a\nb")) [] = .ok (lit "a\r\nb") := by
  decide

/-! ## The multipart loop -/

theorem handlePartsGmail_eq (L : GoLib) (ps : Parts) : handlePartsGmail L ps = handleParts L ps := by
  induction ps with
  | eof => rfl
  | fail e => rfl
  | part p rest ih => simp only [handlePartsGmail, handleParts, ih]

theorem handleParts_cons_text (L : GoLib) (p : Part) (ps : List Part) (h : isTextPart p = true) :
    handleParts L (Parts.ofList (p :: ps)) =
      match renderPart L p with
      | .error err => .error err
      | .ok partContent =>
        match handleParts L (Parts.ofList ps) with
        | .error err => .error err
        | .ok more => .ok (partContent ++ lit "\n\n" ++ more) := by
  simp only [isTextPart, contentTypeKey] at h
  simp only [Parts.ofList, handleParts, h, if_true, renderPart, contentTypeKey, transferEncodingKey]

theorem handleParts_cons_skip (L : GoLib) (p : Part) (ps : List Part) (h : isTextPart p = false) :
    handleParts L (Parts.ofList (p :: ps)) = handleParts L (Parts.ofList ps) := by
  simp only [isTextPart, contentTypeKey] at h
  simp [Parts.ofList, handleParts, h]

theorem handleParts_ofList (L : GoLib) (ps : List Part) :
    handleParts L (Parts.ofList ps) =
      ((ps.filter isTextPart).mapM (renderPart L)).map concatParts := by
  induction ps with
  | nil => rfl
  | cons p ps ih =>
    by_cases h : isTextPart p = true
    · rw [handleParts_cons_text L p ps h, List.filter_cons_of_pos h, List.mapM_cons, ih]
      cases renderPart L p with
      | error e => rfl
      | ok t =>
        cases List.mapM (renderPart L) (List.filter isTextPart ps) with
        | error e => rfl
        | ok ts =>
          show Except.ok (t ++ lit "\n\n" ++ concatParts ts) = Except.ok (concatParts (t :: ts))
          simp [concatParts]
    · have h2 : isTextPart p = false := by simpa using h
      rw [handleParts_cons_skip L p ps h2, List.filter_cons_of_neg h, ih]

theorem handleParts_append_skip (L : GoLib) (ps qs : List Part) (p : Part)
    (h : isTextPart p = false) :
    handleParts L (Parts.ofList (ps ++ p :: qs)) = handleParts L (Parts.ofList (ps ++ qs)) := by
  rw [handleParts_ofList, handleParts_ofList]
  simp [List.filter_append, List.filter_cons, h]

theorem multipart_not_text (ct : Bytes) (h : HasPrefix ct (lit "multipart/") = true) :
    HasPrefix ct (lit "text/plain") = false ∧ HasPrefix ct (lit "text/html") = false := by
  cases ct with
  | nil => simp [HasPrefix, lit] at h
  | cons c ct =>
    have hc : c = 109 := by
      simp only [HasPrefix, lit, List.map, List.isPrefixOf, Bool.and_eq_true, beq_iff_eq] at h
      exact h.1.symm
    subst hc
    constructor <;> simp [HasPrefix, lit, List.isPrefixOf]

/-! ## The two top-level paths -/

theorem parseMessage_eq_resolved (L : GoLib) (m : MailMessage) :
    parseMessage L (.ok m) =
      (gmailResolvedBody L m).map (fun body => (joinedHeaders m.Header, body)) := by
  simp only [parseMessage, gmailResolvedBody, mediaTypeOrDefault, joinedHeaders, contentTypeKey,
    transferEncodingKey]
  cases ParseMediaType L (m.Header.Get (lit "Content-Type")) with
  | error e =>
    simp only []
    split <;> rename_i h <;>
      (cases hh : handleSinglePartGmail L (.ok m.Body) _ _ <;> simp_all [Except.map])
  | ok v =>
    obtain ⟨ct, params⟩ := v
    simp only []
    split <;> rename_i h <;> split <;> simp_all [Except.map]

theorem imap_eq_resolved (L : GoLib) (m : MailMessage) :
    IMAP.GetMessageBody L (.ok m) =
      (imapResolvedBody L m).map (fun body => formatHeaders m.Header ++ lit "\n\n" ++ body) := by
  simp only [IMAP.GetMessageBody, imapResolvedBody, mediaTypeOrDefault, contentTypeKey,
    transferEncodingKey]
  cases ParseMediaType L (m.Header.Get (lit "Content-Type")) with
  | error e =>
    simp only []
    split <;> rename_i h <;>
      (cases hh : handleSinglePart L (.ok m.Body) _ _ <;> simp_all [Except.map])
  | ok v =>
    obtain ⟨ct, params⟩ := v
    simp only []
    split <;> rename_i h <;> split <;> simp_all [Except.map]

theorem gmail_eq_resolved (L : GoLib) (m : MailMessage) :
    GmailClient.GetMessageBody L (.ok m) =
      (gmailResolvedBody L m).map
        (fun body => formatHeadersGmail (joinedHeaders m.Header) ++ lit "\n\n" ++ body) := by
  rw [GmailClient.GetMessageBody, parseMessage_eq_resolved]
  cases gmailResolvedBody L m <;> rfl

theorem parseMediaType_absent (L : GoLib) : ParseMediaType L [] = .error .mediaType := rfl

theorem get_of_lookup_none (h : Header) (key : Bytes) (hk : h.lookup key = none) :
    h.Get key = [] := by
  simp [Header.Get, hk]

/-- With an absent or unparseable Content-Type both paths go on with `text/plain`. -/
theorem mediaTypeOrDefault_bad (L : GoLib) (m : MailMessage)
    (hbad : m.Header.lookup contentTypeKey = none ∨
      ∃ e, ParseMediaType L (m.Header.Get contentTypeKey) = .error e) :
    mediaTypeOrDefault L (m.Header.Get contentTypeKey) = (lit "text/plain", []) := by
  rcases hbad with h | ⟨e, h⟩
  · rw [get_of_lookup_none _ _ h]; rfl
  · rw [mediaTypeOrDefault, h]

theorem resolved_bad (L : GoLib) (m : MailMessage)
    (hbad : m.Header.lookup contentTypeKey = none ∨
      ∃ e, ParseMediaType L (m.Header.Get contentTypeKey) = .error e) :
    gmailResolvedBody L m =
      handleSinglePartGmail L (.ok m.Body) (lit "text/plain") (m.Header.Get transferEncodingKey) ∧
    imapResolvedBody L m =
      handleSinglePart L (.ok m.Body) (lit "text/plain") (m.Header.Get transferEncodingKey) := by
  have hp : HasPrefix (lit "text/plain") (lit "multipart/") = false := by decide
  simp [gmailResolvedBody, imapResolvedBody, mediaTypeOrDefault_bad L m hbad, hp]

theorem handleSinglePartGmail_plain (L : GoLib) (body encoding : Bytes) :
    handleSinglePartGmail L (.ok body) (lit "text/plain") encoding =
      (decodeBodyGmail L body encoding).map formatText := by
  have hp : HasPrefix (lit "text/plain") (lit "text/html") = false := by decide
  simp only [handleSinglePartGmail, renderMessageBodyGmail, hp]
  cases decodeBodyGmail L body encoding <;> rfl

theorem handleSinglePart_plain (L : GoLib) (body encoding : Bytes) :
    handleSinglePart L (.ok body) (lit "text/plain") encoding = decodeBody L body encoding := by
  have hp : HasPrefix (lit "text/plain") (lit "text/html") = false := by decide
  simp only [handleSinglePart, renderImapMessage, hp]
  cases decodeBody L body encoding <;> rfl

/-! ## Quoted-printable: an `=` that begins no escape -/

theorem printable_bounds (b : UInt8) (h : 32 ≤ b ∧ b ≤ 126) : b ≠ 13 ∧ b ≠ 10 ∧ b ≠ 9 := by
  have h32 : (32 : UInt8).toNat ≤ b.toNat := h.1
  have hne : ∀ c : UInt8, c.toNat < 32 → b ≠ c := by
    intro c hc hbc
    rw [hbc] at h32
    have : (32 : UInt8).toNat = 32 := rfl
    omega
  exact ⟨hne 13 (by decide), hne 10 (by decide), hne 9 (by decide)⟩

theorem qpPlain_printable (b : UInt8) (out : Bytes) (h : 32 ≤ b ∧ b ≤ 126) :
    qpPlain b (.ok out) = .ok (b :: out) := by
  rw [qpPlain, if_pos (Or.inr (Or.inr (Or.inr (Or.inr h))))]
  rfl

/-- A line of printable characters and spaces without an escape and without a final `=` is
decoded to itself. -/
theorem qpDecodeLine_literal : ∀ (l : Bytes), (∀ b ∈ l, 32 ≤ b ∧ b ≤ 126) →
    hasEscape l = false → l.getLast? ≠ some 61 → qpDecodeLine l = .ok l
  | [], _, _, _ => rfl
  | [b], hp, _, hl => by
    have hb : b ≠ 61 := fun h => hl (by simp [h])
    rw [qpDecodeLine, if_neg hb, qpPlain_printable b [] (hp b (by simp))]
  | [b, h], hp, _, hl => by
    have ih := qpDecodeLine_literal [h] (fun x hx => hp x (by simp [List.mem_singleton.1 hx]))
      rfl (by simpa using hl)
    have hh := printable_bounds h (hp h (by simp))
    rw [qpDecodeLine, ih]
    by_cases hb : b = 61
    · rw [if_pos hb, if_pos ⟨hh.1, hh.2.1⟩, hb]; rfl
    · rw [if_neg hb, qpPlain_printable b [h] (hp b (by simp))]
  | b :: h :: l :: rest, hp, he, hl => by
    have he2 : hasEscape (h :: l :: rest) = false := by
      rw [hasEscape, Bool.or_eq_false_iff] at he
      exact he.2
    have ih := qpDecodeLine_literal (h :: l :: rest)
      (fun x hx => hp x (List.mem_cons_of_mem _ hx)) he2 (by simpa using hl)
    have hh := printable_bounds h (hp h (by simp))
    rw [qpDecodeLine, ih]
    by_cases hb : b = 61
    · have hhex : ¬((fromHex h).isSome = true ∧ (fromHex l).isSome = true) := by
        rw [hasEscape, Bool.or_eq_false_iff] at he
        intro hx
        have := he.1
        simp [hb, hx.1, hx.2] at this
      rw [if_pos hb]
      cases h1 : fromHex h with
      | none => simp only [emit, if_pos (And.intro hh.1 hh.2.1), hb]
      | some hv =>
        cases h2 : fromHex l with
        | none => simp only [emit, if_pos (And.intro hh.1 hh.2.1), hb]
        | some lv => exact absurd ⟨by simp [h1], by simp [h2]⟩ hhex
    · rw [if_neg hb, qpPlain_printable b _ (hp b (by simp))]

theorem qpReadAll_literal (body : Bytes) (hprint : ∀ b ∈ body, 32 ≤ b ∧ b ≤ 126)
    (hesc : hasEscape body = false) (hlast : body.getLast? ≠ some 61)
    (hspace : body.getLast? ≠ some 32)
    (hlen : body.length < 4096) : qpReadAll body [] = .ok body := by
  have h10 : (10 : UInt8) ∉ body := fun h => (printable_bounds 10 (hprint 10 h)).2.1 rfl
  have hend : GoodEnd body := by
    rcases List.eq_nil_or_concat body with rfl | ⟨s, c, rfl⟩
    · exact Or.inl rfl
    · simp only [List.concat_eq_append] at hprint hlast hspace ⊢
      have hc := printable_bounds c (hprint c (by simp))
      have h32 : c ≠ 32 := fun h => hspace (by simp [h])
      refine Or.inr ⟨s, c, rfl, ?_, ?_⟩
      · simp [isQPDiscardWhitespace, hc.1, hc.2.1, hc.2.2, h32]
      · intro h61
        exact hlast (by simp [h61])
  rw [qpReadAll_end body [] h10 (by simpa using hlen), List.nil_append, qpLine_end body hend,
    qpDecodeLine_literal body hprint hesc hlast]

/-! ## Runs of newlines in the output of `formatText` -/

theorem no_triple_of_head_not (s : Bytes)
    (hs : s = [] ∨ ∃ c t, s = c :: t ∧ isNewline c = false)
    (h : ¬ (lit "\n\n\n" <:+: s)) :
    ¬ (lit "\n\n\n" <:+: 10 :: s) ∧ ¬ (lit "\n\n\n" <:+: 10 :: 10 :: s) := by
  have e : lit "\n\n\n" = [10, 10, 10] := rfl
  rw [e] at h ⊢
  rcases hs with rfl | ⟨c, t, rfl, hc⟩
  · constructor <;> decide
  · have hc2 : c ≠ 10 := by simpa [isNewline] using hc
    have hc3 : ¬ (10 = c) := fun h => hc2 h.symm
    constructor
    · intro hi
      rcases List.infix_cons_iff.1 hi with hp | hi
      · simp [List.cons_prefix_cons, hc3] at hp
      · exact h hi
    · intro hi
      rcases List.infix_cons_iff.1 hi with hp | hi
      · simp [List.cons_prefix_cons, hc3] at hp
      · rcases List.infix_cons_iff.1 hi with hp | hi
        · simp [List.cons_prefix_cons, hc3] at hp
        · exact h hi

/-- The output of `\n{2,}` → two newlines has no three newlines in a row. -/
theorem replaceRuns_no_triple (s : Bytes) :
    ¬ (lit "\n\n\n" <:+: replaceRuns isNewline 2 (lit "\n\n") s) := by
  generalize hn : s.length = n
  induction n using Nat.strong_induction_on generalizing s with
  | _ n ih =>
    cases s with
    | nil => decide
    | cons b s =>
      by_cases hb : isNewline b = true
      · have hrest := ih _ (by rw [← hn]; exact Nat.lt_succ_of_le (length_dropWhile_le _ _))
          (s.dropWhile isNewline) rfl
        have hhead := replaceRuns_head_not isNewline 2 (lit "\n\n") _ (head_dropWhile_not isNewline s)
        have hno := no_triple_of_head_not _ hhead hrest
        rw [replaceRuns_cons_pos _ _ _ _ _ hb]
        rcases emit_newlines (b :: s.takeWhile isNewline) (by simp)
          (run_cons_takeWhile isNewline b s hb) with he | he
        · rw [he]; exact hno.1
        · rw [he]; exact hno.2
      · have hb2 : isNewline b = false := by simpa using hb
        have hb3 : ¬ ((10 : UInt8) = b) := fun h => by simp [isNewline, ← h] at hb2
        rw [replaceRuns_cons_neg _ _ _ _ _ hb2]
        intro hi
        rcases List.infix_cons_iff.1 hi with hp | hi
        · have e : lit "\n\n\n" = [10, 10, 10] := rfl
          rw [e] at hp
          simp [List.cons_prefix_cons, hb3] at hp
        · exact ih _ (by rw [← hn]; simp) s rfl hi

/-! ## The HTML steps -/

mutual
theorem text_removeAttrBelow (key : Bytes) : ∀ n : Node, (n.removeAttrBelow key).Text = n.Text
  | .text _ => rfl
  | .comment _ => rfl
  | .doctype _ => rfl
  | .element _ _ children => by
    rw [Node.removeAttrBelow, Node.Text, Node.Text, text_removeAttrOfNodes key children]
  | .document children => by
    rw [Node.removeAttrBelow, Node.Text, Node.Text, text_removeAttrOfNodes key children]
theorem text_removeAttrOfNodes (key : Bytes) :
    ∀ ns : List Node, textOfNodes (removeAttrOfNodes key ns) = textOfNodes ns
  | [] => rfl
  | n :: ns => by
    rw [removeAttrOfNodes, textOfNodes, textOfNodes, text_removeAttrBelow key n,
      text_removeAttrOfNodes key ns]
end

mutual
theorem text_removeElements (tag : Bytes) :
    ∀ n : Node, isElement tag n = false → (n.removeElements tag).Text = n.visibleText tag
  | .text _, _ => rfl
  | .comment _, _ => rfl
  | .doctype _, _ => rfl
  | .element name _ children, h => by
    have hne : ¬ name = tag := by simpa [isElement] using h
    rw [Node.removeElements, Node.Text, Node.visibleText, if_neg hne,
      text_removeElementsOfNodes tag children]
  | .document children, _ => by
    rw [Node.removeElements, Node.Text, Node.visibleText, text_removeElementsOfNodes tag children]
theorem text_removeElementsOfNodes (tag : Bytes) :
    ∀ ns : List Node, textOfNodes (removeElementsOfNodes tag ns) = visibleTextOfNodes tag ns
  | [] => rfl
  | n :: ns => by
    rw [removeElementsOfNodes, visibleTextOfNodes]
    by_cases h : isElement tag n = true
    · rw [if_pos h, text_removeElementsOfNodes tag ns]
      cases n with
      | element name attr children =>
        have : name = tag := by simpa [isElement] using h
        rw [Node.visibleText, if_pos this, List.nil_append]
      | text _ => simp [isElement] at h
      | comment _ => simp [isElement] at h
      | doctype _ => simp [isElement] at h
      | document _ => simp [isElement] at h
    · rw [if_neg h, textOfNodes, text_removeElements tag n (by simpa using h),
        text_removeElementsOfNodes tag ns]
end

/-- The three steps on a parsed document give its visible text. -/
theorem text_of_steps (tag key : Bytes) (children : List Node) :
    (((Node.document children).removeElements tag).removeAttrs key).Text =
      visibleTextOfNodes tag children := by
  rw [Node.removeElements, Node.removeAttrs, Node.Text, text_removeAttrOfNodes,
    text_removeElementsOfNodes]

/-! ## The steps of the specification's normalizer -/

theorem replaceRuns_run (p : UInt8 → Bool) (k : Nat) (repl s : Bytes) :
    replaceRuns p k repl s =
      flushRun k repl (s.takeWhile p) ++ replaceRuns p k repl (s.dropWhile p) := by
  cases s with
  | nil => rfl
  | cons b s =>
    by_cases hb : p b = true
    · rw [replaceRuns_cons_pos _ _ _ _ _ hb, List.takeWhile_cons_of_pos hb,
        List.dropWhile_cons_of_pos hb, flushRun]
      simp
    · rw [List.takeWhile_cons_of_neg hb, List.dropWhile_cons_of_neg hb]
      simp [flushRun]

theorem collapseFrom_eq (p : UInt8 → Bool) (k : Nat) (repl : Bytes) (s : Bytes) :
    ∀ run : Bytes, collapseFrom p k repl run s =
      flushRun k repl (run ++ s.takeWhile p) ++ replaceRuns p k repl (s.dropWhile p) := by
  induction s with
  | nil => intro run; simp [collapseFrom, replaceRuns_nil]
  | cons b s ih =>
    intro run
    by_cases hb : p b = true
    · rw [collapseFrom, if_pos hb, ih, List.takeWhile_cons_of_pos hb,
        List.dropWhile_cons_of_pos hb, List.append_assoc, List.singleton_append]
    · have hb2 : p b = false := by simpa using hb
      rw [collapseFrom, if_neg hb, ih, List.nil_append, ← replaceRuns_run,
        List.takeWhile_cons_of_neg hb, List.dropWhile_cons_of_neg hb, List.append_nil,
        replaceRuns_cons_neg _ _ _ _ _ hb2]

/-- The collapse of runs in the words of the specification is the replacement that the
regular expression does. -/
theorem collapseRuns_eq (p : UInt8 → Bool) (k : Nat) (repl s : Bytes) :
    collapseRuns p k repl s = replaceRuns p k repl s := by
  rw [collapseRuns, collapseFrom_eq, List.nil_append, ← replaceRuns_run]

theorem startsSpace_head (s2 : UInt8 → UInt8 → Bool) (s3 : UInt8 → UInt8 → UInt8 → Bool)
    (c : UInt8) (t : Bytes) (h : startsSpace s2 s3 (c :: t) = false) : asciiSpace c = false := by
  match t, h with
  | [], h => simpa [startsSpace] using h
  | [b], h =>
    simp only [startsSpace, Bool.or_eq_false_iff] at h
    exact h.1
  | b :: d :: rest, h =>
    simp only [startsSpace, Bool.or_eq_false_iff] at h
    exact h.1.1

/-- A line that `strings.TrimSpace` returns is empty or begins and ends with a byte that is no
ASCII white space. -/
theorem trimSpace_ends (l : Bytes) :
    (TrimSpace l = [] ∨ ∃ c t, TrimSpace l = c :: t ∧ asciiSpace c = false) ∧
    (TrimSpace l = [] ∨ ∃ t c, TrimSpace l = t ++ [c] ∧ asciiSpace c = false) := by
  constructor
  · have h := startsSpace_initial space2 space3 _ _ (TrimRightSpace_initial (TrimLeftSpace l))
      (trimRunes_not_startsSpace space2 space3 l)
    change startsSpace space2 space3 (TrimSpace l) = false at h
    cases hl : TrimSpace l with
    | nil => exact Or.inl rfl
    | cons c t =>
      rw [hl] at h
      exact Or.inr ⟨c, t, rfl, startsSpace_head _ _ c t h⟩
  · have h := trimRunes_not_startsSpace (fun a b => space2 b a) (fun a b c => space3 c b a)
      (TrimLeftSpace l).reverse
    rw [TrimSpace, TrimRightSpace]
    cases hr : trimRunes (fun a b => space2 b a) (fun a b c => space3 c b a)
        (TrimLeftSpace l).reverse with
    | nil => exact Or.inl rfl
    | cons c t =>
      rw [hr] at h
      exact Or.inr ⟨t.reverse, c, by simp, startsSpace_head _ _ c t h⟩

theorem isBlank_asciiSpace (c : UInt8) (h : asciiSpace c = false) :
    isBlank c = false ∧ isNewline c = false := by
  simp only [asciiSpace, Bool.or_eq_false_iff, decide_eq_false_iff_not] at h
  simp [isBlank, isNewline, h]

theorem join_cons_nil (ls : List Bytes) :
    Join ([] :: ls) (lit "\n") = if ls = [] then [] else 10 :: Join ls (lit "\n") := by
  cases ls with
  | nil => rfl
  | cons l ls => rw [Join, intercalate_cons_cons, if_neg (by simp)]; rfl

theorem join_concat_nil (ls : List Bytes) :
    Join (ls ++ [[]]) (lit "\n") = if ls = [] then [] else Join ls (lit "\n") ++ [10] := by
  induction ls using List.reverseRecOn with
  | nil => rfl
  | append_singleton init l _ =>
    rw [if_neg (by simp), Join, Join, intercalate_concat, intercalate_concat]
    simp [lit]

/-- The leading newlines of the joined lines are its leading empty lines. -/
theorem join_dropWhile (ls : List Bytes)
    (h : ∀ l ∈ ls, l = [] ∨ ∃ c t, l = c :: t ∧ asciiSpace c = false) :
    (Join ls (lit "\n")).dropWhile isNewline = Join (ls.dropWhile blankLine) (lit "\n") := by
  induction ls with
  | nil => rfl
  | cons l ls ih =>
    rcases h l (by simp) with rfl | ⟨c, t, rfl, hc⟩
    · rw [List.dropWhile_cons_of_pos (by rfl), join_cons_nil, ← ih (fun l hl => h l (by simp [hl]))]
      by_cases hls : ls = []
      · rw [if_pos hls, hls]; rfl
      · rw [if_neg hls, List.dropWhile_cons_of_pos (by rfl)]
    · have hb := isBlank_asciiSpace c hc
      rw [List.dropWhile_cons_of_neg (by simp [blankLine, hb.1])]
      cases ls with
      | nil =>
        have e : Join [c :: t] (lit "\n") = c :: t := by simp [Join, List.intercalate]
        rw [e]
        exact List.dropWhile_cons_of_neg (by simp [hb.2])
      | cons l2 ls =>
        rw [Join, intercalate_cons_cons, List.cons_append, List.cons_append]
        exact List.dropWhile_cons_of_neg (by simp [hb.2])

/-- The trailing newlines of the joined lines are its trailing empty lines. -/
theorem join_rdropWhile (ls : List Bytes)
    (h : ∀ l ∈ ls, l = [] ∨ ∃ t c, l = t ++ [c] ∧ asciiSpace c = false) :
    (Join ls (lit "\n")).rdropWhile isNewline = Join (ls.rdropWhile blankLine) (lit "\n") := by
  induction ls using List.reverseRecOn with
  | nil => rfl
  | append_singleton init l ih =>
    rcases h l (by simp) with rfl | ⟨t, c, rfl, hc⟩
    · rw [List.rdropWhile_concat_pos _ _ _ (by rfl), join_concat_nil,
        ← ih (fun l hl => h l (by simp [hl]))]
      by_cases hls : init = []
      · rw [if_pos hls, hls]; rfl
      · rw [if_neg hls, List.rdropWhile_concat_pos _ _ _ (by rfl)]
    · have hb := isBlank_asciiSpace c hc
      rw [List.rdropWhile_concat_neg _ _ _ (by simp [blankLine, hb.1]), Join, intercalate_concat,
        ← List.append_assoc]
      exact List.rdropWhile_concat_neg _ _ _ (by simp [hb.2])

/-- On lines that `strings.TrimSpace` returned, `strings.Trim(text, "\n")` removes the leading
and the trailing blank lines. -/
theorem trimNewlines_join (ls : List Bytes) :
    TrimNewlines (Join (ls.map TrimSpace) (lit "\n")) =
      Join (trimBlankLines (ls.map TrimSpace)) (lit "\n") := by
  have hends : ∀ l ∈ ls.map TrimSpace,
      (l = [] ∨ ∃ c t, l = c :: t ∧ asciiSpace c = false) ∧
      (l = [] ∨ ∃ t c, l = t ++ [c] ∧ asciiSpace c = false) := by
    intro l hl
    obtain ⟨l0, _, rfl⟩ := List.mem_map.1 hl
    exact trimSpace_ends l0
  rw [TrimNewlines, trimBlankLines, join_rdropWhile _ (fun l hl => (hends l hl).2),
    join_dropWhile _ (fun l hl => (hends l ((List.rdropWhile_prefix _ _).subset hl)).1)]

/-! ## Base64 with the URL alphabet -/

theorem urlDecodeMap_encodeChar_fin :
    ∀ i : Fin 64, urlDecodeMap (urlEncodeChar i.val) = some i.val := by
  decide

theorem urlDecodeMap_encodeChar (v : Nat) (h : v < 64) :
    urlDecodeMap (urlEncodeChar v) = some v :=
  urlDecodeMap_encodeChar_fin ⟨v, h⟩

theorem urlDecodeMap_pad : urlDecodeMap 61 = none := by decide

theorem urlDecodeQuanta_char (v : Nat) (hv : v < 64) (src : Bytes) (dbuf : List Nat)
    (h : dbuf.length ≠ 3) :
    urlDecodeQuanta (urlEncodeChar v :: src) dbuf = urlDecodeQuanta src (dbuf ++ [v]) := by
  rw [urlDecodeQuanta, urlDecodeMap_encodeChar v hv]
  simp only [h, if_false]

theorem urlDecodeQuanta_fourth (v : Nat) (hv : v < 64) (src : Bytes) (dbuf : List Nat)
    (h : dbuf.length = 3) :
    urlDecodeQuanta (urlEncodeChar v :: src) dbuf =
      match urlDecodeQuanta src [] with
      | .ok out => .ok (assemble (dbuf ++ [v]) ++ out)
      | .error e => .error e := by
  rw [urlDecodeQuanta, urlDecodeMap_encodeChar v hv]
  simp only [h, if_true]

/-- The decoder of `base64.URLEncoding` inverts its encoder. -/
theorem urlBase64_roundtrip (p : Bytes) : urlBase64Decode (urlBase64Encode p) = .ok p := by
  unfold urlBase64Decode
  induction p using urlBase64Encode.induct with
  | case1 a b c rest ih =>
    rw [urlBase64Encode]
    rw [urlDecodeQuanta_char _ (Nat.mod_lt _ (by norm_num)) _ _ (by simp),
      urlDecodeQuanta_char _ (Nat.mod_lt _ (by norm_num)) _ _ (by simp),
      urlDecodeQuanta_char _ (Nat.mod_lt _ (by norm_num)) _ _ (by simp),
      urlDecodeQuanta_fourth _ (Nat.mod_lt _ (by norm_num)) _ _ (by simp), ih]
    simp only [List.nil_append, List.cons_append, assemble_four]
  | case2 a b =>
    rw [urlBase64Encode]
    rw [urlDecodeQuanta_char _ (Nat.mod_lt _ (by norm_num)) _ _ (by simp),
      urlDecodeQuanta_char _ (Nat.mod_lt _ (by norm_num)) _ _ (by simp),
      urlDecodeQuanta_char _ (Nat.mod_lt _ (by norm_num)) _ _ (by simp)]
    rw [urlDecodeQuanta, urlDecodeMap_pad]
    simp [skipNewlines, assemble_three]
  | case3 a =>
    rw [urlBase64Encode]
    rw [urlDecodeQuanta_char _ (Nat.mod_lt _ (by norm_num)) _ _ (by simp),
      urlDecodeQuanta_char _ (Nat.mod_lt _ (by norm_num)) _ _ (by simp)]
    rw [urlDecodeQuanta, urlDecodeMap_pad]
    simp [skipNewlines, assemble_two]
  | case4 => rfl

/-! ## The white space of a rendered HTML text -/

/-- After the replacement of the runs of a class that holds the space by one space, the only
byte of the class is the space and no two spaces follow each other. -/
theorem collapsed_replaceRuns (p : UInt8 → Bool) (hp : p 32 = true) (s : Bytes) :
    (∀ b ∈ replaceRuns p 1 (lit " ") s, p b = true → b = 32) ∧
    List.Chain' (fun a b => ¬(a = 32 ∧ b = 32)) (replaceRuns p 1 (lit " ") s) := by
  generalize hn : s.length = n
  induction n using Nat.strong_induction_on generalizing s with
  | _ n ih =>
    cases s with
    | nil => exact ⟨by simp [replaceRuns_nil], by simp [replaceRuns_nil]⟩
    | cons b s =>
      by_cases hb : p b = true
      · have hrest := ih _ (by rw [← hn]; exact Nat.lt_succ_of_le (length_dropWhile_le _ _))
          (s.dropWhile p) rfl
        have hhead := replaceRuns_head_not p 1 (lit " ") _ (head_dropWhile_not p s)
        rw [replaceRuns_cons_pos _ _ _ _ _ hb, if_pos (by simp)]
        refine ⟨?_, ?_⟩
        · intro x hx hpx
          simp only [lit, List.map, List.cons_append, List.nil_append, List.mem_cons] at hx
          rcases hx with hx | hx
          · rw [hx]; rfl
          · exact hrest.1 x hx hpx
        · show List.Chain' _ (32 :: replaceRuns p 1 (lit " ") (s.dropWhile p))
          apply List.Chain'.cons' hrest.2
          intro y hy
          rcases hhead with h0 | ⟨c, t, hc, hcb⟩
          · simp [h0] at hy
          · rw [hc] at hy
            simp only [List.head?_cons, Option.mem_def, Option.some.injEq] at hy
            subst hy
            intro h32
            rw [h32.2, hp] at hcb
            exact absurd hcb (by decide)
      · have hb2 : p b = false := by simpa using hb
        have hrest := ih _ (by rw [← hn]; simp) s rfl
        rw [replaceRuns_cons_neg _ _ _ _ _ hb2]
        refine ⟨?_, ?_⟩
        · intro x hx hpx
          rcases List.mem_cons.1 hx with hx | hx
          · rw [hx, hb2] at hpx; exact absurd hpx (by decide)
          · exact hrest.1 x hx hpx
        · apply List.Chain'.cons' hrest.2
          intro y _ h32
          rw [h32.1, hp] at hb2
          exact absurd hb2 (by decide)

/-- The pattern `\n\s*\n` has no match in a text without a newline. -/
theorem replaceBlankFrom_of_no_newline (t : Bytes) (h : (10 : UInt8) ∉ t) :
    replaceBlankFrom t 0 = t := by
  induction t with
  | nil => rfl
  | cons b t ih =>
    have hb : ¬ b = 10 := fun hb => h (by simp [hb])
    rw [replaceBlankFrom, if_neg (fun hc => hb hc.1), ih (fun ht => h (List.mem_cons_of_mem _ ht))]

theorem startsSpace_trimSpace (l : Bytes) :
    startsSpace space2 space3 (TrimSpace l) = false ∧
    startsSpace (fun a b => space2 b a) (fun a b c => space3 c b a) (TrimSpace l).reverse = false := by
  constructor
  · exact startsSpace_initial space2 space3 _ _ (TrimRightSpace_initial (TrimLeftSpace l))
      (trimRunes_not_startsSpace space2 space3 l)
  · rw [TrimSpace, TrimRightSpace, List.reverse_reverse]
    exact trimRunes_not_startsSpace _ _ _

set_option maxRecDepth 100000 in
/-- The message `helloMessage` as it is sent: the text that the encoder of Go writes. -/
theorem prepareMessage_example :
    PrepareMessageForSending helloMessage =
      { Raw := lit "RnJvbTogYUB4Lm9yZw0KVG86IGJAeS5vcmcNClN1YmplY3Q6IEhpDQpNSU1FLVZlcnNpb246IDEuMA0KQ29udGVudC1UeXBlOiB0ZXh0L3BsYWluOyBjaGFyc2V0PSJ1dGYtOCINCg0KaGVsbG8_",
        ThreadId := lit "t1" } := by
  decide

/-! ## The lines of the Gmail header formatter -/

theorem formatHeadersGmail_writtenLines (headers : List (Bytes × Bytes))
    (htrim : ∀ name value, headers.lookup name = some value → TrimSpace value = value)
    (hnl : ∀ name value, headers.lookup name = some value → 10 ∉ value) :
    formatHeadersGmail headers = Join (writtenLines headers) (lit "\n") ∧
    (writtenLines headers ≠ [] →
      SplitLines (formatHeadersGmail headers) = writtenLines headers) := by
  have hkept : ∀ l ∈ writtenLines headers, KeptLine l ∧ 10 ∉ l := by
    intro l hl
    simp only [writtenLines, List.mem_filterMap] at hl
    obtain ⟨name, hname, hline⟩ := hl
    cases hlk : headers.lookup name with
    | none => simp [hlk] at hline
    | some value =>
      by_cases hv : value = []
      · simp [hlk, hv] at hline
      · simp only [hlk, hv, ne_eq, not_false_eq_true, if_true, Option.some.injEq] at hline
        subst hline
        refine ⟨keptLine_header name value hname hv (htrim name value hlk), ?_⟩
        have h10 := hnl name value hlk
        simp only [headerOrder, List.mem_cons, List.mem_singleton, List.not_mem_nil,
          or_false] at hname
        rcases hname with rfl | rfl | rfl | rfl | rfl <;> simp [lit, h10]
  have heq : formatHeadersGmail headers = Join (writtenLines headers) (lit "\n") := by
    rw [formatHeadersGmail, foldl_headerLines, List.nil_append]
    exact trimSpace_lines _ (fun l hl => (hkept l hl).1)
  refine ⟨heq, fun hne => ?_⟩
  rw [heq]
  exact List.splitOn_intercalate _ 10 (fun l hl => (hkept l hl).2) hne

theorem filterMap_headerLine (headers : List (Bytes × Bytes)) (n : Bytes) (names : List Bytes) :
    (n :: names).filterMap (fun name =>
      match headers.lookup name with
      | some value => if value ≠ [] then some (name ++ lit ": " ++ value) else none
      | none => none) =
    headerLine headers n ++ names.filterMap (fun name =>
      match headers.lookup name with
      | some value => if value ≠ [] then some (name ++ lit ": " ++ value) else none
      | none => none) := by
  rw [List.filterMap_cons, headerLine]
  cases headers.lookup n with
  | none => rfl
  | some v => by_cases hv : v = [] <;> simp [hv]

/-- The lines that the loop writes are the lines of From, To, Cc, Date, Subject, in this
order. -/
theorem writtenLines_eq (headers : List (Bytes × Bytes)) :
    writtenLines headers = headerLines headers := by
  rw [writtenLines, headerOrder, filterMap_headerLine, filterMap_headerLine,
    filterMap_headerLine, filterMap_headerLine, filterMap_headerLine, List.filterMap_nil,
    List.append_nil, headerLines]
  simp only [List.append_assoc]

theorem lookup_mem_values (headers : List (Bytes × Bytes)) (name value : Bytes)
    (h : headers.lookup name = some value) : value ∈ headers.map Prod.snd := by
  induction headers with
  | nil => simp at h
  | cons kv rest ih =>
    obtain ⟨k, v⟩ := kv
    by_cases hk : name = k
    · subst hk
      simp only [List.lookup, beq_self_eq_true, Option.some.injEq] at h
      simp [h]
    · have hk2 : (name == k) = false := by simpa using hk
      simp only [List.lookup, hk2] at h
      simp [ih h]

/-! ## The properties of the specification -/

/-- C1 (evaluation at failing inputs): on the message `Subject: Hi`, empty line, `body` the
Gmail path returns `Subject: Hi`, a blank line and `body`, while the IMAP path returns the five
lines `From: `, `To: `, `Cc: `, `Date: `, `Subject: Hi`, a blank line and `body`; on a message
with all five headers and the body `a  b` the Gmail path returns the body `a b` and the IMAP
path the body `a  b`. The two decoding paths do not produce the same string. -/
theorem gmail_imap_paths_differ (L : GoLib) :
    GmailClient.GetMessageBody L (.ok subjectOnly) = .ok (lit "Subject: Hi\n\nbody") ∧
    IMAP.GetMessageBody L (.ok subjectOnly) =
      .ok (lit "From: \nTo: \nCc: \nDate: \nSubject: Hi\n\nbody") ∧
    GmailClient.GetMessageBody L (.ok subjectOnly) ≠ IMAP.GetMessageBody L (.ok subjectOnly) ∧
    GmailClient.GetMessageBody L (.ok twoSpaces) = .ok (formatHeaders twoSpaces.Header ++
      lit "\n\na b") ∧
    IMAP.GetMessageBody L (.ok twoSpaces) = .ok (formatHeaders twoSpaces.Header ++
      lit "\n\na  b") ∧
    GmailClient.GetMessageBody L (.ok twoSpaces) ≠ IMAP.GetMessageBody L (.ok twoSpaces) := by
  have h1 : GmailClient.GetMessageBody L (.ok subjectOnly) = .ok (lit "Subject: Hi\n\nbody") := rfl
  have h2 : IMAP.GetMessageBody L (.ok subjectOnly) =
      .ok (lit "From: \nTo: \nCc: \nDate: \nSubject: Hi\n\nbody") := rfl
  have h3 : GmailClient.GetMessageBody L (.ok twoSpaces) = .ok (formatHeaders twoSpaces.Header ++
      lit "\n\na b") := rfl
  have h4 : IMAP.GetMessageBody L (.ok twoSpaces) = .ok (formatHeaders twoSpaces.Header ++
      lit "\n\na  b") := rfl
  refine ⟨h1, h2, ?_, h3, h4, ?_⟩
  · rw [h1, h2]; decide
  · rw [h3, h4]; decide

/-- C2: normalization is idempotent: `formatText (formatText x) = formatText x` for every
text `x`. -/
theorem formatText_idempotent (x : Bytes) : formatText (formatText x) = formatText x :=
  formatText_of_normal _ (formatText_normal x).1 (formatText_normal x).2.1 (formatText_normal x).2.2

/-- C3: base64 round trip: for every byte payload `p`, `decodeBody` and `decodeBodyGmail`
with the encoding `base64` return `p`, with no error, on the standard base64 encoding of `p`. -/
theorem base64_round_trip (L : GoLib) (p : Bytes) :
    decodeBody L (stdBase64Encode p) (lit "base64") = .ok p ∧
    decodeBodyGmail L (stdBase64Encode p) (lit "base64") = .ok p := by
  have h : ToLower L (lit "base64") = lit "base64" := rfl
  simp [decodeBody, decodeBodyGmail, h, stdBase64_roundtrip]

/-- C4: quoted-printable round trip: for every byte payload `p`, `decodeBody` and
`decodeBodyGmail` with the encoding `quoted-printable` return `p`, with no error, on the
quoted-printable encoding of `p` (the encoding of a `quotedprintable.Writer` for byte payloads,
that is with the option `Binary`). -/
theorem quotedPrintable_round_trip (L : GoLib) (p : Bytes) :
    decodeBody L (quotedPrintableEncode true p) (lit "quoted-printable") = .ok p ∧
    decodeBodyGmail L (quotedPrintableEncode true p) (lit "quoted-printable") = .ok p := by
  have h : ToLower L (lit "quoted-printable") = lit "quoted-printable" := rfl
  have hne : lit "quoted-printable" ≠ lit "base64" := by decide
  simp [decodeBody, decodeBodyGmail, h, hne, quotedPrintable_roundtrip]

/-- C5: for a multipart body whose sequence of sub-parts is `ps`, `handleMultipart` and
`handleMultipartGmail` return the rendered texts of exactly the sub-parts whose Content-Type
begins with `text/plain` or `text/html`, in document order, each followed by a blank line (or
the first error of rendering one of them); the other sub-parts are filtered out before any
decoding and contribute nothing. -/
theorem handleMultipart_filters (L : GoLib) (r boundary : Bytes) (ps : List Part)
    (h : NextParts L r boundary = Parts.ofList ps) :
    handleMultipart L r boundary = ((ps.filter isTextPart).mapM (renderPart L)).map concatParts ∧
    handleMultipartGmail L r boundary =
      ((ps.filter isTextPart).mapM (renderPart L)).map concatParts := by
  simp only [handleMultipart, handleMultipartGmail, handlePartsGmail_eq, h, handleParts_ofList,
    and_self]

set_option maxRecDepth 100000 in
/-- The multipart body `mixedBody` holds a `text/plain` part, an `application/octet-stream`
part and a `text/html` part, in this order: the output is the text of the first and of the
third, each followed by a blank line, and the second part, whose decoding would fail, is
filtered out. -/
theorem handleMultipart_filters_witness :
    NextParts mixedLib mixedBody (lit "mix") = Parts.ofList [plainPart, binaryPart, htmlPart] ∧
    [plainPart, binaryPart, htmlPart].filter isTextPart = [plainPart, htmlPart] ∧
    renderPart mixedLib binaryPart = .error .base64Corrupt ∧
    handleMultipart mixedLib mixedBody (lit "mix") = .ok (lit "first\n\nHello\n\n") ∧
    handleMultipartGmail mixedLib mixedBody (lit "mix") = .ok (lit "first\n\nHello\n\n") := by
  have h := handleMultipart_filters mixedLib mixedBody (lit "mix")
    [plainPart, binaryPart, htmlPart] (by decide)
  refine ⟨by decide, by decide, by decide, ?_, ?_⟩
  · rw [h.1]; decide
  · rw [h.2]; decide

/-- C6 (counterexample): the `multipart/mixed` body `outerBody` has one sub-part, a
`multipart/alternative` entity that holds the `text/plain` leaf `hello`; the leaf renders as
`hello`, and both resolvers return the empty string for the message, which does not contain
it. -/
theorem nested_multipart_not_resolved :
    NextParts exampleLib outerBody (lit "out") = Parts.ofList [nestedPart] ∧
    HasPrefix (nestedPart.Header.Get contentTypeKey) (lit "multipart/") = true ∧
    nestedPart.Body = .ok innerBody ∧
    NextParts exampleLib innerBody (lit "in") = Parts.ofList [innerLeaf] ∧
    isTextPart innerLeaf = true ∧
    renderPart exampleLib innerLeaf = .ok (lit "hello") ∧
    handleMultipart exampleLib outerBody (lit "out") = .ok [] ∧
    handleMultipartGmail exampleLib outerBody (lit "out") = .ok [] ∧
    ¬ (lit "hello" <:+: ([] : Bytes)) := by
  refine ⟨by decide, by decide, by decide, by decide, by decide, by decide, by decide, by decide, ?_⟩
  intro h
  have := List.IsInfix.length_le h
  simp [lit] at this

/-- C6 (amended): a sub-part whose Content-Type begins with `multipart/` is skipped by both
resolvers: the resolved body of a message with such a sub-part is the resolved body of the
message without it, whatever the sub-part holds. -/
theorem nested_multipart_skipped (L : GoLib) (r boundary r2 boundary2 : Bytes)
    (ps qs : List Part) (p : Part)
    (hp : HasPrefix (p.Header.Get contentTypeKey) (lit "multipart/") = true)
    (h : NextParts L r boundary = Parts.ofList (ps ++ p :: qs))
    (h2 : NextParts L r2 boundary2 = Parts.ofList (ps ++ qs)) :
    handleMultipart L r boundary = handleMultipart L r2 boundary2 ∧
    handleMultipartGmail L r boundary = handleMultipartGmail L r2 boundary2 := by
  have hskip : isTextPart p = false := by
    simp [isTextPart, (multipart_not_text _ hp).1, (multipart_not_text _ hp).2]
  simp only [handleMultipart, handleMultipartGmail, handlePartsGmail_eq, h, h2,
    handleParts_append_skip L ps qs p hskip, and_self]

/-- The message `outerBody` with its nested multipart sub-part resolves like the message
without any sub-part. -/
theorem nested_multipart_skipped_witness :
    handleMultipart exampleLib outerBody (lit "out") =
      handleMultipart exampleLib emptyOuterBody (lit "out") ∧
    handleMultipartGmail exampleLib outerBody (lit "out") =
      handleMultipartGmail exampleLib emptyOuterBody (lit "out") :=
  nested_multipart_skipped exampleLib outerBody (lit "out") emptyOuterBody (lit "out") [] []
    nestedPart (by decide) (by decide) (by decide)

/-- C7 (as stated, refuted): the Content-Type `multipart/mixed; charset` of the message
`unparsedMultipart` names a multipart type and has no boundary parameter, and
`mime.ParseMediaType` fails on it; both paths then take `text/plain` and return success with
the text of the body, not an error. -/
theorem unparsed_multipart_is_plain :
    HasPrefix (unparsedMultipart.Header.Get contentTypeKey) (lit "multipart/") = true ∧
    ParseMediaType exampleLib (unparsedMultipart.Header.Get contentTypeKey) = .error .mediaType ∧
    parseMessage exampleLib (.ok unparsedMultipart) =
      .ok (joinedHeaders unparsedMultipart.Header, lit "--x\n\nhello\n--x--") ∧
    GmailClient.GetMessageBody exampleLib (.ok unparsedMultipart) =
      .ok (lit "\n\n--x\n\nhello\n--x--") ∧
    IMAP.GetMessageBody exampleLib (.ok unparsedMultipart) =
      .ok (lit "From: \nTo: \nCc: \nDate: \nSubject: \n\n--x\r\n\r\nhello\r\n--x--\r\n") := by
  decide

/-- C7 (amended): when `mime.ParseMediaType` parses the top-level Content-Type to a media type
that begins with `multipart/` and has no `boundary` parameter, `parseMessage`,
`GmailClient.GetMessageBody` and the IMAP decoding all return an error (the empty boundary is
refused by `NextPart`); none returns success. -/
theorem missing_boundary_is_error (L : GoLib) (m : MailMessage) (contentType : Bytes)
    (params : List (Bytes × Bytes))
    (hparse : ParseMediaType L (m.Header.Get contentTypeKey) = .ok (contentType, params))
    (hmulti : HasPrefix contentType (lit "multipart/") = true)
    (hnone : params.lookup (lit "boundary") = none) :
    parseMessage L (.ok m) = .error .emptyBoundary ∧
    GmailClient.GetMessageBody L (.ok m) = .error .emptyBoundary ∧
    IMAP.GetMessageBody L (.ok m) = .error .emptyBoundary := by
  have hb : paramGet params (lit "boundary") = [] := by simp [paramGet, hnone]
  simp only [contentTypeKey] at hparse
  have h1 : parseMessage L (.ok m) = .error .emptyBoundary := by
    simp [parseMessage, hparse, hmulti, hb, handleMultipartGmail, NextParts, handlePartsGmail]
  refine ⟨h1, ?_, ?_⟩
  · simp [GmailClient.GetMessageBody, h1]
  · simp [IMAP.GetMessageBody, hparse, hmulti, hb, handleMultipart, NextParts, handleParts]

/-- The message with `Content-Type: multipart/mixed` and no boundary is refused by both
paths. -/
theorem missing_boundary_is_error_witness :
    parseMessage exampleLib (.ok noBoundary) = .error .emptyBoundary ∧
    GmailClient.GetMessageBody exampleLib (.ok noBoundary) = .error .emptyBoundary ∧
    IMAP.GetMessageBody exampleLib (.ok noBoundary) = .error .emptyBoundary :=
  missing_boundary_is_error exampleLib noBoundary (lit "multipart/mixed") [] (by decide)
    (by decide) (by decide)

/-- C8: for every body `b` and every encoding name whose lower-cased form is neither `base64`
nor `quoted-printable`, `decodeBody` and `decodeBodyGmail` return `b` unchanged, with no
error. -/
theorem unknown_encoding_is_identity (L : GoLib) (b e : Bytes)
    (h64 : ToLower L e ≠ lit "base64") (hqp : ToLower L e ≠ lit "quoted-printable") :
    decodeBody L b e = .ok b ∧ decodeBodyGmail L b e = .ok b := by
  simp [decodeBody, decodeBodyGmail, h64, hqp]

/-- The encodings `""`, `7bit`, `8bit` and `Binary` leave a body as it is. -/
theorem unknown_encoding_is_identity_witness :
    (decodeBody exampleLib (lit "=ZZ\x00") (lit "") = .ok (lit "=ZZ\x00") ∧
      decodeBodyGmail exampleLib (lit "=ZZ\x00") (lit "") = .ok (lit "=ZZ\x00")) ∧
    (decodeBody exampleLib (lit "=ZZ\x00") (lit "7bit") = .ok (lit "=ZZ\x00") ∧
      decodeBodyGmail exampleLib (lit "=ZZ\x00") (lit "7bit") = .ok (lit "=ZZ\x00")) ∧
    (decodeBody exampleLib (lit "=ZZ\x00") (lit "8bit") = .ok (lit "=ZZ\x00") ∧
      decodeBodyGmail exampleLib (lit "=ZZ\x00") (lit "8bit") = .ok (lit "=ZZ\x00")) ∧
    (decodeBody exampleLib (lit "=ZZ\x00") (lit "Binary") = .ok (lit "=ZZ\x00") ∧
      decodeBodyGmail exampleLib (lit "=ZZ\x00") (lit "Binary") = .ok (lit "=ZZ\x00")) :=
  ⟨unknown_encoding_is_identity exampleLib _ (lit "") (by decide) (by decide),
   unknown_encoding_is_identity exampleLib _ (lit "7bit") (by decide) (by decide),
   unknown_encoding_is_identity exampleLib _ (lit "8bit") (by decide) (by decide),
   unknown_encoding_is_identity exampleLib _ (lit "Binary") (by decide) (by decide)⟩

/-- C9: for a header map whose values have no leading or trailing white space and hold no
newline, `formatHeadersGmail` returns the lines `Name: value` of the names From, To, Cc, Date,
Subject that the map holds with a non-empty value, in this order, joined by newlines with no
trailing newline; these are exactly the lines of the output, and the map with the one entry
`Subject: Hi` renders as exactly `Subject: Hi`. -/
theorem formatHeadersGmail_lines (headers : List (Bytes × Bytes))
    (htrim : ∀ name value, headers.lookup name = some value → TrimSpace value = value)
    (hnl : ∀ name value, headers.lookup name = some value → 10 ∉ value) :
    formatHeadersGmail headers = Join (headerLines headers) (lit "\n") ∧
    (headerLines headers ≠ [] → SplitLines (formatHeadersGmail headers) = headerLines headers) ∧
    formatHeadersGmail [(lit "Subject", lit "Hi")] = lit "Subject: Hi" := by
  have h := formatHeadersGmail_writtenLines headers htrim hnl
  rw [writtenLines_eq] at h
  exact ⟨h.1, h.2, by decide⟩

/-- The map `mixedHeaders` renders as the three lines of From, Date and Subject, in the display
order: the empty Cc, the absent To and the header that is not displayed give no line. -/
theorem formatHeadersGmail_lines_witness :
    formatHeadersGmail mixedHeaders = lit "From: a@x.org\nDate: Mon\nSubject: Hi" ∧
    SplitLines (formatHeadersGmail mixedHeaders) =
      [lit "From: a@x.org", lit "Date: Mon", lit "Subject: Hi"] := by
  have hvalues : ∀ name value, List.lookup name mixedHeaders = some value →
      value ∈ [lit "Hi", lit "Mon", lit "", lit "m", lit "a@x.org"] :=
    fun name value hv => lookup_mem_values mixedHeaders name value hv
  have h := formatHeadersGmail_lines mixedHeaders
    (fun name value hv => by
      have hm := hvalues name value hv
      simp only [List.mem_cons, List.mem_singleton, List.not_mem_nil, or_false] at hm
      rcases hm with rfl | rfl | rfl | rfl | rfl <;> decide)
    (fun name value hv => by
      have hm := hvalues name value hv
      simp only [List.mem_cons, List.mem_singleton, List.not_mem_nil, or_false] at hm
      rcases hm with rfl | rfl | rfl | rfl | rfl <;> decide)
  exact ⟨h.1.trans (by decide), (h.2.1 (by decide)).trans (by decide)⟩

/-- C10 (evaluation at a failing input): for the header set that holds only `Subject: Hi`,
`formatHeaders` returns the five lines `From: `, `To: `, `Cc: `, `Date: `, `Subject: Hi`: the
absent headers are written as blank placeholder lines, while `formatHeadersGmail` returns the
one line `Subject: Hi` for the same headers. -/
theorem formatHeaders_blank_placeholders :
    formatHeaders [(lit "Subject", [lit "Hi"])] = lit "From: \nTo: \nCc: \nDate: \nSubject: Hi" ∧
    SplitLines (formatHeaders [(lit "Subject", [lit "Hi"])]) =
      [lit "From: ", lit "To: ", lit "Cc: ", lit "Date: ", lit "Subject: Hi"] ∧
    formatHeadersGmail [(lit "Subject", lit "Hi")] = lit "Subject: Hi" := by
  decide

/-- C13 (evaluation at a failing input): the `text/plain` content `a  b`, with two spaces, is
normalized to `a b` by `formatText` and by `handleSinglePartGmail`, but `handleSinglePart` of
the IMAP backend returns it as it is, and so do the multipart loops of both backends for a
`text/plain` sub-part with this content: these leaves are not normalized. -/
theorem plain_leaves_not_normalized (L : GoLib) :
    formatText (lit "a  b") = lit "a b" ∧
    handleSinglePartGmail L (.ok (lit "a  b")) (lit "text/plain") [] = .ok (lit "a b") ∧
    handleSinglePart L (.ok (lit "a  b")) (lit "text/plain") [] = .ok (lit "a  b") ∧
    handleParts L (Parts.ofList [twoSpacesPart]) = .ok (lit "a  b\n\n") ∧
    handlePartsGmail L (Parts.ofList [twoSpacesPart]) = .ok (lit "a  b\n\n") :=
  ⟨by decide, rfl, rfl, rfl, rfl⟩

/-- C14: for a message that `mail.ReadMessage` has parsed, the string that
`GmailClient.GetMessageBody` and `IMAP.GetMessageBody` return when the body resolves is the
formatted header block, a blank line (`"\n\n"`) and the resolved body text; when the body does
not resolve they return its error, and an error of `mail.ReadMessage` is returned as it is. -/
theorem getMessageBody_joins (L : GoLib) (m : MailMessage) (e : Error) :
    GmailClient.GetMessageBody L (.ok m) =
      (gmailResolvedBody L m).map
        (fun body => formatHeadersGmail (joinedHeaders m.Header) ++ lit "\n\n" ++ body) ∧
    IMAP.GetMessageBody L (.ok m) =
      (imapResolvedBody L m).map (fun body => formatHeaders m.Header ++ lit "\n\n" ++ body) ∧
    GmailClient.GetMessageBody L (.error e) = .error e ∧
    IMAP.GetMessageBody L (.error e) = .error e :=
  ⟨gmail_eq_resolved L m, imap_eq_resolved L m, rfl, rfl⟩

/-- C15: when the Content-Type header is absent or `mime.ParseMediaType` fails on it,
`parseMessage` and the IMAP path resolve the body as the single `text/plain` leaf, and they
return an error exactly when the transfer decoding of the body fails: the parse failure itself
is not returned. -/
theorem contentType_default (L : GoLib) (m : MailMessage)
    (hbad : m.Header.lookup contentTypeKey = none ∨
      ∃ e, ParseMediaType L (m.Header.Get contentTypeKey) = .error e) :
    parseMessage L (.ok m) =
      (handleSinglePartGmail L (.ok m.Body) (lit "text/plain")
        (m.Header.Get transferEncodingKey)).map (fun body => (joinedHeaders m.Header, body)) ∧
    IMAP.GetMessageBody L (.ok m) =
      (handleSinglePart L (.ok m.Body) (lit "text/plain")
        (m.Header.Get transferEncodingKey)).map
          (fun body => formatHeaders m.Header ++ lit "\n\n" ++ body) ∧
    ((∃ e, parseMessage L (.ok m) = .error e) ↔
      ∃ e, decodeBodyGmail L m.Body (m.Header.Get transferEncodingKey) = .error e) ∧
    ((∃ e, IMAP.GetMessageBody L (.ok m) = .error e) ↔
      ∃ e, decodeBody L m.Body (m.Header.Get transferEncodingKey) = .error e) := by
  have hr := resolved_bad L m hbad
  have h1 := parseMessage_eq_resolved L m
  have h2 := imap_eq_resolved L m
  rw [hr.1] at h1
  rw [hr.2] at h2
  refine ⟨h1, h2, ?_, ?_⟩
  · rw [h1, handleSinglePartGmail_plain]
    cases decodeBodyGmail L m.Body (m.Header.Get transferEncodingKey) <;> simp [Except.map]
  · rw [h2, handleSinglePart_plain]
    cases decodeBody L m.Body (m.Header.Get transferEncodingKey) <;> simp [Except.map]

/-- The message without a Content-Type header is resolved as a `text/plain` leaf by both
paths. -/
theorem contentType_default_witness :
    parseMessage exampleLib (.ok subjectOnly) =
      .ok ([(lit "Subject", lit "Hi")], lit "body") ∧
    IMAP.GetMessageBody exampleLib (.ok subjectOnly) =
      .ok (lit "From: \nTo: \nCc: \nDate: \nSubject: Hi\n\nbody") := by
  have h := contentType_default exampleLib subjectOnly (Or.inl (by decide))
  exact ⟨h.1.trans (by decide), h.2.1.trans (by decide)⟩

/-- C17 (counterexample): the Content-Type `text plain` of the message `badTypeBase64` is not
parseable and its body `aGVsbG8=` is declared as base64; both paths return the decoded body
`hello`, not the body as it stands. -/
theorem unparseable_type_still_decoded :
    ParseMediaType exampleLib (badTypeBase64.Header.Get contentTypeKey) = .error .mediaType ∧
    parseMessage exampleLib (.ok badTypeBase64) =
      .ok (joinedHeaders badTypeBase64.Header, lit "hello") ∧
    IMAP.GetMessageBody exampleLib (.ok badTypeBase64) =
      .ok (formatHeaders badTypeBase64.Header ++ lit "\n\nhello") ∧
    formatText badTypeBase64.Body = lit "aGVsbG8=" ∧
    lit "hello" ≠ lit "aGVsbG8=" := by
  decide

/-- C17 (amended): when `mime.ParseMediaType` fails on the Content-Type header, both paths
first decode the body as the Content-Transfer-Encoding header declares, returning the error
of the decoding when it fails, and then render the decoded content as a `text/plain` leaf;
the result is the header block, a blank line and the rendered text. -/
theorem unparseable_type_decodes_declared (L : GoLib) (m : MailMessage) (e : Error)
    (hbad : ParseMediaType L (m.Header.Get contentTypeKey) = .error e) :
    GmailClient.GetMessageBody L (.ok m) =
      (decodeBodyGmail L m.Body (m.Header.Get transferEncodingKey)).bind (fun decoded =>
        (renderMessageBodyGmail L decoded (lit "text/plain")).map (fun text =>
          formatHeadersGmail (joinedHeaders m.Header) ++ lit "\n\n" ++ text)) ∧
    IMAP.GetMessageBody L (.ok m) =
      (decodeBody L m.Body (m.Header.Get transferEncodingKey)).bind (fun decoded =>
        (renderImapMessage L decoded (lit "text/plain")).map (fun text =>
          formatHeaders m.Header ++ lit "\n\n" ++ text)) := by
  have hr := resolved_bad L m (Or.inr ⟨e, hbad⟩)
  rw [gmail_eq_resolved, imap_eq_resolved, hr.1, hr.2, handleSinglePartGmail_plain,
    handleSinglePart_plain]
  constructor
  · cases decodeBodyGmail L m.Body (m.Header.Get transferEncodingKey) <;> rfl
  · cases decodeBody L m.Body (m.Header.Get transferEncodingKey) <;> rfl

/-- The base64 body of `badTypeBase64` is decoded by both paths. -/
theorem unparseable_type_decodes_declared_witness :
    GmailClient.GetMessageBody exampleLib (.ok badTypeBase64) = .ok (lit "\n\nhello") ∧
    IMAP.GetMessageBody exampleLib (.ok badTypeBase64) =
      .ok (lit "From: \nTo: \nCc: \nDate: \nSubject: \n\nhello") := by
  have h := unparseable_type_decodes_declared exampleLib badTypeBase64 .mediaType (by decide)
  exact ⟨h.1.trans (by decide), h.2.trans (by decide)⟩

/-- C20: `handleMultipartGmail` returns the same result, text or error, as `handleMultipart`
for every body and boundary, since its loop renders each sub-part with `handleSinglePart`;
a `text/plain` sub-part with the content `a  b` is therefore written as it is, not as the
`a b` of `formatText`. -/
theorem handleMultipartGmail_eq_handleMultipart (L : GoLib) (r boundary : Bytes) :
    handleMultipartGmail L r boundary = handleMultipart L r boundary ∧
    handlePartsGmail L (Parts.ofList [twoSpacesPart]) = .ok (lit "a  b\n\n") ∧
    handleSinglePartGmail L twoSpacesPart.Body (lit "text/plain") [] = .ok (lit "a b") := by
  refine ⟨?_, rfl, rfl⟩
  rw [handleMultipartGmail, handleMultipart, handlePartsGmail_eq]

/-- C12: for every text `x`, `formatText x` has no three newlines in a row and neither begins
nor ends with a newline, and `formatText "a\n\n\n\nb"` is `"a\n\nb"`. -/
theorem formatText_blank_lines (x : Bytes) :
    ¬ (lit "\n\n\n" <:+: formatText x) ∧
    (formatText x).head? ≠ some 10 ∧ (formatText x).getLast? ≠ some 10 ∧
    formatText (lit "a\n\n\n\nb") = lit "a\n\nb" := by
  obtain ⟨_, ⟨hl, hr⟩, hruns⟩ := formatText_normal x
  refine ⟨?_, ?_, ?_, by decide⟩
  · rw [← hruns]; exact replaceRuns_no_triple _
  · rcases hl with h | ⟨c, s, h, hc⟩
    · rw [h]; simp
    · rw [h]
      have : c ≠ 10 := by simpa [isNewline] using hc
      simpa using this
  · rcases hr with h | ⟨s, c, h, hc⟩
    · rw [h]; simp
    · rw [h]
      have : c ≠ 10 := by simpa [isNewline] using hc
      simpa using this

/-- C16 (as stated, refuted): the body `=ZZ`, whose `=` is followed by two characters that are
not hexadecimal digits, is decoded without an error by `decodeBody` and by `decodeBodyGmail`;
the result is the body itself. -/
theorem malformed_escape_not_rejected :
    decodeBody exampleLib (lit "=ZZ") (lit "quoted-printable") = .ok (lit "=ZZ") ∧
    decodeBodyGmail exampleLib (lit "=ZZ") (lit "quoted-printable") = .ok (lit "=ZZ") := by
  constructor <;> decide

/-- C16 (amended): for every body of ASCII characters from the space to `~` that is shorter
than the 4096 bytes of the line buffer, ends neither with a space nor with `=`, and in which
no `=` is followed by two hexadecimal digits, `decodeBody` and `decodeBodyGmail` with the
encoding `quoted-printable` return the body unchanged and no error: an `=` followed by two
characters that are not both hexadecimal digits is taken as a literal `=`. -/
theorem malformed_escape_is_literal (L : GoLib) (body encoding : Bytes)
    (henc : ToLower L encoding = lit "quoted-printable")
    (hprint : ∀ b ∈ body, 32 ≤ b ∧ b ≤ 126)
    (hesc : hasEscape body = false)
    (hlast : body.getLast? ≠ some 61) (hspace : body.getLast? ≠ some 32)
    (hlen : body.length < 4096) :
    decodeBody L body encoding = .ok body ∧ decodeBodyGmail L body encoding = .ok body := by
  have hne : lit "quoted-printable" ≠ lit "base64" := by decide
  have h := qpReadAll_literal body hprint hesc hlast hspace hlen
  constructor
  · rw [decodeBody, henc, if_neg hne, if_pos rfl, h]
  · rw [decodeBodyGmail, henc, if_neg hne, if_pos rfl, h]

/-- The body `a =ZZ b=4`, with its spaces, its `=ZZ` and its `=4`, is returned as it is. -/
theorem malformed_escape_is_literal_witness :
    decodeBody exampleLib (lit "a =ZZ b=4") (lit "Quoted-Printable") = .ok (lit "a =ZZ b=4") ∧
    decodeBodyGmail exampleLib (lit "a =ZZ b=4") (lit "Quoted-Printable") =
      .ok (lit "a =ZZ b=4") :=
  malformed_escape_is_literal exampleLib (lit "a =ZZ b=4") (lit "Quoted-Printable") (by decide)
    (by decide) (by decide) (by decide) (by decide) (by decide)

/-- C19: for a `text/html` leaf whose body `html.Parse` turns into a document, both renderers
work on the visible text of the document, the data of the text nodes that lie in no `style`
element (the text of an element that carries a `style` attribute is kept):
`renderMessageBodyGmail` returns its `formatText` and `renderImapMessage` its cleaned form. -/
theorem style_elements_stripped (L : GoLib) (body contentType : Bytes) (children : List Node)
    (htype : HasPrefix contentType (lit "text/html") = true)
    (hparse : L.parseHTML body = .ok (.document children)) :
    renderMessageBodyGmail L body contentType =
      .ok (formatText (visibleTextOfNodes (lit "style") children)) ∧
    renderImapMessage L body contentType =
      .ok (TrimSpace (replaceBlankFrom
        (replaceRuns reSpace 1 (lit " ") (visibleTextOfNodes (lit "style") children)) 0)) := by
  constructor
  · simp only [renderMessageBodyGmail, htype, if_true, hparse, text_of_steps]
  · simp only [renderImapMessage, htype, if_true, hparse, text_of_steps]

theorem style_elements_stripped_witness :
    renderMessageBodyGmail exampleLib styledHTML (lit "text/html") = .ok (lit "Hello") ∧
    renderImapMessage exampleLib styledHTML (lit "text/html") = .ok (lit "Hello") :=
  have h := style_elements_stripped exampleLib styledHTML (lit "text/html") _ (by decide) rfl
  ⟨h.1.trans (by decide), h.2.trans (by decide)⟩

/-- C18: when the decoding of the selected message fails with the error `e`, the handler shows
`Error displaying message: e` in the message pane for the backend `gmail`, and for the backend
`imap` it returns early and leaves the pane as it was; for `graph` nothing is decoded and the
pane is emptied. -/
theorem decode_error_display (L : GoLib) (ui : UI) (secondaryText : Bytes) (pane : MessagePane)
    (uid : Int) (e : Error)
    (huid : Atoi secondaryText = .ok uid)
    (hgmail : GmailClient.GetMessageBody L (ui.gmailMessage secondaryText) = .error e)
    (himap : IMAP.GetMessageBody L (ui.imapMessage (uint32 uid)) = .error e) :
    messageSelected L { ui with ActiveService := lit "gmail" } secondaryText pane =
      { text := lit "Error displaying message: " ++ ui.errorString e, lineOffset := 0,
        focused := true } ∧
    messageSelected L { ui with ActiveService := lit "imap" } secondaryText pane = pane ∧
    messageSelected L { ui with ActiveService := lit "graph" } secondaryText pane =
      { text := [], lineOffset := 0, focused := true } := by
  have h1 : lit "imap" ≠ lit "gmail" := by decide
  have h2 : lit "imap" ≠ lit "graph" := by decide
  have h3 : lit "graph" ≠ lit "gmail" := by decide
  refine ⟨?_, ?_, ?_⟩
  · simp only [messageSelected, if_true, renderGmailMessage, hgmail, showContent]
  · simp only [messageSelected, if_neg h1, if_neg h2, if_true, huid, himap]
  · simp only [messageSelected, if_neg h3, if_true, renderGraphMessage, showContent]

theorem decode_error_display_witness :
    messageSelected exampleLib (corruptUI (lit "gmail")) (lit "7") ⟨lit "old", 3, false⟩ =
      ⟨lit "Error displaying message: illegal base64 data at input byte 0", 0, true⟩ ∧
    messageSelected exampleLib (corruptUI (lit "imap")) (lit "7") ⟨lit "old", 3, false⟩ =
      ⟨lit "old", 3, false⟩ ∧
    messageSelected exampleLib (corruptUI (lit "graph")) (lit "7") ⟨lit "old", 3, false⟩ =
      ⟨[], 0, true⟩ :=
  decode_error_display exampleLib (corruptUI (lit "imap")) (lit "7") ⟨lit "old", 3, false⟩ 7
    .base64Corrupt (by decide) (by decide) (by decide)

/-- C11 (as stated, refuted): on the text `a`, newline, space, newline, space, newline, `b` the
four steps of the specification leave three newlines in a row and `formatText` returns two;
on `a` followed by a carriage return the four steps keep the carriage return and `formatText`
removes it. -/
theorem formatText_not_four_steps :
    formatText (lit "a\n \n \nb") ≠ Normalize (lit "a\n \n \nb") ∧
    Normalize (lit "a\n \n \nb") = lit "a\n\n\nb" ∧ formatText (lit "a\n \n \nb") = lit "a\n\nb" ∧
    Normalize (lit "a\r") = lit "a\r" ∧ formatText (lit "a\r") = lit "a" := by
  decide

/-- C11 (amended): for every text `x`, `formatText x` is the result of five steps in this
order: the four steps of the specification, with all white space of `strings.TrimSpace`
trimmed from every line in step 3 (not only spaces and tabs), and then a fifth step that
collapses every run of two or more newlines to two. -/
theorem formatText_five_steps (x : Bytes) :
    formatText x = collapseRuns isNewline 2 (lit "\n\n") (normalizeWith TrimSpace x) := by
  simp only [formatText, normalizeWith, collapseRuns_eq, trimNewlines_join]

/-- C21: the text that `renderImapMessage` returns for a `text/html` body has no newline, tab,
carriage return or form feed and no two spaces in a row, it neither begins nor ends with
white space, and it is a single line: it is `strings.TrimSpace` of a text in which every run
of `\s` is one space, where the pattern `\n\s*\n` has no match. -/
theorem html_rendered_as_one_line (L : GoLib) (body contentType out : Bytes)
    (htype : HasPrefix contentType (lit "text/html") = true)
    (h : renderImapMessage L body contentType = .ok out) :
    (∀ b ∈ out, b ≠ 10 ∧ b ≠ 9 ∧ b ≠ 13 ∧ b ≠ 12) ∧
    List.Chain' (fun a b => ¬(a = 32 ∧ b = 32)) out ∧
    TrimSpace out = out ∧
    startsSpace space2 space3 out = false ∧
    startsSpace (fun a b => space2 b a) (fun a b c => space3 c b a) out.reverse = false ∧
    SplitLines out = [out] ∧
    ∃ text, out = TrimSpace (replaceRuns reSpace 1 (lit " ") text) ∧
      replaceBlankFrom (replaceRuns reSpace 1 (lit " ") text) 0 =
        replaceRuns reSpace 1 (lit " ") text := by
  rw [renderImapMessage, if_pos htype] at h
  cases hdoc : L.parseHTML body with
  | error e => rw [hdoc] at h; exact absurd h (by simp)
  | ok doc =>
    rw [hdoc] at h
    have hw := collapsed_replaceRuns reSpace (by decide)
      ((doc.removeElements (lit "style")).removeAttrs (lit "style")).Text
    have hnl : (10 : UInt8) ∉ replaceRuns reSpace 1 (lit " ")
        ((doc.removeElements (lit "style")).removeAttrs (lit "style")).Text :=
      fun h10 => absurd (hw.1 10 h10 (by decide)) (by decide)
    have hid := replaceBlankFrom_of_no_newline _ hnl
    simp only [hid, Except.ok.injEq] at h
    have hin := TrimSpace_inside (replaceRuns reSpace 1 (lit " ")
      ((doc.removeElements (lit "style")).removeAttrs (lit "style")).Text)
    rw [h] at hin
    have hmem : ∀ b ∈ out, b ≠ 10 ∧ b ≠ 9 ∧ b ≠ 13 ∧ b ≠ 12 := by
      intro b hb
      have hb2 := hw.1 b (hin.subset hb)
      refine ⟨?_, ?_, ?_, ?_⟩ <;> intro hx <;> rw [hx] at hb2 <;>
        exact absurd (hb2 (by decide)) (by decide)
    have hss := startsSpace_trimSpace (replaceRuns reSpace 1 (lit " ")
      ((doc.removeElements (lit "style")).removeAttrs (lit "style")).Text)
    rw [h] at hss
    refine ⟨hmem, ?_, ?_, hss.1, hss.2, splitLines_single out (fun h10 => (hmem 10 h10).1 rfl),
      _, h.symm, hid⟩
    · obtain ⟨a, b, hab⟩ := hin
      have h2 := hw.2
      rw [← hab] at h2
      exact h2.left_of_append.right_of_append
    · rw [← h, TrimSpace_idem]

/-- The two paragraphs of `spacedHTML` are rendered as the one line `Hello big world`. -/
theorem html_rendered_as_one_line_witness :
    renderImapMessage spacedLib spacedHTML (lit "text/html") = .ok (lit "Hello big world") ∧
    SplitLines (lit "Hello big world") = [lit "Hello big world"] ∧
    renderMessageBodyGmail spacedLib spacedHTML (lit "text/html") =
      .ok (lit "Hello\n\nbig world") :=
  ⟨by decide,
   (html_rendered_as_one_line spacedLib spacedHTML (lit "text/html") (lit "Hello big world")
      (by decide) (by decide)).2.2.2.2.2.1,
   by decide⟩

/-- C22: for every message `m`, `PrepareMessageForSending m` has the thread id of `m`, and its
`Raw` field is decoded by `base64.URLEncoding.DecodeString`, the decoder of `GetMessageBody`,
without an error to the header lines `From`, `To`, `Subject`, `MIME-Version` and
`Content-Type`, each ended by CRLF, an empty line and the body of `m`. -/
theorem prepareMessage_round_trip (m : Message) :
    (PrepareMessageForSending m).ThreadId = m.ThreadId ∧
    urlBase64Decode (PrepareMessageForSending m).Raw =
      .ok (lit "From: " ++ m.From ++ lit "\r\n" ++ lit "To: " ++ m.To ++ lit "\r\n" ++
        lit "Subject: " ++ m.Subject ++ lit "\r\n" ++ lit "MIME-Version: 1.0\r\n" ++
        lit "Content-Type: text/plain; charset=\"utf-8\"\r\n" ++ lit "\r\n" ++ m.Body) := by
  refine ⟨rfl, ?_⟩
  simp only [PrepareMessageForSending, urlBase64_roundtrip, List.nil_append, List.append_assoc]

end Mailterm
